import Mathlib

/-!
The package `requester` (GrpcRequester.go): a shallow embedding.

The load generator of `src/requester/GrpcRequester.go` is embedded as follows.

* Go `int` and `time.Duration` are 64-bit: they are `Int` here, wrapped with
  `wrap64` at the two multiplications of the source that can overflow.
* `QPS` is a `float64`.  Its finite values are rationals, so `QPS : ℚ`; the one
  floating-point operation of the source, `1e6/(b.QPS)`, is `f64divPos`, which
  rounds the exact quotient to binary64 (round to nearest, ties to even).
* Channels are values (`Chan`): capacity, buffered elements, closed flag.
* The goroutines of one `Run` (the caller of `Run`, the workers, the reporter
  and a caller of `Stop`) are a transition system: `step` executes one statement
  of one goroutine, `run` executes a schedule.  What the environment decides (the
  outcome of `grpc.Dial` and of `SayHello`, the clock) comes with the scheduled
  action.
-/

namespace requester

/-! ## Machine integers and binary64 -/

/-- Two-complement wrap-around of a 64-bit signed integer. -/
def wrap64 (z : Int) : Int := (z + 2 ^ 63) % 2 ^ 64 - 2 ^ 63

/-- Two-complement wrap-around of a 32-bit signed integer. -/
def wrap32 (z : Int) : Int := (z + 2 ^ 31) % 2 ^ 32 - 2 ^ 31

/-- The smallest `int64`. -/
def minInt64 : Int := -(2 ^ 63)

/-- Number of binary digits of `n`, by halving at most `fuel` times. -/
def bitLenAux : Nat → Nat → Nat
  | 0, _ => 0
  | fuel + 1, n => if n = 0 then 0 else bitLenAux fuel (n / 2) + 1

/-- Number of binary digits of `n` (`0` for `0`). -/
def bitLen (n : Nat) : Nat := bitLenAux n n

/-- A finite non-negative binary64 value, `m / 2 ^ s`. -/
structure F64 where
  m : Nat
  s : Int
deriving DecidableEq, Repr

/-- The rational a binary64 value denotes. -/
def F64.toRat (x : F64) : ℚ := (x.m : ℚ) * (2 : ℚ) ^ (-x.s)

/-- Integer part of a binary64 value (conversion to an integer truncates). -/
def F64.trunc (x : F64) : Nat :=
  if 0 ≤ x.s then x.m / 2 ^ x.s.toNat else x.m * 2 ^ (-x.s).toNat

/-- Nearest natural number to `n / d`, ties to the even one. -/
def roundHalfEven (n d : Nat) : Nat :=
  let q := n / d
  let r := n % d
  if 2 * r < d then q
  else if d < 2 * r then q + 1
  else if q % 2 = 0 then q else q + 1

/-- The binary exponent of `a / b`: the `e` with `2 ^ e ≤ a / b < 2 ^ (e + 1)`
(for `0 < a`, `0 < b`). -/
def floorLog2 (a b : Nat) : Int :=
  let e0 : Int := (bitLen a : Int) - (bitLen b : Int)
  if 0 ≤ e0 then (if b * 2 ^ e0.toNat ≤ a then e0 else e0 - 1)
  else (if b ≤ a * 2 ^ (-e0).toNat then e0 else e0 - 1)

/-- Mantissa of `a / b` scaled by `2 ^ s` and rounded to nearest-even. -/
def scaledMantissa (a b : Nat) (s : Int) : Nat :=
  if 0 ≤ s then roundHalfEven (a * 2 ^ s.toNat) b
  else roundHalfEven a (b * 2 ^ (-s).toNat)

/-- Rounding of the positive rational `a / b` to binary64, round to nearest, ties to
even: 53 significant bits, exponent at least `-1022` (below that the spacing stays
`2 ^ (-1074)`); `none` is `+Inf`, the result when the rounded value exceeds the largest
binary64, `(2 ^ 53 - 1) * 2 ^ 971`. -/
def f64Round (a b : Nat) : Option F64 :=
  let e := max (floorLog2 a b) (-1022)
  let m := scaledMantissa a b (52 - e)
  if 1024 ≤ e ∨ (e = 1023 ∧ 2 ^ 53 ≤ m) then none else some ⟨m, 52 - e⟩

/-- The float64 division `x / y` of two positive finite values (the source divides
only under `b.QPS > 0`, and `1e6` is positive). -/
def f64divPos (x y : ℚ) : Option F64 :=
  f64Round (x.num.toNat * y.den) (x.den * y.num.toNat)

/-- Conversion `float64 → int64` (`time.Duration(x)`): truncation toward zero.  For a
value outside the `int64` range Go leaves the result to the implementation; amd64
gives the smallest `int64`, which is what is taken here. -/
def f64ToInt64 : Option F64 → Int
  | none => minInt64
  | some x => if (x.trunc : Int) < 2 ^ 63 then (x.trunc : Int) else minInt64

/-- Whether a rational is a binary64 value (rounding leaves it unchanged). -/
def isFloat64 (q : ℚ) : Prop :=
  0 < q ∧ ∃ x, f64Round q.num.toNat q.den = some x ∧ x.toRat = q

/-- From `time`: `time.Microsecond`, in nanoseconds. -/
def Microsecond : Int := 1000

/-- Line 94: the argument handed to `time.Tick`,
`time.Duration(1e6/(b.QPS)) * time.Microsecond`, in nanoseconds. -/
def tickPeriod (QPS : ℚ) : Int :=
  wrap64 (f64ToInt64 (f64divPos 1000000 QPS) * Microsecond)

/-- From `time`: `time.Tick(d)` returns nil (`none`) if `d <= 0`, and otherwise the
channel of a ticker of period `d`. -/
def timeTick (d : Int) : Option Int := if d ≤ 0 then none else some d

/-- Lines 92-95 of `runWorker`: the throttle channel (`none` is the nil channel). -/
def throttleOf (QPS : ℚ) : Option Int :=
  if 0 < QPS then timeTick (tickPeriod QPS) else none

/-! ## Data model (lines 14-51) -/

/-- Line 14. -/
def maxResult : Int := 1000000

/-- Lines 20-31: the sample of one call.  Durations are nanosecond counts. -/
structure result where
  err : Option String
  statusCode : Int
  offset : Int
  duration : Int
  connDuration : Int
  dnsDuration : Int
  reqDuration : Int
  resDuration : Int
  delayDuration : Int
  contentLength : Int
deriving DecidableEq, Repr

/-- A Go channel: capacity, the buffered elements (oldest first), closed flag. -/
structure Chan (α : Type) where
  cap : Nat
  buf : List α
  closed : Bool
deriving DecidableEq, Repr

/-- The ways the process can end other than by returning: the run-time panics of the
operations used, and `log.Fatalf` (which exits the process). -/
inductive Fault where
  | makechanSize
  | sendOnClosed
  | closeOfClosed
  | closeOfNil
  | negativeWaitGroup
  | divideByZero
  | randArgument
  | indexOutOfRange
  | fatalDial (msg : String)
deriving DecidableEq, Repr

/-- From the generated `helloworld` package: the request message. -/
structure HelloRequest where
  Name : String
deriving DecidableEq, Repr

/-- Lines 33-51.  A nil channel is `none`; `initOnce` is the done flag of the
`sync.Once`.  (The `report` pointer is the reporter goroutine of `Sys`.) -/
structure RpcWork where
  RequestBody : HelloRequest
  N : Int
  C : Int
  Timeout : Int
  QPS : ℚ
  initOnce : Bool
  results : Option (Chan result)
  stopCh : Option (Chan Unit)
  start : Int
deriving DecidableEq, Repr

/-- Lines 174-179. -/
def min (a b : Int) : Int := if a < b then a else b

/-- The builtin `make(chan T, size)`: panics on a negative size. -/
def makeChan (α : Type) (size : Int) : Except Fault (Chan α) :=
  if size < 0 then .error .makechanSize else .ok ⟨size.toNat, [], false⟩

/-- Lines 54-59.  `sync.Once.Do` runs the function only while the done flag is unset;
`b.C*1000` is an `int` multiplication. -/
def Init (b : RpcWork) : Except Fault RpcWork :=
  if b.initOnce then .ok b
  else
    match makeChan result (min (wrap64 (b.C * 1000)) maxResult) with
    | .error f => .error f
    | .ok results =>
      match makeChan Unit b.C with
      | .error f => .error f
      | .ok stopCh =>
        .ok { b with initOnce := true, results := some results, stopCh := some stopCh }

/-- From `sync`: the counter of a `WaitGroup` after `Add(delta)`, or its panic.  The
counter is the upper half of a 64-bit state word, to which `uint64(delta) << 32` is
added, and is read as an `int32`; a negative result panics ("sync: negative WaitGroup
counter").  (The other panic of `Add`, for a positive `delta` while a goroutine
waits, does not arise in `runWorkers`, where `Add` precedes `Wait`.) -/
def waitGroupAdd (counter delta : Int) : Except Fault Int :=
  if wrap32 (counter + delta) < 0 then .error .negativeWaitGroup
  else .ok (wrap32 (counter + delta))

/-! ## One call (lines 114-156) -/

/-- Line 115. -/
def names : List String := ["zhu", "bin", "hua"]

/-- From `math/rand`: `Intn(n)` panics if `n <= 0` and otherwise returns a number of
`[0, n)`; `rnd` is the draw of the generator, reduced into the range. -/
def Intn (n : Int) (rnd : Nat) : Except Fault Nat :=
  if n ≤ 0 then .error .randArgument else .ok (rnd % n.toNat)

/-- Lines 114-118, with the draw of the random source as argument. -/
def makeRequestBody (rnd : Nat) : Except Fault HelloRequest :=
  match Intn ((names.length : Int) - 1) rnd with
  | .error f => .error f
  | .ok index =>
    match names[index]? with
    | none => .error .indexOutOfRange
    | some name => .ok ⟨name⟩

/-- What the environment decides during one `makeRequest`: the clock readings `s`
and `t`, the error of `grpc.Dial`, the random draw, and the error of `SayHello`
(which includes the expiry of the timeout); `none` is the nil error. -/
structure CallEnv where
  s : Int
  dialErr : Option String
  rnd : Nat
  rpcErr : Option String
  t : Int
deriving DecidableEq, Repr

/-- Lines 120-155 up to the send: the sample `makeRequest` builds, or the fault that
ends the process (`log.Fatalf` at line 126).  Line 143 is a subtraction of
`time.Duration` values, which are `int64`. -/
def makeRequest (env : CallEnv) : Except Fault result :=
  match env.dialErr with
  | some e => .error (.fatalDial e)
  | none =>
    match makeRequestBody env.rnd with
    | .error f => .error f
    | .ok _ =>
      .ok { offset := env.s, statusCode := 200, duration := wrap64 (env.t - env.s),
            err := env.rpcErr, contentLength := 100, connDuration := 1,
            dnsDuration := 1, reqDuration := 1, resDuration := 1, delayDuration := 1 }

/-! ## The goroutines of a run -/

/-- Program counter of the goroutine that calls `Run` (lines 63-73, 75-89,
166-172). -/
inductive MainPc where
  | init
  | wgAdd
  | spawn (i : Nat)
  | wait
  | close
  | awaitDone
  | finalize
  | returned
deriving DecidableEq, Repr

/-- Program counter of a worker goroutine (lines 83-86 and 91-112): before
`runWorker`, at the loop head with `i` iterations done, at line 106, inside
`makeRequest` (line 121), at the send of line 144, before `wg.Done()`, finished. -/
inductive WPc where
  | entry
  | loop (i : Nat)
  | tick (i : Nat)
  | request (i : Nat)
  | push (i : Nat) (r : result)
  | exit
  | done
deriving DecidableEq, Repr

/-- A worker goroutine: its program counter, the locals `n` and `throttle` of
`runWorker` (set when `runWorker` is entered), and three counters that only record
what it did: calls of `makeRequest`, samples sent, stop tokens received. -/
structure Worker where
  pc : WPc
  n : Int
  throttle : Option Int
  calls : Nat
  pushed : Nat
  taken : Nat
deriving DecidableEq, Repr

/-- Program counter of the reporter goroutine. -/
inductive RPc where
  | idle
  | running
  | done
deriving DecidableEq, Repr

/-- Program counter of a goroutine calling `Stop` (lines 158-163): not called yet,
in the loop with `i` tokens sent, blocked for ever on a nil channel, returned. -/
inductive SPc where
  | idle
  | loop (i : Nat)
  | hung
  | done
deriving DecidableEq, Repr

/-- The state of the process during one `Run` on a driver `b`: `status` is `none`
while the process is alive; `wg` is the wait-group counter; `received`, `sent` and
`closes` record the samples the reporter took, the stop tokens sent and the
executions of `close(b.results)`. -/
structure Sys where
  b : RpcWork
  status : Option Fault
  main : MainPc
  wg : Int
  workers : List Worker
  reporter : RPc
  received : List result
  stopper : SPc
  sent : Nat
  closes : Nat
deriving DecidableEq, Repr

/-- A scheduling decision: which goroutine executes its next statement, with what
the environment supplies to it. -/
inductive Action where
  | main (clock : Int)
  | worker (k : Nat) (env : CallEnv)
  | reporter
  | stop
deriving DecidableEq, Repr

/-- A worker goroutine just created by the `go` statement of line 83. -/
def Worker.new : Worker :=
  { pc := .entry, n := 0, throttle := none, calls := 0, pushed := 0, taken := 0 }

/-- Replace worker `k`. -/
def Sys.setWorker (s : Sys) (k : Nat) (w : Worker) : Sys :=
  { s with workers := s.workers.set k w }

/-- The process ends with fault `f`. -/
def Sys.crash (s : Sys) (f : Fault) : Sys := { s with status := some f }

/-- One statement of `Run` / `runWorkers` / `Finish`; `none` when it blocks. -/
def stepMain (s : Sys) (clock : Int) : Option Sys :=
  match s.main with
  | .init =>
    -- lines 64-70: Init, the start time, the reporter goroutine
    match Init s.b with
    | .error f => some (s.crash f)
    | .ok b => some { s with b := { b with start := clock }, reporter := .running,
                             main := .wgAdd }
  | .wgAdd =>
    -- line 77
    match waitGroupAdd s.wg s.b.C with
    | .error f => some (s.crash f)
    | .ok v => some { s with wg := v, main := .spawn 0 }
  | .spawn i =>
    -- lines 82-87
    if (i : Int) < s.b.C then
      some { s with workers := s.workers ++ [Worker.new], main := .spawn (i + 1) }
    else some { s with main := .wait }
  | .wait =>
    -- line 88
    if s.wg = 0 then some { s with main := .close } else none
  | .close =>
    -- line 167
    match s.b.results with
    | none => some (s.crash .closeOfNil)
    | some ch =>
      if ch.closed then some (s.crash .closeOfClosed)
      else some { s with b := { s.b with results := some { ch with closed := true } },
                         closes := s.closes + 1, main := .awaitDone }
  | .awaitDone =>
    -- lines 168-170
    if s.reporter = .done then some { s with main := .finalize } else none
  | .finalize =>
    -- line 171
    some { s with main := .returned }
  | .returned => none

/-- Line 109: the worker calls `makeRequest` in iteration `i`. -/
def Worker.enterRequest (w : Worker) (i : Nat) : Worker :=
  { w with calls := w.calls + 1, pc := .request i }

/-- Lines 104-109, the `default` branch of the `select`: wait for the throttle if
`b.QPS > 0`, else call `makeRequest` at once. -/
def afterPoll (QPS : ℚ) (w : Worker) (i : Nat) : Worker :=
  if 0 < QPS then { w with pc := .tick i } else w.enterRequest i

/-- One statement of worker `k`; `none` when it blocks (or there is no such
worker). -/
def stepWorker (s : Sys) (k : Nat) (env : CallEnv) : Option Sys :=
  match s.workers[k]? with
  | none => none
  | some w =>
    match w.pc with
    | .entry =>
      -- line 84 (`b.N/b.C`) and lines 92-95
      if s.b.C = 0 then some (s.crash .divideByZero)
      else some (s.setWorker k { w with n := Int.tdiv s.b.N s.b.C,
                                        throttle := throttleOf s.b.QPS, pc := .loop 0 })
    | .loop i =>
      -- lines 99-105
      if (i : Int) < w.n then
        match s.b.stopCh with
        | none => some (s.setWorker k (afterPoll s.b.QPS w i))
        | some ch =>
          match ch.buf with
          | _ :: rest =>
            some ({ s with b := { s.b with stopCh := some { ch with buf := rest } } }.setWorker k
              { w with taken := w.taken + 1, pc := .exit })
          | [] =>
            if ch.closed then some (s.setWorker k { w with pc := .exit })
            else some (s.setWorker k (afterPoll s.b.QPS w i))
      else some (s.setWorker k { w with pc := .exit })
    | .tick i =>
      -- line 106: a receive from the nil channel blocks for ever
      match w.throttle with
      | none => none
      | some _ => some (s.setWorker k (w.enterRequest i))
    | .request i =>
      -- lines 121-143
      match makeRequest env with
      | .error f => some (s.crash f)
      | .ok r => some (s.setWorker k { w with pc := .push i r })
    | .push i r =>
      -- line 144, then the return of `makeRequest` and `i++`
      match s.b.results with
      | none => none
      | some ch =>
        if ch.closed then some (s.crash .sendOnClosed)
        else if ch.buf.length < ch.cap then
          some ({ s with b := { s.b with results := some { ch with buf := ch.buf ++ [r] } } }.setWorker k
            { w with pushed := w.pushed + 1, pc := .loop (i + 1) })
        else if ch.cap = 0 ∧ ch.buf = [] ∧ s.reporter = .running then
          some ({ s with received := s.received ++ [r] }.setWorker k
            { w with pushed := w.pushed + 1, pc := .loop (i + 1) })
        else none
    | .exit =>
      -- line 85: `wg.Done()` is `wg.Add(-1)`
      match waitGroupAdd s.wg (-1) with
      | .error f => some (s.crash f)
      | .ok v => some ({ s with wg := v }.setWorker k { w with pc := .done })
    | .done => none

/-- Modelled from the spec: the reporter goroutine (`runReporter`, not under `src/`)
"consumes the result stream until closed" and then "signals completion via a done
notification".  One step takes the oldest sample, or signals completion once the
queue is closed and drained; `none` when it blocks. -/
def stepReporter (s : Sys) : Option Sys :=
  match s.reporter with
  | .running =>
    match s.b.results with
    | none => none
    | some ch =>
      match ch.buf with
      | r :: rest =>
        some { s with b := { s.b with results := some { ch with buf := rest } },
                      received := s.received ++ [r] }
      | [] => if ch.closed then some { s with reporter := .done } else none
  | _ => none

/-- One statement of the goroutine that calls `Stop` (lines 158-163); `none` when it
blocks. -/
def stepStop (s : Sys) : Option Sys :=
  match s.stopper with
  | .idle => some { s with stopper := .loop 0 }
  | .loop i =>
    if (i : Int) < s.b.C then
      match s.b.stopCh with
      | none => some { s with stopper := .hung }
      | some ch =>
        if ch.closed then some (s.crash .sendOnClosed)
        else if ch.buf.length < ch.cap then
          some { s with b := { s.b with stopCh := some { ch with buf := ch.buf ++ [()] } },
                        sent := s.sent + 1, stopper := .loop (i + 1) }
        else none
    else some { s with stopper := .done }
  | .hung => none
  | .done => none

/-- One scheduled statement; `none` when the goroutine is blocked or the process has
ended. -/
def step (s : Sys) (a : Action) : Option Sys :=
  match s.status with
  | some _ => none
  | none =>
    match a with
    | .main clock => stepMain s clock
    | .worker k env => stepWorker s k env
    | .reporter => stepReporter s
    | .stop => stepStop s

/-- A scheduled statement of a blocked goroutine leaves the state as it is. -/
def next (s : Sys) (a : Action) : Sys := (step s a).getD s

/-- Execution of a schedule. -/
def run (s : Sys) (sched : List Action) : Sys := sched.foldl next s

/-- A freshly constructed driver, as `Run` receives it. -/
def RpcWork.fresh (N C Timeout : Int) (QPS : ℚ) : RpcWork :=
  { RequestBody := ⟨""⟩, N := N, C := C, Timeout := Timeout, QPS := QPS,
    initOnce := false, results := none, stopCh := none, start := 0 }

/-- The process at the call of `Run` on the driver `b`. -/
def Sys.start (b : RpcWork) : Sys :=
  { b := b, status := none, main := .init, wg := 0, workers := [], reporter := .idle,
    received := [], stopper := .idle, sent := 0, closes := 0 }

/-- The state of the process after the schedule `sched`, started at the call of
`Run` on a fresh driver with `N`, `C`, `Timeout` and `QPS`. -/
def reached (N C Timeout : Int) (QPS : ℚ) (sched : List Action) : Sys :=
  run (Sys.start (RpcWork.fresh N C Timeout QPS)) sched

/-- Calls of `makeRequest` made so far by all workers. -/
def Sys.totalCalls (s : Sys) : Nat := (s.workers.map Worker.calls).sum

/-- An environment in which `grpc.Dial` succeeds. -/
def okEnv : CallEnv := { s := 0, dialErr := none, rnd := 0, rpcErr := none, t := 1 }

/-! ## Invariants of a run -/

/-- The main goroutine is past `wg.Wait()` (line 88). -/
def MainPc.joined : MainPc → Bool
  | .close | .awaitDone | .finalize | .returned => true
  | _ => false

/-- The main goroutine is past `close(b.results)` (line 167). -/
def MainPc.closedStage : MainPc → Bool
  | .awaitDone | .finalize | .returned => true
  | _ => false

/-- The number of workers the main goroutine has created when at `pc`, for
concurrency `C`. -/
def MainPc.spawned (C : Int) : MainPc → Nat
  | .init | .wgAdd => 0
  | .spawn i => i
  | _ => C.toNat

/-- `1` for a worker that has executed `wg.Done()`. -/
def Worker.finished (w : Worker) : Nat := if w.pc = .done then 1 else 0

/-- The result queue (an empty channel while it is nil). -/
def Sys.res (s : Sys) : Chan result := s.b.results.getD ⟨0, [], false⟩

/-- The stop channel (an empty channel while it is nil). -/
def Sys.stopc (s : Sys) : Chan Unit := s.b.stopCh.getD ⟨0, [], false⟩

/-- Workers that have executed `wg.Done()`. -/
def Sys.finishedCount (s : Sys) : Nat := (s.workers.map Worker.finished).sum

/-- Stop tokens received so far by all workers. -/
def Sys.tokensTaken (s : Sys) : Nat := (s.workers.map Worker.taken).sum

/-- Samples sent so far by all workers. -/
def Sys.samplesPushed (s : Sys) : Nat := (s.workers.map Worker.pushed).sum

/-- What holds of a worker at each program point, for the share `n` and rate `Q`. -/
def WInv (n : Int) (Q : ℚ) (w : Worker) : Prop :=
  match w.pc with
  | .entry => w.calls = 0 ∧ w.pushed = 0 ∧ w.taken = 0
  | .loop i => w.n = n ∧ w.throttle = throttleOf Q ∧ w.calls = i ∧ w.pushed = i ∧
      w.taken = 0 ∧ i ≤ n.toNat
  | .tick i => w.n = n ∧ w.throttle = throttleOf Q ∧ w.calls = i ∧ w.pushed = i ∧
      w.taken = 0 ∧ (i : Int) < n ∧ 0 < Q
  | .request i => w.n = n ∧ w.throttle = throttleOf Q ∧ w.calls = i + 1 ∧ w.pushed = i ∧
      w.taken = 0 ∧ (i : Int) < n
  | .push i _ => w.n = n ∧ w.throttle = throttleOf Q ∧ w.calls = i + 1 ∧ w.pushed = i ∧
      w.taken = 0 ∧ (i : Int) < n
  | .exit => w.n = n ∧ w.calls = w.pushed ∧ w.calls ≤ n.toNat ∧ w.taken ≤ 1 ∧
      (w.taken = 0 → w.calls = n.toNat)
  | .done => w.n = n ∧ w.calls = w.pushed ∧ w.calls ≤ n.toNat ∧ w.taken ≤ 1 ∧
      (w.taken = 0 → w.calls = n.toNat)

/-- What holds of the goroutine calling `Stop`. -/
def SInv (C : Int) (s : Sys) : Prop :=
  match s.stopper with
  | .idle => s.sent = 0
  | .loop i => s.sent = i ∧ i ≤ C.toNat
  | .hung => s.sent = 0
  | .done => s.sent = C.toNat

/-- The invariant of a run started on a fresh driver with `N`, `C` and `QPS = Q`. -/
structure Inv (N C : Int) (Q : ℚ) (s : Sys) : Prop where
  cfgN : s.b.N = N
  cfgC : s.b.C = C
  cfgQ : s.b.QPS = Q
  status : s.status = none ∨ s.status = some .makechanSize ∨
    (∃ m, s.status = some (.fatalDial m)) ∨
    (s.status = some .negativeWaitGroup ∧ 2 ^ 31 ≤ C) ∨
    (s.status = some .sendOnClosed ∧ 2 ^ 32 ≤ C)
  winv : ∀ w ∈ s.workers, WInv (Int.tdiv N C) Q w
  pre : s.main = .init → s.b.initOnce = false ∧ s.b.results = none ∧ s.b.stopCh = none ∧
    s.reporter = .idle ∧ s.received = []
  alloc : s.main ≠ .init → 0 ≤ C ∧ 0 ≤ min (wrap64 (C * 1000)) maxResult ∧
    s.b.results.isSome = true ∧ s.b.stopCh.isSome = true ∧ s.b.initOnce = true ∧
    s.reporter ≠ .idle ∧ s.res.cap = (min (wrap64 (C * 1000)) maxResult).toNat ∧
    s.stopc.cap = C.toNat
  sopen : s.stopc.closed = false
  rlen : s.res.buf.length ≤ s.res.cap
  rclosed : s.res.closed = s.main.closedStage
  closes : s.closes = if s.main.closedStage then 1 else 0
  tokens : s.stopc.buf.length + s.tokensTaken = s.sent
  samples : s.received.length + s.res.buf.length = s.samplesPushed
  repDone : s.reporter = .done → s.res.closed = true ∧ s.res.buf = []
  repFin : s.main = .finalize ∨ s.main = .returned → s.reporter = .done
  wg : s.wg = if s.main = .init ∨ s.main = .wgAdd then 0 else wrap32 C - s.finishedCount
  wgnn : 0 ≤ s.wg
  nworkers : s.workers.length = s.main.spawned C
  spawnBound : ∀ i, s.main = .spawn i → (i : Int) ≤ C
  joined : s.main.joined = true → s.wg = 0
  stopper : SInv C s

/-! ## Termination measure and schedules -/

/-- Statements a worker still has to execute, at most, for the share `np`. -/
def workerRank (np : Nat) (w : Worker) : Nat :=
  match w.pc with
  | .entry => 4 * np + 4
  | .loop i => 4 * (np - i) + 3
  | .tick i => 4 * (np - i) + 2
  | .request i => 4 * (np - i) + 1
  | .push i _ => 4 * (np - i)
  | .exit => 1
  | .done => 0

/-- Statements the main goroutine still has to execute, counting for each worker
not yet created twice its rank plus one, for `c` workers of share `np`. -/
def MainPc.rank (c np : Nat) : MainPc → Nat
  | .init => 7 + c * (2 * (4 * np + 4) + 1)
  | .wgAdd => 6 + c * (2 * (4 * np + 4) + 1)
  | .spawn i => 5 + (c - i) * (2 * (4 * np + 4) + 1)
  | .wait => 4
  | .close => 3
  | .awaitDone => 2
  | .finalize => 1
  | .returned => 0

/-- Whether the reporter still has to signal completion. -/
def RPc.rank : RPc → Nat
  | .done => 0
  | _ => 1

/-- A bound on the statements left to execute in a run in which `Stop` does nothing
more: every statement other than those of `Stop` decreases it. -/
def Sys.measure (s : Sys) : Nat :=
  s.main.rank s.b.C.toNat (Int.tdiv s.b.N s.b.C).toNat
    + 2 * (s.workers.map (workerRank (Int.tdiv s.b.N s.b.C).toNat)).sum
    + s.res.buf.length + s.reporter.rank

/-- The action is a statement of the goroutine calling `Stop`. -/
def Action.isStop : Action → Bool
  | .stop => true
  | _ => false

/-- The action does not come with a failure of `grpc.Dial`. -/
def Action.dialOk : Action → Bool
  | .worker _ env => env.dialErr.isNone
  | _ => true

/-- A schedule in which `Stop` is never called and `grpc.Dial` never fails. -/
def quiet (sched : List Action) : Prop := ∀ a ∈ sched, a.isStop = false ∧ a.dialOk = true

/-- The action is a statement of `Run`, of the reporter, or of a worker whose call
meets the environment `env0`. -/
def usesEnv (env0 : CallEnv) (a : Action) : Prop :=
  a = .main 0 ∨ a = .reporter ∨ ∃ k, a = .worker k env0

/-- A schedule in which the error of every call of `SayHello` satisfies `P`. -/
def callsErr (P : Option String → Prop) (sched : List Action) : Prop :=
  ∀ a ∈ sched, ∀ k env, a = .worker k env → P env.rpcErr

/-- Every sample that exists in the state (taken by the reporter, in the queue, or
about to be sent by a worker) has an error field satisfying `P`. -/
def ErrInv (P : Option String → Prop) (s : Sys) : Prop :=
  (∀ r ∈ s.received, P r.err) ∧ (∀ r ∈ s.res.buf, P r.err) ∧
    (∀ w ∈ s.workers, ∀ i r, w.pc = .push i r → P r.err)

/-- An environment in which `grpc.Dial` fails. -/
def refusedEnv : CallEnv :=
  { s := 0, dialErr := some "connection refused", rnd := 0, rpcErr := none, t := 1 }

/-- An environment in which `grpc.Dial` succeeds and `SayHello` fails. -/
def failingEnv : CallEnv :=
  { s := 0, dialErr := none, rnd := 1, rpcErr := some "deadline exceeded", t := 1 }

/-- A run with `N = 2`, `C = 1`, `QPS = 0` in which `Stop` is never called and the
first `grpc.Dial` fails: `Run` initialises, creates the worker, the worker enters
`runWorker`, polls, calls `makeRequest`, and `grpc.Dial` returns an error. -/
def abortedRun : Sys :=
  reached 2 1 0 0
    [.main 0, .main 0, .main 0, .worker 0 okEnv, .worker 0 okEnv, .worker 0 refusedEnv]

/-- A run with `N = 1`, `C = 1`, `QPS = 2000000` in which `Stop` is never called, up
to the point where `Run` waits for the worker and the worker has reached line 106. -/
def throttledRun : Sys :=
  reached 1 1 0 2000000
    [.main 0, .main 0, .main 0, .main 0, .worker 0 okEnv, .worker 0 okEnv]

/-- A run with `N = C = 9223372036854776`, for which `C * 1000` overflows `int`: the
first statement of `Run`. -/
def overflowRun : Sys :=
  reached 9223372036854776 9223372036854776 0 0 [.main 0]

/-- A run with `N = C = 2147483648`, which is 2^31 and does not fit the `int32` counter
of the wait group: `Run` initialises, then calls `wg.Add(b.C)`. -/
def waitGroupRun : Sys :=
  reached 2147483648 2147483648 0 0 [.main 0, .main 0]

/-- The statements of `Run` up to and including `close(b.results)`, for
`C = 4294967296`: `Init`, `wg.Add`, a `go` statement for each worker, the end of the
loop, `wg.Wait()` and the `close`. -/
def wrappedSched : List Action :=
  [.main 0, .main 0] ++ List.replicate 4294967296 (.main 0) ++ [.main 0, .main 0, .main 0]

/-- A run with `N = C = 4294967296`, which is 2^32, in which `Run` executes up to the
`close` before any worker is scheduled: `uint64(b.C) << 32` is zero, so `wg.Add`
leaves the counter at zero and `wg.Wait()` returns at once. -/
def wrappedRun : Sys :=
  reached 4294967296 4294967296 0 0 wrappedSched

/-- A run with `N = 10`, `C = 5` up to the first sample: `Run` initialises and
creates the first worker, which enters `runWorker`, polls, calls `makeRequest`, where
`SayHello` fails, and sends the sample. -/
def failingSched : List Action :=
  [.main 0, .main 0, .main 0, .worker 0 failingEnv, .worker 0 failingEnv,
    .worker 0 failingEnv, .worker 0 failingEnv]

/-- A run with `N = 1`, `C = 1`, `QPS = 0` up to `close(b.results)`: `Run` initialises,
creates the worker and waits; the worker enters `runWorker`, polls, makes its call,
sends the sample, leaves the loop and executes `wg.Done()`; then `wg.Wait()` returns
and the queue is closed. -/
def closedRun : Sys :=
  reached 1 1 0 0
    [.main 0, .main 0, .main 0, .main 0, .worker 0 okEnv, .worker 0 okEnv, .worker 0 okEnv,
      .worker 0 okEnv, .worker 0 okEnv, .worker 0 okEnv, .main 0, .main 0]

/-! # Properties -/

set_option maxRecDepth 100000

/-! ## Binary64 rounding of the tick period -/

theorem bitLenAux_spec : ∀ (fuel n : Nat), n ≤ fuel → 0 < n →
    2 ^ (bitLenAux fuel n - 1) ≤ n ∧ n < 2 ^ bitLenAux fuel n ∧ 0 < bitLenAux fuel n := by
  intro fuel
  induction fuel with
  | zero => intro n h1 h2; omega
  | succ f ih =>
    intro n h1 h2
    have hn : n ≠ 0 := by omega
    simp only [bitLenAux, hn, if_false]
    by_cases h : n / 2 = 0
    · have : n = 1 := by omega
      subst this
      cases f <;> simp [bitLenAux]
    · have h3 := ih (n / 2) (by omega) (by omega)
      obtain ⟨h4, h5, h6⟩ := h3
      refine ⟨?_, ?_, by omega⟩
      · have : bitLenAux f (n / 2) + 1 - 1 = (bitLenAux f (n / 2) - 1) + 1 := by omega
        rw [this, pow_succ]
        omega
      · rw [pow_succ]; omega

theorem bitLen_spec (n : Nat) (h : 0 < n) :
    2 ^ (bitLen n - 1) ≤ n ∧ n < 2 ^ bitLen n ∧ 0 < bitLen n :=
  bitLenAux_spec n n le_rfl h

/-- The rounded quotient is within half a unit of the exact one. -/
theorem roundHalfEven_err (n d : Nat) (hd : 0 < d) :
    2 * (roundHalfEven n d * d) ≤ 2 * n + d ∧ 2 * n ≤ 2 * (roundHalfEven n d * d) + d := by
  have h1 := Nat.div_add_mod n d
  have h2 := Nat.mod_lt n hd
  have h3 : (n / d + 1) * d = d * (n / d) + d := by ring
  have h4 : (n / d) * d = d * (n / d) := by ring
  unfold roundHalfEven
  simp only
  split_ifs <;> first | (rw [h3]; omega) | (rw [h4]; omega)

theorem roundHalfEven_ge (n d L : Nat) (hd : 0 < d) (h : L * d ≤ n) :
    L ≤ roundHalfEven n d := by
  have h1 : L ≤ n / d := (Nat.le_div_iff_mul_le hd).2 h
  unfold roundHalfEven
  simp only
  split_ifs <;> omega

theorem roundHalfEven_le (n d U : Nat) (hd : 0 < d) (h : n ≤ U * d) :
    roundHalfEven n d ≤ U := by
  have h1 := Nat.div_add_mod n d
  have h2 := Nat.mod_lt n hd
  have h5 : n / d ≤ U := by
    calc n / d ≤ U * d / d := Nat.div_le_div_right h
      _ = U := Nat.mul_div_cancel _ hd
  by_cases h6 : n / d = U
  · have : n % d = 0 := by
      have h7 : d * (n / d) = U * d := by rw [h6]; ring
      omega
    unfold roundHalfEven
    simp only
    split_ifs <;> omega
  · unfold roundHalfEven
    simp only
    split_ifs <;> omega

/-- For a quotient of at least one, the exponent found is the binary exponent. -/
theorem floorLog2_spec (a b : Nat) (hb : 0 < b) (hab : b ≤ a) :
    0 ≤ floorLog2 a b ∧ b * 2 ^ (floorLog2 a b).toNat ≤ a ∧
      a < b * 2 ^ ((floorLog2 a b).toNat + 1) := by
  obtain ⟨a1, a2, a3⟩ := bitLen_spec a (by omega)
  obtain ⟨b1, b2, b3⟩ := bitLen_spec b hb
  have hlen : bitLen b ≤ bitLen a := by
    by_contra hc
    have : bitLen a ≤ bitLen b - 1 := by omega
    have := Nat.pow_le_pow_right (by norm_num : 0 < 2) this
    omega
  obtain ⟨k, hk⟩ : ∃ k, bitLen a = bitLen b + k := ⟨bitLen a - bitLen b, by omega⟩
  have he0 : ((bitLen a : Int) - (bitLen b : Int)) = (k : Int) := by omega
  unfold floorLog2
  simp only [he0]
  have hk0 : (0 : Int) ≤ (k : Int) := by omega
  simp only [hk0, if_true, Int.toNat_ofNat]
  -- a < 2 ^ (lb + k) ≤ b * 2 ^ (k + 1)
  have hup : a < b * 2 ^ (k + 1) := by
    have e1 : 2 ^ bitLen a = 2 ^ (bitLen b - 1) * 2 ^ (k + 1) := by
      rw [← pow_add]; congr 1; omega
    have e2 : 2 ^ (bitLen b - 1) * 2 ^ (k + 1) ≤ b * 2 ^ (k + 1) :=
      Nat.mul_le_mul_right _ b1
    omega
  by_cases hc : b * 2 ^ k ≤ a
  · simp only [hc, if_true, Int.toNat_ofNat]
    exact ⟨hk0, trivial, hup⟩
  · simp only [hc, if_false]
    have hkpos : 0 < k := by
      rcases Nat.eq_zero_or_pos k with h0 | h0
      · subst h0; simp at hc; omega
      · exact h0
    have e3 : ((k : Int) - 1).toNat = k - 1 := by omega
    rw [e3]
    refine ⟨by omega, ?_, ?_⟩
    · have e1 : 2 ^ (bitLen a - 1) = 2 ^ bitLen b * 2 ^ (k - 1) := by
        rw [← pow_add]; congr 1; omega
      have e2 : b * 2 ^ (k - 1) ≤ 2 ^ bitLen b * 2 ^ (k - 1) :=
        Nat.mul_le_mul_right _ (le_of_lt b2)
      omega
    · have : k - 1 + 1 = k := by omega
      rw [this]; omega


/-- Rounding a quotient of `[1, 2 ^ 53)` to binary64: the mantissa has 53 bits, is
within half a unit of the scaled quotient, and no overflow occurs. -/
theorem f64Round_mid (a b : Nat) (hb : 0 < b) (h1 : b ≤ a) (h2 : a < b * 2 ^ 53) :
    ∃ m s : Nat, s ≤ 52 ∧ f64Round a b = some ⟨m, (s : Int)⟩ ∧ 2 ^ 52 ≤ m ∧ m ≤ 2 ^ 53 ∧
      2 * (m * b) ≤ 2 * (a * 2 ^ s) + b ∧ 2 * (a * 2 ^ s) ≤ 2 * (m * b) + b ∧
      b * 2 ^ 52 ≤ a * 2 ^ s := by
  obtain ⟨e0, e1, e2⟩ := floorLog2_spec a b hb h1
  obtain ⟨e, he⟩ : ∃ e : Nat, floorLog2 a b = (e : Int) := ⟨(floorLog2 a b).toNat, by omega⟩
  rw [he] at e1 e2
  simp only [Int.toNat_ofNat] at e1 e2
  have he52 : e ≤ 52 := by
    by_contra hc
    have h3 : 2 ^ 53 ≤ 2 ^ e := Nat.pow_le_pow_right (by norm_num) (by omega)
    have h4 : b * 2 ^ 53 ≤ b * 2 ^ e := Nat.mul_le_mul_left _ h3
    omega
  have hsc : b * 2 ^ 52 ≤ a * 2 ^ (52 - e) := by
    have h3 : b * 2 ^ 52 = b * 2 ^ e * 2 ^ (52 - e) := by
      rw [mul_assoc, ← pow_add]; congr 2; omega
    rw [h3]
    exact Nat.mul_le_mul_right _ e1
  have hsc2 : a * 2 ^ (52 - e) ≤ 2 ^ 53 * b := by
    have h3 : 2 ^ 53 * b = b * 2 ^ (e + 1) * 2 ^ (52 - e) := by
      rw [mul_assoc, ← pow_add, mul_comm]; congr 2; omega
    rw [h3]
    exact Nat.mul_le_mul_right _ (le_of_lt e2)
  refine ⟨roundHalfEven (a * 2 ^ (52 - e)) b, 52 - e, by omega, ?_, ?_, ?_, ?_, ?_, hsc⟩
  · unfold f64Round
    have hmax : max (floorLog2 a b) (-1022) = (e : Int) := by rw [he]; omega
    simp only [hmax]
    have hs : (52 : Int) - (e : Int) = ((52 - e : Nat) : Int) := by omega
    have hno : ¬ ((1024 : Int) ≤ (e : Int) ∨ ((e : Int) = 1023 ∧
        2 ^ 53 ≤ scaledMantissa a b (52 - (e : Int)))) := by omega
    rw [if_neg hno, hs]
    simp [scaledMantissa]
  · exact roundHalfEven_ge _ _ _ hb (by rw [mul_comm]; exact hsc)
  · exact roundHalfEven_le _ _ _ hb hsc2
  · exact (roundHalfEven_err _ b hb).1
  · exact (roundHalfEven_err _ b hb).2


theorem wrap64_id (z : Int) (h1 : -(2 ^ 63) ≤ z) (h2 : z < 2 ^ 63) : wrap64 z = z := by
  unfold wrap64
  norm_num at h1 h2 ⊢
  omega

/-- An `int32` value is its own wrap-around. -/
theorem wrap32_id (z : Int) (h1 : -(2 ^ 31) ≤ z) (h2 : z < 2 ^ 31) : wrap32 z = z := by
  unfold wrap32
  norm_num at h1 h2 ⊢
  omega

theorem wrap32_lt (z : Int) : wrap32 z < 2 ^ 31 := by
  unfold wrap32
  norm_num
  omega

theorem wrap32_le (z : Int) (h0 : 0 ≤ z) : wrap32 z ≤ z := by
  unfold wrap32
  norm_num
  omega

theorem wrap32_small (z : Int) (h0 : 0 ≤ z) (h1 : z < 2 ^ 32) (h2 : 0 ≤ wrap32 z) :
    wrap32 z = z := by
  unfold wrap32 at h2 ⊢
  norm_num at h1 h2 ⊢
  omega

theorem wrap32_neg (z : Int) (h0 : 0 ≤ z) (h : wrap32 z < 0) : 2 ^ 31 ≤ z := by
  unfold wrap32 at h
  norm_num at h ⊢
  omega

theorem wrap32_wrapped (z : Int) (h0 : 0 ≤ z) (h2 : 0 ≤ wrap32 z) (h : wrap32 z < z) :
    2 ^ 32 ≤ z := by
  unfold wrap32 at h h2
  norm_num at h h2 ⊢
  omega

/-- A positive rational as a quotient of positive naturals. -/
theorem rat_num_den (Q : ℚ) (hQ : 0 < Q) :
    ∃ n d : Nat, 0 < n ∧ 0 < d ∧ Q.num = (n : Int) ∧ Q.den = d ∧ Q = (n : ℚ) / (d : ℚ) := by
  have hnum : 0 < Q.num := Rat.num_pos.2 hQ
  refine ⟨Q.num.toNat, Q.den, by omega, Q.den_pos, by omega, rfl, ?_⟩
  have h1 := Rat.num_div_den Q
  have h2 : ((Q.num.toNat : Nat) : ℚ) = ((Q.num : Int) : ℚ) := by
    have : ((Q.num.toNat : Nat) : Int) = Q.num := by omega
    exact_mod_cast congrArg (Int.cast : Int → ℚ) this
  rw [h2]
  exact h1.symm

theorem tickPeriod_mid (Q : ℚ) (hlo : 1000000 / 2 ^ 53 < Q) (hhi : Q ≤ 1000000) :
    ∃ (fl : F64) (p : Nat), f64divPos 1000000 Q = some fl ∧ p = fl.trunc ∧
      tickPeriod Q = 1000 * (p : Int) ∧ throttleOf Q = some (1000 * (p : Int)) ∧ 1 ≤ p ∧
      (p : ℚ) ≤ 1000000 / Q * (1 + 1 / 2 ^ 53) ∧
      1000000 / Q * (1 - 1 / 2 ^ 53) - 1 < (p : ℚ) := by
  have hQ : 0 < Q := lt_trans (by positivity) hlo
  obtain ⟨n, d, hn0, hd0, hn, hd, hQeq⟩ := rat_num_den Q hQ
  have hdq : (0 : ℚ) < (d : ℚ) := by exact_mod_cast hd0
  have hnq : (0 : ℚ) < (n : ℚ) := by exact_mod_cast hn0
  have hba : n ≤ 1000000 * d := by
    have : (n : ℚ) ≤ 1000000 * (d : ℚ) := by
      rw [hQeq, div_le_iff₀ hdq] at hhi; exact hhi
    exact_mod_cast this
  have hab : 1000000 * d < n * 2 ^ 53 := by
    have : (1000000 : ℚ) * (d : ℚ) < (n : ℚ) * 2 ^ 53 := by
      rw [hQeq, div_lt_div_iff₀ (by positivity) hdq] at hlo; linarith
    exact_mod_cast this
  obtain ⟨m, s, hs, hfl, hm1, hm2, he1, he2, hsc⟩ :=
    f64Round_mid (1000000 * d) n hn0 hba hab
  have hdiv : f64divPos 1000000 Q = some ⟨m, (s : Int)⟩ := by
    unfold f64divPos
    have e1 : (1000000 : ℚ).num.toNat = 1000000 := by
      simp
    have e2 : (1000000 : ℚ).den = 1 := by simp
    rw [e1, e2, hn, hd]
    simpa using hfl
  have htr : F64.trunc ⟨m, (s : Int)⟩ = m / 2 ^ s := by
    simp [F64.trunc]
  have hpow : 2 ^ s ≤ 2 ^ 52 := Nat.pow_le_pow_right (by norm_num) hs
  have hpos : 0 < 2 ^ s := Nat.pow_pos (by norm_num)
  have k1 : (m / 2 ^ s) * 2 ^ s ≤ m := Nat.div_mul_le_self m (2 ^ s)
  have k2 : m < (m / 2 ^ s + 1) * 2 ^ s := by
    have h1 := Nat.div_add_mod m (2 ^ s)
    have h2 := Nat.mod_lt m hpos
    have h3 : (m / 2 ^ s + 1) * 2 ^ s = 2 ^ s * (m / 2 ^ s) + 2 ^ s := by ring
    omega
  have hp1 : 1 ≤ m / 2 ^ s := (Nat.le_div_iff_mul_le hpos).2 (by omega)
  have hp2 : m / 2 ^ s ≤ 2 ^ 53 := le_trans (Nat.div_le_self _ _) hm2
  rw [htr.symm] at k1 k2 hp1 hp2
  generalize hp : F64.trunc ⟨m, (s : Int)⟩ = p at k1 k2 hp1 hp2
  have h63 : (p : Int) < 2 ^ 63 := by
    norm_num at hp2 ⊢; omega
  have hper : tickPeriod Q = 1000 * (p : Int) := by
    unfold tickPeriod
    rw [hdiv]
    simp only [f64ToInt64, hp, h63, if_true, Microsecond]
    rw [wrap64_id]
    · ring
    · norm_num; omega
    · norm_num at hp2 ⊢; omega
  have hD : (0 : ℚ) < 2 ^ s := by positivity
  have hx : (1000000 : ℚ) / Q = 1000000 * (d : ℚ) / n := by
    rw [hQeq]; field_simp
  have e1q : 2 * ((m : ℚ) * n) ≤ 2 * (1000000 * (d : ℚ) * 2 ^ s) + n := by
    exact_mod_cast he1
  have e2q : 2 * (1000000 * (d : ℚ) * 2 ^ s) ≤ 2 * ((m : ℚ) * n) + n := by
    exact_mod_cast he2
  have scq : (n : ℚ) * 2 ^ 52 ≤ 1000000 * (d : ℚ) * 2 ^ s := by exact_mod_cast hsc
  have k1q : (p : ℚ) * 2 ^ s ≤ (m : ℚ) := by exact_mod_cast k1
  have k2q : (m : ℚ) < ((p : ℚ) + 1) * 2 ^ s := by exact_mod_cast k2
  refine ⟨⟨m, (s : Int)⟩, p, hdiv, hp.symm, hper, ?_, hp1, ?_, ?_⟩
  · unfold throttleOf timeTick
    rw [if_pos hQ, hper, if_neg (by omega)]
  · rw [hx, div_mul_eq_mul_div, le_div_iff₀ hnq]
    have key : (p : ℚ) * n * 2 ^ s ≤ 1000000 * (d : ℚ) * (1 + 1 / 2 ^ 53) * 2 ^ s := by
      have h1 : (p : ℚ) * 2 ^ s * n ≤ (m : ℚ) * n := mul_le_mul_of_nonneg_right k1q hnq.le
      nlinarith
    exact le_of_mul_le_mul_right key hD
  · rw [hx, div_mul_eq_mul_div, sub_lt_iff_lt_add, div_lt_iff₀ hnq]
    have key : 1000000 * (d : ℚ) * (1 - 1 / 2 ^ 53) * 2 ^ s < ((p : ℚ) + 1) * n * 2 ^ s := by
      have h1 : (m : ℚ) * n < ((p : ℚ) + 1) * 2 ^ s * n := mul_lt_mul_of_pos_right k2q hnq
      nlinarith
    exact lt_of_mul_lt_mul_right key hD.le

/-! ## The invariant is preserved -/

/-! ### Lists of workers -/

theorem sum_map_set {α : Type} (f : α → Nat) :
    ∀ (l : List α) (k : Nat) (w w' : α), l[k]? = some w →
      ((l.set k w').map f).sum + f w = (l.map f).sum + f w' := by
  intro l
  induction l with
  | nil => intro k w w' h; simp at h
  | cons x xs ih =>
    intro k w w' h
    cases k with
    | zero =>
      simp at h
      subst h
      simp [List.set]
      omega
    | succ k =>
      simp at h
      have := ih k w w' h
      simp only [List.set, List.map_cons, List.sum_cons]
      omega

theorem forall_mem_set {α : Type} (P : α → Prop) (l : List α) (k : Nat) (w' : α)
    (h : ∀ x ∈ l, P x) (hw : P w') : ∀ x ∈ l.set k w', P x := by
  intro x hx
  rcases List.mem_or_eq_of_mem_set hx with h1 | h1
  · exact h x h1
  · rw [h1]; exact hw

theorem mem_of_get {α : Type} (l : List α) (k : Nat) (w : α) (h : l[k]? = some w) :
    w ∈ l := by
  rw [List.getElem?_eq_some] at h
  obtain ⟨hk, rfl⟩ := h
  exact List.getElem_mem hk

theorem Inv_crash {N C : Int} {Q : ℚ} {s : Sys} (h : Inv N C Q s) (f : Fault)
    (hf : f = .makechanSize ∨ (∃ m, f = .fatalDial m) ∨
      (f = .negativeWaitGroup ∧ 2 ^ 31 ≤ C) ∨ (f = .sendOnClosed ∧ 2 ^ 32 ≤ C)) :
    Inv N C Q (s.crash f) := by
  refine { h with status := ?_ }
  rcases hf with rfl | ⟨m, rfl⟩ | ⟨rfl, hC⟩ | ⟨rfl, hC⟩
  · exact Or.inr (Or.inl rfl)
  · exact Or.inr (Or.inr (Or.inl ⟨m, rfl⟩))
  · exact Or.inr (Or.inr (Or.inr (Or.inl ⟨rfl, hC⟩)))
  · exact Or.inr (Or.inr (Or.inr (Or.inr ⟨rfl, hC⟩)))

/-- A step of worker `k` that touches only its own record, and there neither the
samples sent, the tokens received nor the finished flag. -/
theorem Inv_setWorker {N C : Int} {Q : ℚ} {s : Sys} (h : Inv N C Q s) (k : Nat)
    (w w' : Worker) (hk : s.workers[k]? = some w) (h1 : w'.pushed = w.pushed)
    (h2 : w'.taken = w.taken) (h3 : w'.finished = w.finished)
    (h4 : WInv (Int.tdiv N C) Q w') : Inv N C Q (s.setWorker k w') := by
  have e1 := sum_map_set Worker.pushed s.workers k w w' hk
  have e2 := sum_map_set Worker.taken s.workers k w w' hk
  have e3 := sum_map_set Worker.finished s.workers k w w' hk
  have f1 : (s.setWorker k w').samplesPushed = s.samplesPushed := by
    simp only [Sys.samplesPushed, Sys.setWorker]; omega
  have f2 : (s.setWorker k w').tokensTaken = s.tokensTaken := by
    simp only [Sys.tokensTaken, Sys.setWorker]; omega
  have f3 : (s.setWorker k w').finishedCount = s.finishedCount := by
    simp only [Sys.finishedCount, Sys.setWorker]; omega
  exact
    { cfgN := h.cfgN, cfgC := h.cfgC, cfgQ := h.cfgQ, status := h.status
      winv := forall_mem_set _ _ _ _ h.winv h4
      pre := h.pre, alloc := h.alloc, sopen := h.sopen, rlen := h.rlen
      rclosed := h.rclosed, closes := h.closes
      tokens := by rw [f2]; exact h.tokens
      samples := by rw [f1]; exact h.samples
      repDone := h.repDone, repFin := h.repFin
      wg := by rw [f3]; exact h.wg
      wgnn := h.wgnn
      nworkers := by simpa [Sys.setWorker] using h.nworkers
      spawnBound := h.spawnBound
      joined := h.joined
      stopper := h.stopper }


theorem finished_sum_le (l : List Worker) : (l.map Worker.finished).sum ≤ l.length := by
  induction l with
  | nil => simp
  | cons x xs ih =>
    have : x.finished ≤ 1 := by unfold Worker.finished; split <;> omega
    simp only [List.map_cons, List.sum_cons, List.length_cons]
    omega

/-- A worker that has not finished keeps the count of finished workers below the
number of workers. -/
theorem finished_sum_lt (l : List Worker) (k : Nat) (w : Worker) (hk : l[k]? = some w)
    (hw : w.finished = 0) : (l.map Worker.finished).sum < l.length := by
  have e := sum_map_set Worker.finished l k w { w with pc := .done } hk
  have h1 := finished_sum_le (l.set k { w with pc := .done })
  have h2 : Worker.finished { w with pc := .done } = 1 := by simp [Worker.finished]
  rw [List.length_set] at h1
  omega

theorem nworkers_pos {N C : Int} {Q : ℚ} {s : Sys} (h : Inv N C Q s) (k : Nat) (w : Worker)
    (hk : s.workers[k]? = some w) :
    1 ≤ C ∧ s.main ≠ .init ∧ s.main ≠ .wgAdd := by
  have hlen : k < s.workers.length := by
    rw [List.getElem?_eq_some] at hk
    exact hk.1
  have hn := h.nworkers
  have hb := h.spawnBound
  have ha := h.alloc
  cases hm : s.main <;> simp only [hm, MainPc.spawned] at hn <;>
    first
    | omega
    | (have hsb := hb _ hm; refine ⟨by omega, by simp, by simp⟩)
    | (have hal := ha (by simp [hm]); refine ⟨by omega, by simp, by simp⟩)

theorem Inv_takeToken {N C : Int} {Q : ℚ} {s : Sys} (h : Inv N C Q s) (k i : Nat)
    (w : Worker) (ch : Chan Unit) (x : Unit) (rest : List Unit)
    (hk : s.workers[k]? = some w) (hpc : w.pc = .loop i)
    (hch : s.b.stopCh = some ch) (hbuf : ch.buf = x :: rest) :
    Inv N C Q ({ s with b := { s.b with stopCh := some { ch with buf := rest } } }.setWorker k
      { w with taken := w.taken + 1, pc := .exit }) := by
  have hw := h.winv w (mem_of_get _ _ _ hk)
  simp only [WInv, hpc] at hw
  obtain ⟨w1, w2, w3, w4, w5, w6⟩ := hw
  have e1 := sum_map_set Worker.pushed s.workers k w { w with taken := w.taken + 1, pc := .exit } hk
  have e2 := sum_map_set Worker.taken s.workers k w { w with taken := w.taken + 1, pc := .exit } hk
  have e3 := sum_map_set Worker.finished s.workers k w { w with taken := w.taken + 1, pc := .exit } hk
  have g3 : w.finished = 0 := by simp [Worker.finished, hpc]
  have g4 : Worker.finished { w with taken := w.taken + 1, pc := .exit } = 0 := by
    simp [Worker.finished]
  dsimp only at e1 e2
  rw [g3, g4] at e3
  have hstop : s.stopc = ch := by simp [Sys.stopc, hch]
  have hsopen := h.sopen
  have htok := h.tokens
  have halloc := h.alloc
  rw [hstop] at hsopen htok halloc
  rw [hbuf] at htok
  exact
    { cfgN := h.cfgN, cfgC := h.cfgC, cfgQ := h.cfgQ, status := h.status
      winv := forall_mem_set _ _ _ _ h.winv (by
        simp only [WInv]
        refine ⟨w1, by omega, by omega, by omega, by omega⟩)
      pre := by
        intro hm
        have := h.pre hm
        rw [hch] at this
        simp at this
      alloc := by
        intro hm
        have := halloc hm
        simpa [Sys.setWorker, Sys.res, Sys.stopc, hch] using this
      sopen := by simpa [Sys.setWorker, Sys.stopc] using hsopen
      rlen := h.rlen
      rclosed := h.rclosed, closes := h.closes
      tokens := by
        show rest.length + (List.map Worker.taken (s.workers.set k _)).sum = s.sent
        simp only [List.length_cons, Sys.tokensTaken] at htok
        omega
      samples := by
        have := h.samples
        show s.received.length + s.res.buf.length = (List.map Worker.pushed (s.workers.set k _)).sum
        simp only [Sys.samplesPushed] at this
        omega
      repDone := h.repDone, repFin := h.repFin
      wg := by
        have := h.wg
        show s.wg = if s.main = .init ∨ s.main = .wgAdd then 0
          else wrap32 C - ((List.map Worker.finished (s.workers.set k _)).sum : Nat)
        simp only [Sys.finishedCount] at this
        rw [this]
        have e4 := Nat.add_right_cancel e3
        rw [e4]
      wgnn := h.wgnn
      nworkers := by simpa [Sys.setWorker] using h.nworkers
      spawnBound := h.spawnBound
      joined := h.joined
      stopper := h.stopper }


/-- The number of workers never exceeds `C`. -/
theorem workers_le {N C : Int} {Q : ℚ} {s : Sys} (h : Inv N C Q s) :
    s.workers.length ≤ C.toNat := by
  rw [h.nworkers]
  cases hm : s.main <;> simp only [MainPc.spawned] <;> first | omega | skip
  have := h.spawnBound _ hm
  omega

/-- While some worker has not finished and `C` is below 2^32, the counter of the wait
group is positive. -/
theorem wg_pos {N C : Int} {Q : ℚ} {s : Sys} (h : Inv N C Q s) (hC : C < 2 ^ 32)
    (k : Nat) (w : Worker) (hk : s.workers[k]? = some w) (hw : w.pc ≠ .done) :
    1 ≤ s.wg := by
  have hlt := finished_sum_lt s.workers k w hk (by simp [Worker.finished, hw])
  obtain ⟨hC1, hm1, hm2⟩ := nworkers_pos h k w hk
  have hwg := h.wg
  simp only [hm1, hm2, or_self, if_false, Sys.finishedCount] at hwg
  have hnn := h.wgnn
  have hle := workers_le h
  have hs := wrap32_small C (by omega) hC (by omega)
  omega

/-- A worker that has not finished while the counter of the wait group is zero: the
counter has wrapped around. -/
theorem wg_wrapped {N C : Int} {Q : ℚ} {s : Sys} (h : Inv N C Q s)
    (k : Nat) (w : Worker) (hk : s.workers[k]? = some w) (hw : w.pc ≠ .done)
    (hz : s.wg = 0) : 2 ^ 32 ≤ C := by
  by_contra hc
  have := wg_pos h (by omega) k w hk hw
  omega

/-- Once the main goroutine is past `wg.Wait()`, every worker has finished (for `C`
below 2^32). -/
theorem joined_finished {N C : Int} {Q : ℚ} {s : Sys} (h : Inv N C Q s) (hC : C < 2 ^ 32)
    (hj : s.main.joined = true) (k : Nat) (w : Worker) (hk : s.workers[k]? = some w) :
    w.pc = .done := by
  by_contra hc
  have h1 := wg_pos h hC k w hk hc
  have h2 := h.joined hj
  omega

theorem closedStage_joined (m : MainPc) (h : m.closedStage = true) : m.joined = true := by
  cases m <;> simp_all [MainPc.closedStage, MainPc.joined]

theorem Inv_push {N C : Int} {Q : ℚ} {s : Sys} (h : Inv N C Q s) (k i : Nat)
    (w : Worker) (r : result) (ch : Chan result)
    (hk : s.workers[k]? = some w) (hpc : w.pc = .push i r)
    (hch : s.b.results = some ch) (hopen : ch.closed = false)
    (hroom : ch.buf.length < ch.cap) :
    Inv N C Q ({ s with b := { s.b with results := some { ch with buf := ch.buf ++ [r] } } }.setWorker k
      { w with pushed := w.pushed + 1, pc := .loop (i + 1) }) := by
  have hw := h.winv w (mem_of_get _ _ _ hk)
  simp only [WInv, hpc] at hw
  obtain ⟨w1, w2, w3, w4, w5, w6⟩ := hw
  have e1 := sum_map_set Worker.pushed s.workers k w { w with pushed := w.pushed + 1, pc := .loop (i + 1) } hk
  have e2 := sum_map_set Worker.taken s.workers k w { w with pushed := w.pushed + 1, pc := .loop (i + 1) } hk
  have e3 := sum_map_set Worker.finished s.workers k w { w with pushed := w.pushed + 1, pc := .loop (i + 1) } hk
  have g3 : w.finished = 0 := by simp [Worker.finished, hpc]
  have g4 : Worker.finished { w with pushed := w.pushed + 1, pc := .loop (i + 1) } = 0 := by
    simp [Worker.finished]
  dsimp only at e1 e2
  rw [g3, g4] at e3
  have hres : s.res = ch := by simp [Sys.res, hch]
  have hncl : s.main.closedStage = false := by
    rw [← h.rclosed, hres, hopen]
  have hrclosed := h.rclosed
  have hsam := h.samples
  have halloc := h.alloc
  have hrep := h.repDone
  rw [hres] at hrclosed hsam halloc hrep
  exact
    { cfgN := h.cfgN, cfgC := h.cfgC, cfgQ := h.cfgQ, status := h.status
      winv := forall_mem_set _ _ _ _ h.winv (by
        simp only [WInv]
        refine ⟨w1, w2, by omega, by omega, by omega, by omega⟩)
      pre := by
        intro hm
        have := h.pre hm
        rw [hch] at this
        simp at this
      alloc := by
        intro hm
        have := halloc hm
        simpa [Sys.setWorker, Sys.res, Sys.stopc, hch] using this
      sopen := h.sopen
      rlen := by
        show (ch.buf ++ [r]).length ≤ ch.cap
        simp only [List.length_append, List.length_singleton]
        omega
      rclosed := hrclosed
      closes := h.closes
      tokens := by
        have := h.tokens
        show s.stopc.buf.length + (List.map Worker.taken (s.workers.set k _)).sum = s.sent
        simp only [Sys.tokensTaken] at this
        omega
      samples := by
        show s.received.length + (ch.buf ++ [r]).length
          = (List.map Worker.pushed (s.workers.set k _)).sum
        simp only [Sys.samplesPushed] at hsam
        simp only [List.length_append, List.length_singleton]
        omega
      repDone := by
        intro hd
        have := (hrep hd).1
        rw [hrclosed, hncl] at this
        cases this
      repFin := h.repFin
      wg := by
        have := h.wg
        show s.wg = if s.main = .init ∨ s.main = .wgAdd then 0
          else wrap32 C - ((List.map Worker.finished (s.workers.set k _)).sum : Nat)
        simp only [Sys.finishedCount] at this
        rw [this]
        have e4 := Nat.add_right_cancel e3
        rw [e4]
      wgnn := h.wgnn
      nworkers := by simpa [Sys.setWorker] using h.nworkers
      spawnBound := h.spawnBound
      joined := h.joined
      stopper := h.stopper }

theorem Inv_handoff {N C : Int} {Q : ℚ} {s : Sys} (h : Inv N C Q s) (k i : Nat)
    (w : Worker) (r : result)
    (hk : s.workers[k]? = some w) (hpc : w.pc = .push i r) (hrun : s.reporter = .running) :
    Inv N C Q ({ s with received := s.received ++ [r] }.setWorker k
      { w with pushed := w.pushed + 1, pc := .loop (i + 1) }) := by
  have hw := h.winv w (mem_of_get _ _ _ hk)
  simp only [WInv, hpc] at hw
  obtain ⟨w1, w2, w3, w4, w5, w6⟩ := hw
  have e1 := sum_map_set Worker.pushed s.workers k w { w with pushed := w.pushed + 1, pc := .loop (i + 1) } hk
  have e2 := sum_map_set Worker.taken s.workers k w { w with pushed := w.pushed + 1, pc := .loop (i + 1) } hk
  have e3 := sum_map_set Worker.finished s.workers k w { w with pushed := w.pushed + 1, pc := .loop (i + 1) } hk
  have g3 : w.finished = 0 := by simp [Worker.finished, hpc]
  have g4 : Worker.finished { w with pushed := w.pushed + 1, pc := .loop (i + 1) } = 0 := by
    simp [Worker.finished]
  dsimp only at e1 e2
  rw [g3, g4] at e3
  exact
    { cfgN := h.cfgN, cfgC := h.cfgC, cfgQ := h.cfgQ, status := h.status
      winv := forall_mem_set _ _ _ _ h.winv (by
        simp only [WInv]
        refine ⟨w1, w2, by omega, by omega, by omega, by omega⟩)
      pre := by
        intro hm
        have := (h.pre hm).2.2.2.1
        rw [hrun] at this
        cases this
      alloc := h.alloc
      sopen := h.sopen
      rlen := h.rlen
      rclosed := h.rclosed
      closes := h.closes
      tokens := by
        have := h.tokens
        show s.stopc.buf.length + (List.map Worker.taken (s.workers.set k _)).sum = s.sent
        simp only [Sys.tokensTaken] at this
        omega
      samples := by
        have := h.samples
        show (s.received ++ [r]).length + s.res.buf.length
          = (List.map Worker.pushed (s.workers.set k _)).sum
        simp only [Sys.samplesPushed] at this
        simp only [List.length_append, List.length_singleton]
        omega
      repDone := by
        intro hd
        have : s.reporter = .done := hd
        rw [hrun] at this
        cases this
      repFin := by
        intro hm
        have := h.repFin hm
        rw [hrun] at this
        cases this
      wg := by
        have := h.wg
        show s.wg = if s.main = .init ∨ s.main = .wgAdd then 0
          else wrap32 C - ((List.map Worker.finished (s.workers.set k _)).sum : Nat)
        simp only [Sys.finishedCount] at this
        rw [this]
        have e4 := Nat.add_right_cancel e3
        rw [e4]
      wgnn := h.wgnn
      nworkers := by simpa [Sys.setWorker] using h.nworkers
      spawnBound := h.spawnBound
      joined := h.joined
      stopper := h.stopper }

theorem Inv_exit {N C : Int} {Q : ℚ} {s : Sys} (h : Inv N C Q s) (k : Nat)
    (w : Worker) (hk : s.workers[k]? = some w) (hpc : w.pc = .exit) (hpos : 1 ≤ s.wg) :
    Inv N C Q ({ s with wg := s.wg - 1 }.setWorker k { w with pc := .done }) := by
  have hw := h.winv w (mem_of_get _ _ _ hk)
  simp only [WInv, hpc] at hw
  have e1 := sum_map_set Worker.pushed s.workers k w { w with pc := .done } hk
  have e2 := sum_map_set Worker.taken s.workers k w { w with pc := .done } hk
  have e3 := sum_map_set Worker.finished s.workers k w { w with pc := .done } hk
  have g3 : w.finished = 0 := by simp [Worker.finished, hpc]
  have g4 : Worker.finished { w with pc := .done } = 1 := by
    simp [Worker.finished]
  dsimp only at e1 e2
  rw [g3, g4] at e3
  obtain ⟨hC1, hm1, hm2⟩ := nworkers_pos h k w hk
  have hwg := h.wg
  simp only [hm1, hm2, or_self, if_false, Sys.finishedCount] at hwg
  exact
    { cfgN := h.cfgN, cfgC := h.cfgC, cfgQ := h.cfgQ, status := h.status
      winv := forall_mem_set _ _ _ _ h.winv (by
        simp only [WInv]
        exact hw)
      pre := h.pre
      alloc := h.alloc
      sopen := h.sopen
      rlen := h.rlen
      rclosed := h.rclosed
      closes := h.closes
      tokens := by
        have := h.tokens
        show s.stopc.buf.length + (List.map Worker.taken (s.workers.set k _)).sum = s.sent
        simp only [Sys.tokensTaken] at this
        omega
      samples := by
        have := h.samples
        show s.received.length + s.res.buf.length
          = (List.map Worker.pushed (s.workers.set k _)).sum
        simp only [Sys.samplesPushed] at this
        omega
      repDone := h.repDone
      repFin := h.repFin
      wg := by
        show s.wg - 1 = if s.main = .init ∨ s.main = .wgAdd then 0
          else wrap32 C - ((List.map Worker.finished (s.workers.set k _)).sum : Nat)
        simp only [hm1, hm2, or_self, if_false]
        omega
      wgnn := by
        show 0 ≤ s.wg - 1
        omega
      nworkers := by simpa [Sys.setWorker] using h.nworkers
      spawnBound := h.spawnBound
      joined := by
        intro hj
        have := h.joined hj
        omega
      stopper := h.stopper }

/-- `wg.Done()` on a counter within `int32`: it panics on zero and subtracts one
otherwise. -/
theorem waitGroupAdd_done (c : Int) (h0 : 0 ≤ c) (h1 : c < 2 ^ 31) :
    waitGroupAdd c (-1) = if c = 0 then .error .negativeWaitGroup else .ok (c - 1) := by
  unfold waitGroupAdd
  have e : c + -1 = c - 1 := by ring
  rw [e, wrap32_id (c - 1) (by norm_num; omega) (by norm_num at h1 ⊢; omega)]
  by_cases hc : c = 0
  · subst hc; simp
  · rw [if_neg (by omega), if_neg hc]

/-- The counter of the wait group stays within `int32`. -/
theorem wg_lt {N C : Int} {Q : ℚ} {s : Sys} (h : Inv N C Q s) : s.wg < 2 ^ 31 := by
  have hwg := h.wg
  have := wrap32_lt C
  split at hwg
  · rw [hwg]; norm_num
  · omega

theorem makeRequestBody_ok (rnd : Nat) :
    makeRequestBody rnd = .ok ⟨"zhu"⟩ ∨ makeRequestBody rnd = .ok ⟨"bin"⟩ := by
  have h : rnd % 2 = 0 ∨ rnd % 2 = 1 := by omega
  unfold makeRequestBody Intn names
  rcases h with h | h <;> simp [h]

theorem makeRequest_cases (env : CallEnv) :
    (∃ m, env.dialErr = some m ∧ makeRequest env = .error (.fatalDial m)) ∨
    (env.dialErr = none ∧ makeRequest env = .ok
      { offset := env.s, statusCode := 200, duration := wrap64 (env.t - env.s),
        err := env.rpcErr, contentLength := 100, connDuration := 1,
        dnsDuration := 1, reqDuration := 1, resDuration := 1, delayDuration := 1 }) := by
  unfold makeRequest
  cases hd : env.dialErr with
  | some m => exact Or.inl ⟨m, rfl, rfl⟩
  | none =>
    refine Or.inr ⟨rfl, ?_⟩
    rcases makeRequestBody_ok env.rnd with h | h <;> simp [h]

theorem Inv_stepWorker {N C : Int} {Q : ℚ} {s s' : Sys} (h : Inv N C Q s) (k : Nat)
    (env : CallEnv) (e : stepWorker s k env = some s') : Inv N C Q s' := by
  unfold stepWorker at e
  cases hk : s.workers[k]? with
  | none => simp [hk] at e
  | some w =>
    have hw := h.winv w (mem_of_get _ _ _ hk)
    obtain ⟨hC1, hm1, hm2⟩ := nworkers_pos h k w hk
    have hC := h.cfgC
    have hN := h.cfgN
    have hQ := h.cfgQ
    simp only [hk] at e
    cases hpc : w.pc with
    | entry =>
      simp only [hpc, WInv] at e hw
      have hC0 : ¬ s.b.C = 0 := by omega
      simp only [hC0, if_false, Option.some.injEq] at e
      subst e
      refine Inv_setWorker h k w _ hk rfl rfl (by simp [Worker.finished, hpc]) ?_
      simp only [WInv, hN, hC, hQ]
      refine ⟨trivial, trivial, hw.1, hw.2.1, hw.2.2, by omega⟩
    | loop i =>
      simp only [hpc, WInv] at e hw
      obtain ⟨w1, w2, w3, w4, w5, w6⟩ := hw
      have hpoll : Inv N C Q (s.setWorker k (afterPoll s.b.QPS w i)) ∨ ¬ (i : Int) < w.n := by
        by_cases hin : (i : Int) < w.n
        · left
          unfold afterPoll Worker.enterRequest
          split
          · refine Inv_setWorker h k w _ hk rfl rfl (by simp [Worker.finished, hpc]) ?_
            simp only [WInv]
            refine ⟨w1, w2, w3, w4, w5, by omega, by rw [← hQ]; assumption⟩
          · refine Inv_setWorker h k w _ hk rfl rfl (by simp [Worker.finished, hpc]) ?_
            simp only [WInv]
            refine ⟨w1, w2, by omega, w4, w5, by omega⟩
        · right; exact hin
      by_cases hin : (i : Int) < w.n
      · simp only [hin, if_true] at e
        rcases hpoll with hpoll | hpoll
        · cases hch : s.b.stopCh with
          | none =>
            simp only [hch, Option.some.injEq] at e
            subst e; exact hpoll
          | some ch =>
            simp only [hch] at e
            cases hbuf : ch.buf with
            | cons x rest =>
              simp only [hbuf, Option.some.injEq] at e
              subst e
              exact Inv_takeToken h k i w ch x rest hk hpc hch hbuf
            | nil =>
              simp only [hbuf] at e
              have hopen := h.sopen
              simp only [Sys.stopc, hch, Option.getD_some] at hopen
              simp only [hopen, Bool.false_eq_true, if_false, Option.some.injEq] at e
              subst e; exact hpoll
        · exact absurd hin hpoll
      · simp only [hin, if_false, Option.some.injEq] at e
        subst e
        refine Inv_setWorker h k w _ hk rfl rfl (by simp [Worker.finished, hpc]) ?_
        simp only [WInv]
        refine ⟨w1, by omega, by omega, by omega, ?_⟩
        intro _
        omega
    | tick i =>
      simp only [hpc, WInv] at e hw
      obtain ⟨w1, w2, w3, w4, w5, w6, w7⟩ := hw
      cases hth : w.throttle with
      | none => simp [hth] at e
      | some d =>
        simp only [hth, Option.some.injEq] at e
        subst e
        refine Inv_setWorker h k w _ hk rfl rfl (by simp [Worker.finished, hpc, Worker.enterRequest]) ?_
        simp only [WInv, Worker.enterRequest]
        refine ⟨w1, w2, by omega, w4, w5, w6⟩
    | request i =>
      simp only [hpc, WInv] at e hw
      obtain ⟨w1, w2, w3, w4, w5, w6⟩ := hw
      rcases makeRequest_cases env with ⟨m, _, hm⟩ | ⟨_, hm⟩
      · simp only [hm, Option.some.injEq] at e
        subst e
        exact Inv_crash h _ (Or.inr (Or.inl ⟨m, rfl⟩))
      · simp only [hm, Option.some.injEq] at e
        subst e
        refine Inv_setWorker h k w _ hk rfl rfl (by simp [Worker.finished, hpc]) ?_
        simp only [WInv]
        exact ⟨w1, w2, w3, w4, w5, w6⟩
    | push i r =>
      simp only [hpc] at e
      cases hch : s.b.results with
      | none => simp [hch] at e
      | some ch =>
        simp only [hch] at e
        have hcl := h.rclosed
        simp only [Sys.res, hch, Option.getD_some] at hcl
        by_cases hcl2 : ch.closed = true
        · rw [if_pos hcl2] at e
          simp only [Option.some.injEq] at e
          subst e
          have hj := closedStage_joined _ (by rw [← hcl, hcl2])
          have hC32 := wg_wrapped h k w hk (by rw [hpc]; simp) (h.joined hj)
          exact Inv_crash h _ (Or.inr (Or.inr (Or.inr ⟨rfl, hC32⟩)))
        rw [if_neg hcl2] at e
        by_cases hroom : ch.buf.length < ch.cap
        · rw [if_pos hroom] at e
          simp only [Option.some.injEq] at e
          subst e
          exact Inv_push h k i w r ch hk hpc hch (by simpa using hcl2) hroom
        · rw [if_neg hroom] at e
          by_cases hh : ch.cap = 0 ∧ ch.buf = [] ∧ s.reporter = .running
          · rw [if_pos hh] at e
            simp only [Option.some.injEq] at e
            subst e
            exact Inv_handoff h k i w r hk hpc hh.2.2
          · rw [if_neg hh] at e
            cases e
    | exit =>
      simp only [hpc] at e
      rw [waitGroupAdd_done s.wg h.wgnn (wg_lt h)] at e
      by_cases hz : s.wg = 0
      · rw [if_pos hz] at e
        simp only [Option.some.injEq] at e
        subst e
        have hC32 := wg_wrapped h k w hk (by rw [hpc]; simp) hz
        exact Inv_crash h _ (Or.inr (Or.inr (Or.inl ⟨rfl, by omega⟩)))
      · rw [if_neg hz] at e
        simp only [Option.some.injEq] at e
        subst e
        have hnn := h.wgnn
        exact Inv_exit h k w hk hpc (by omega)
    | done => simp [hpc] at e


theorem Init_fresh (b : RpcWork) (h : b.initOnce = false) :
    (Init b = .error .makechanSize ∧
      (min (wrap64 (b.C * 1000)) maxResult < 0 ∨ b.C < 0)) ∨
    (0 ≤ min (wrap64 (b.C * 1000)) maxResult ∧ 0 ≤ b.C ∧
      Init b = .ok { b with
        initOnce := true,
        results := some ⟨(min (wrap64 (b.C * 1000)) maxResult).toNat, [], false⟩,
        stopCh := some ⟨b.C.toNat, [], false⟩ }) := by
  unfold Init makeChan
  simp only [h, Bool.false_eq_true, if_false]
  by_cases h1 : min (wrap64 (b.C * 1000)) maxResult < 0
  · left; simp [h1]
  · by_cases h2 : b.C < 0
    · left; simp [h1, h2]
    · right; simp [h1, h2]; omega

theorem Inv_stepMain {N C : Int} {Q : ℚ} {s s' : Sys} (h : Inv N C Q s) (clock : Int)
    (e : stepMain s clock = some s') : Inv N C Q s' := by
  unfold stepMain at e
  have hC := h.cfgC
  cases hm : s.main with
  | init =>
    simp only [hm] at e
    obtain ⟨p1, p2, p3, p4, p5⟩ := h.pre hm
    have hcl := h.closes
    have htok := h.tokens
    have hsam := h.samples
    have hwg := h.wg
    have hnw := h.nworkers
    simp only [hm, MainPc.closedStage, MainPc.spawned, Sys.stopc, Sys.res, p2, p3,
      Option.getD_none, List.length_nil, zero_add, add_zero, true_or, if_true,
      Bool.false_eq_true, if_false] at hcl htok hsam hwg hnw
    rcases Init_fresh s.b p1 with ⟨hi, _⟩ | ⟨hi1, hi2, hi⟩
    · simp only [hi, Option.some.injEq] at e
      subst e
      exact Inv_crash h _ (Or.inl rfl)
    · simp only [hi, Option.some.injEq] at e
      subst e
      rw [hC] at hi1 hi2
      exact
        { cfgN := h.cfgN, cfgC := h.cfgC, cfgQ := h.cfgQ, status := h.status
          winv := h.winv
          pre := by intro hc; cases hc
          alloc := by
            intro _
            simp [Sys.res, Sys.stopc, hi1, hi2, hC]
          sopen := by simp [Sys.stopc]
          rlen := by simp [Sys.res]
          rclosed := by simp [Sys.res, MainPc.closedStage]
          closes := by simpa [MainPc.closedStage] using hcl
          tokens := by simpa [Sys.stopc, Sys.tokensTaken] using htok
          samples := by simpa [Sys.res, Sys.samplesPushed] using hsam
          repDone := by intro hc; cases hc
          repFin := by intro hc; rcases hc with hc | hc <;> cases hc
          wg := by simpa using hwg
          wgnn := h.wgnn
          nworkers := by simpa [MainPc.spawned] using hnw
          spawnBound := by intro i hc; cases hc
          joined := by intro hc; cases hc
          stopper := h.stopper }
  | wgAdd =>
    simp only [hm] at e
    have ha := h.alloc (by simp [hm])
    have hwg := h.wg
    have hnw := h.nworkers
    have hcl := h.closes
    have hrc := h.rclosed
    simp only [hm, MainPc.spawned, or_true, if_true, MainPc.closedStage] at hwg hnw hcl hrc
    have hnil : s.workers = [] := List.length_eq_zero.1 hnw
    have hadd : s.wg + s.b.C = C := by rw [hwg, hC]; ring
    unfold waitGroupAdd at e
    rw [hadd] at e
    by_cases hneg : wrap32 C < 0
    · rw [if_pos hneg] at e
      simp only [Option.some.injEq] at e
      subst e
      exact Inv_crash h _ (Or.inr (Or.inr (Or.inl ⟨rfl, wrap32_neg C ha.1 hneg⟩)))
    rw [if_neg hneg] at e
    simp only [Option.some.injEq] at e
    subst e
    exact
      { cfgN := h.cfgN, cfgC := h.cfgC, cfgQ := h.cfgQ, status := h.status
        winv := h.winv
        pre := by intro hc; cases hc
        alloc := by intro _; exact ha
        sopen := h.sopen
        rlen := h.rlen
        rclosed := by simpa [MainPc.closedStage] using hrc
        closes := by simpa [MainPc.closedStage] using hcl
        tokens := h.tokens
        samples := h.samples
        repDone := h.repDone
        repFin := by intro hc; rcases hc with hc | hc <;> cases hc
        wg := by simp [Sys.finishedCount, hnil]
        wgnn := by
          show 0 ≤ wrap32 C
          omega
        nworkers := by simpa [MainPc.spawned] using hnw
        spawnBound := by
          intro i hc
          cases hc
          exact_mod_cast ha.1
        joined := by intro hc; cases hc
        stopper := h.stopper }
  | spawn i =>
    simp only [hm] at e
    have ha := h.alloc (by simp [hm])
    have hwg := h.wg
    have hnw := h.nworkers
    have hcl := h.closes
    have hrc := h.rclosed
    have hsb := h.spawnBound i hm
    simp only [hm, MainPc.spawned, MainPc.closedStage, reduceCtorEq, or_self, if_false] at hwg hnw hcl hrc
    by_cases hi : (i : Int) < s.b.C
    · simp only [hi, if_true, Option.some.injEq] at e
      subst e
      exact
        { cfgN := h.cfgN, cfgC := h.cfgC, cfgQ := h.cfgQ, status := h.status
          winv := by
            intro w hw
            simp only [List.mem_append, List.mem_singleton] at hw
            rcases hw with hw | hw
            · exact h.winv w hw
            · subst hw; simp [WInv, Worker.new]
          pre := by intro hc; cases hc
          alloc := by intro _; exact ha
          sopen := h.sopen
          rlen := h.rlen
          rclosed := by simpa [MainPc.closedStage] using hrc
          closes := by simpa [MainPc.closedStage] using hcl
          tokens := by simpa [Sys.tokensTaken, Worker.new] using h.tokens
          samples := by simpa [Sys.samplesPushed, Worker.new] using h.samples
          repDone := h.repDone
          repFin := by intro hc; rcases hc with hc | hc <;> cases hc
          wg := by simpa [Sys.finishedCount, Worker.new, Worker.finished] using hwg
          wgnn := h.wgnn
          nworkers := by simp [MainPc.spawned, hnw]
          spawnBound := by
            intro j hc
            cases hc
            push_cast
            omega
          joined := by intro hc; cases hc
          stopper := h.stopper }
    · simp only [hi, if_false, Option.some.injEq] at e
      subst e
      exact
        { cfgN := h.cfgN, cfgC := h.cfgC, cfgQ := h.cfgQ, status := h.status
          winv := h.winv
          pre := by intro hc; cases hc
          alloc := by intro _; exact ha
          sopen := h.sopen
          rlen := h.rlen
          rclosed := by simpa [MainPc.closedStage] using hrc
          closes := by simpa [MainPc.closedStage] using hcl
          tokens := h.tokens
          samples := h.samples
          repDone := h.repDone
          repFin := by intro hc; rcases hc with hc | hc <;> cases hc
          wg := by simpa using hwg
          wgnn := h.wgnn
          nworkers := by
            show s.workers.length = C.toNat
            omega
          spawnBound := by intro j hc; cases hc
          joined := by intro hc; cases hc
          stopper := h.stopper }
  | wait =>
    simp only [hm] at e
    have ha := h.alloc (by simp [hm])
    have hwg := h.wg
    have hnw := h.nworkers
    have hcl := h.closes
    have hrc := h.rclosed
    simp only [hm, MainPc.spawned, MainPc.closedStage, reduceCtorEq, or_self, if_false] at hwg hnw hcl hrc
    by_cases hz : s.wg = 0
    · rw [if_pos hz] at e
      simp only [Option.some.injEq] at e
      subst e
      exact
        { cfgN := h.cfgN, cfgC := h.cfgC, cfgQ := h.cfgQ, status := h.status
          winv := h.winv
          pre := by intro hc; cases hc
          alloc := by intro _; exact ha
          sopen := h.sopen
          rlen := h.rlen
          rclosed := by simpa [MainPc.closedStage] using hrc
          closes := by simpa [MainPc.closedStage] using hcl
          tokens := h.tokens
          samples := h.samples
          repDone := h.repDone
          repFin := by intro hc; rcases hc with hc | hc <;> cases hc
          wg := by simpa using hwg
          wgnn := h.wgnn
          nworkers := by simpa [MainPc.spawned] using hnw
          spawnBound := by intro j hc; cases hc
          joined := by intro _; exact hz
          stopper := h.stopper }
    · simp [hz] at e
  | close =>
    simp only [hm] at e
    have ha := h.alloc (by simp [hm])
    have hwg := h.wg
    have hnw := h.nworkers
    have hcl := h.closes
    have hrc := h.rclosed
    have hj := h.joined
    simp only [hm, MainPc.spawned, MainPc.closedStage, MainPc.joined, reduceCtorEq, or_self,
      if_false, Bool.false_eq_true] at hwg hnw hcl hrc hj
    cases hch : s.b.results with
    | none =>
      have := ha.2.2.1
      rw [hch] at this
      cases this
    | some ch =>
      simp only [hch] at e
      have hres : s.res = ch := by simp [Sys.res, hch]
      rw [hres] at hrc
      have hncl : ¬ (ch.closed = true) := by rw [hrc]; simp
      rw [if_neg hncl] at e
      simp only [Option.some.injEq] at e
      subst e
      have hrl := h.rlen
      have hsam := h.samples
      have hrd := h.repDone
      rw [hres] at hrl hsam hrd ha
      exact
        { cfgN := h.cfgN, cfgC := h.cfgC, cfgQ := h.cfgQ, status := h.status
          winv := h.winv
          pre := by intro hc; cases hc
          alloc := by
            intro _
            simpa [Sys.res, Sys.stopc, hch] using ha
          sopen := h.sopen
          rlen := hrl
          rclosed := by simp [Sys.res, MainPc.closedStage]
          closes := by simp [MainPc.closedStage, hcl]
          tokens := h.tokens
          samples := hsam
          repDone := by
            intro hc
            have := (hrd hc).1
            exact absurd this hncl
          repFin := by intro hc; rcases hc with hc | hc <;> cases hc
          wg := by simpa using hwg
          wgnn := h.wgnn
          nworkers := by simpa [MainPc.spawned] using hnw
          spawnBound := by intro j hc; cases hc
          joined := by intro _; exact hj trivial
          stopper := h.stopper }
  | awaitDone =>
    simp only [hm] at e
    have ha := h.alloc (by simp [hm])
    have hwg := h.wg
    have hnw := h.nworkers
    have hcl := h.closes
    have hrc := h.rclosed
    have hj := h.joined
    simp only [hm, MainPc.spawned, MainPc.closedStage, MainPc.joined, reduceCtorEq, or_self,
      if_false, if_true] at hwg hnw hcl hrc hj
    by_cases hd : s.reporter = .done
    · rw [if_pos hd] at e
      simp only [Option.some.injEq] at e
      subst e
      exact
        { cfgN := h.cfgN, cfgC := h.cfgC, cfgQ := h.cfgQ, status := h.status
          winv := h.winv
          pre := by intro hc; cases hc
          alloc := by intro _; exact ha
          sopen := h.sopen
          rlen := h.rlen
          rclosed := by simpa [MainPc.closedStage] using hrc
          closes := by simpa [MainPc.closedStage] using hcl
          tokens := h.tokens
          samples := h.samples
          repDone := h.repDone
          repFin := by intro _; exact hd
          wg := by simpa using hwg
          wgnn := h.wgnn
          nworkers := by simpa [MainPc.spawned] using hnw
          spawnBound := by intro j hc; cases hc
          joined := by intro _; exact hj trivial
          stopper := h.stopper }
    · simp [hd] at e
  | finalize =>
    simp only [hm, Option.some.injEq] at e
    have ha := h.alloc (by simp [hm])
    have hwg := h.wg
    have hnw := h.nworkers
    have hcl := h.closes
    have hrc := h.rclosed
    have hj := h.joined
    have hrf := h.repFin (Or.inl hm)
    simp only [hm, MainPc.spawned, MainPc.closedStage, MainPc.joined, reduceCtorEq, or_self,
      if_false, if_true] at hwg hnw hcl hrc hj
    subst e
    exact
      { cfgN := h.cfgN, cfgC := h.cfgC, cfgQ := h.cfgQ, status := h.status
        winv := h.winv
        pre := by intro hc; cases hc
        alloc := by intro _; exact ha
        sopen := h.sopen
        rlen := h.rlen
        rclosed := by simpa [MainPc.closedStage] using hrc
        closes := by simpa [MainPc.closedStage] using hcl
        tokens := h.tokens
        samples := h.samples
        repDone := h.repDone
        repFin := by intro _; exact hrf
        wg := by simpa using hwg
        wgnn := h.wgnn
        nworkers := by simpa [MainPc.spawned] using hnw
        spawnBound := by intro j hc; cases hc
        joined := by intro _; exact hj trivial
        stopper := h.stopper }
  | returned => simp [hm] at e


theorem Inv_stepReporter {N C : Int} {Q : ℚ} {s s' : Sys} (h : Inv N C Q s)
    (e : stepReporter s = some s') : Inv N C Q s' := by
  unfold stepReporter at e
  cases hr : s.reporter with
  | idle => simp [hr] at e
  | done => simp [hr] at e
  | running =>
    simp only [hr] at e
    have hmi : s.main ≠ .init := by
      intro hc
      have := (h.pre hc).2.2.2.1
      rw [hr] at this
      cases this
    have ha := h.alloc hmi
    cases hch : s.b.results with
    | none => simp [hch] at e
    | some ch =>
      simp only [hch] at e
      have hres : s.res = ch := by simp [Sys.res, hch]
      have hrl := h.rlen
      have hsam := h.samples
      have hrc := h.rclosed
      rw [hres] at hrl hsam hrc ha
      cases hbuf : ch.buf with
      | cons r rest =>
        simp only [hbuf, Option.some.injEq] at e
        subst e
        rw [hbuf] at hrl hsam
        simp only [List.length_cons] at hrl hsam
        exact
          { cfgN := h.cfgN, cfgC := h.cfgC, cfgQ := h.cfgQ, status := h.status
            winv := h.winv
            pre := by intro hc; exact absurd hc hmi
            alloc := by
              intro _
              simpa [Sys.res, Sys.stopc, hch, hr] using ha
            sopen := h.sopen
            rlen := by
              show rest.length ≤ ch.cap
              omega
            rclosed := hrc
            closes := h.closes
            tokens := h.tokens
            samples := by
              show (s.received ++ [r]).length + rest.length = s.samplesPushed
              simp only [List.length_append, List.length_singleton]
              omega
            repDone := by
              intro hc
              cases hc
            repFin := by
              intro hc
              have := h.repFin hc
              rw [hr] at this
              cases this
            wg := h.wg
            wgnn := h.wgnn
            nworkers := h.nworkers
            spawnBound := h.spawnBound
            joined := h.joined
            stopper := h.stopper }
      | nil =>
        simp only [hbuf] at e
        by_cases hcl : ch.closed = true
        · rw [if_pos hcl] at e
          simp only [Option.some.injEq] at e
          subst e
          exact
            { cfgN := h.cfgN, cfgC := h.cfgC, cfgQ := h.cfgQ, status := h.status
              winv := h.winv
              pre := by intro hc; exact absurd hc hmi
              alloc := by
                intro _
                have := h.alloc hmi
                refine ⟨this.1, this.2.1, this.2.2.1, this.2.2.2.1, this.2.2.2.2.1, ?_,
                  this.2.2.2.2.2.2.1, this.2.2.2.2.2.2.2⟩
                intro hc; cases hc
              sopen := h.sopen
              rlen := h.rlen
              rclosed := h.rclosed
              closes := h.closes
              tokens := h.tokens
              samples := h.samples
              repDone := by
                intro _
                show s.res.closed = true ∧ s.res.buf = []
                rw [hres]
                exact ⟨hcl, hbuf⟩
              repFin := by intro _; rfl
              wg := h.wg
              wgnn := h.wgnn
              nworkers := h.nworkers
              spawnBound := h.spawnBound
              joined := h.joined
              stopper := h.stopper }
        · rw [if_neg hcl] at e
          cases e

theorem Inv_stepStop {N C : Int} {Q : ℚ} {s s' : Sys} (h : Inv N C Q s)
    (e : stepStop s = some s') : Inv N C Q s' := by
  unfold stepStop at e
  have hst := h.stopper
  have hC := h.cfgC
  cases hp : s.stopper with
  | hung => simp [hp] at e
  | done => simp [hp] at e
  | idle =>
    simp only [hp, Option.some.injEq] at e
    simp only [SInv, hp] at hst
    subst e
    refine { h with stopper := ?_ }
    simp only [SInv]
    exact ⟨hst, Nat.zero_le _⟩
  | loop i =>
    simp only [hp] at e
    simp only [SInv, hp] at hst
    by_cases hi : (i : Int) < s.b.C
    · rw [if_pos hi] at e
      cases hch : s.b.stopCh with
      | none =>
        simp only [hch, Option.some.injEq] at e
        subst e
        have hmi : s.main = .init := by
          by_contra hc
          have := (h.alloc hc).2.2.2.1
          rw [hch] at this
          cases this
        have htok := h.tokens
        have hnw := h.nworkers
        simp only [hmi, MainPc.spawned] at hnw
        have hnil : s.workers = [] := List.length_eq_zero.1 hnw
        simp only [Sys.stopc, hch, Option.getD_none, Sys.tokensTaken, hnil, List.map_nil,
          List.sum_nil, List.length_nil] at htok
        refine { h with stopper := ?_ }
        simp only [SInv]
        omega
      | some ch =>
        simp only [hch] at e
        have hstop : s.stopc = ch := by simp [Sys.stopc, hch]
        have hopen := h.sopen
        have htok := h.tokens
        rw [hstop] at hopen htok
        have hncl : ¬ (ch.closed = true) := by rw [hopen]; simp
        rw [if_neg hncl] at e
        by_cases hroom : ch.buf.length < ch.cap
        · rw [if_pos hroom] at e
          simp only [Option.some.injEq] at e
          subst e
          exact
            { cfgN := h.cfgN, cfgC := h.cfgC, cfgQ := h.cfgQ, status := h.status
              winv := h.winv
              pre := by
                intro hm
                have := (h.pre hm).2.2.1
                rw [hch] at this
                cases this
              alloc := by
                intro hm
                have := h.alloc hm
                rw [hstop] at this
                simpa [Sys.res, Sys.stopc, hch] using this
              sopen := by
                show ch.closed = false
                exact hopen
              rlen := h.rlen
              rclosed := h.rclosed
              closes := h.closes
              tokens := by
                show (ch.buf ++ [()]).length + s.tokensTaken = s.sent + 1
                simp only [List.length_append, List.length_singleton]
                omega
              samples := h.samples
              repDone := h.repDone
              repFin := h.repFin
              wg := h.wg
              wgnn := h.wgnn
              nworkers := h.nworkers
              spawnBound := h.spawnBound
              joined := h.joined
              stopper := by
                simp only [SInv]
                omega }
        · rw [if_neg hroom] at e
          cases e
    · rw [if_neg hi] at e
      simp only [Option.some.injEq] at e
      subst e
      refine { h with stopper := ?_ }
      simp only [SInv]
      omega

theorem Inv_step {N C : Int} {Q : ℚ} {s s' : Sys} (h : Inv N C Q s) (a : Action)
    (e : step s a = some s') : Inv N C Q s' := by
  unfold step at e
  cases hs : s.status with
  | some f => simp [hs] at e
  | none =>
    simp only [hs] at e
    cases a with
    | main clock => exact Inv_stepMain h clock e
    | worker k env => exact Inv_stepWorker h k env e
    | reporter => exact Inv_stepReporter h e
    | stop => exact Inv_stepStop h e

theorem Inv_next {N C : Int} {Q : ℚ} {s : Sys} (h : Inv N C Q s) (a : Action) :
    Inv N C Q (next s a) := by
  unfold next
  cases e : step s a with
  | none => exact h
  | some s' => exact Inv_step h a e

theorem Inv_run {N C : Int} {Q : ℚ} (sched : List Action) :
    ∀ {s : Sys}, Inv N C Q s → Inv N C Q (run s sched) := by
  induction sched with
  | nil => intro s h; exact h
  | cons a rest ih => intro s h; exact ih (Inv_next h a)

theorem Inv_start (N C T : Int) (Q : ℚ) : Inv N C Q (Sys.start (RpcWork.fresh N C T Q)) := by
  refine
    { cfgN := rfl, cfgC := rfl, cfgQ := rfl, status := Or.inl rfl
      winv := by intro w hw; cases hw
      pre := by intro _; exact ⟨rfl, rfl, rfl, rfl, rfl⟩
      alloc := by intro hc; exact absurd rfl hc
      sopen := rfl
      rlen := Nat.le_refl _
      rclosed := rfl
      closes := rfl
      tokens := rfl
      samples := rfl
      repDone := by intro hc; cases hc
      repFin := by intro hc; rcases hc with hc | hc <;> cases hc
      wg := rfl
      wgnn := Int.le_refl 0
      nworkers := rfl
      spawnBound := by intro i hc; cases hc
      joined := by intro hc; cases hc
      stopper := rfl }

/-! ## Termination -/

/-- The measure after a step of worker `k` that leaves the main goroutine and the
reporter where they are. -/
theorem measure_worker (s s1 : Sys) (k : Nat) (w w' : Worker)
    (hk : s.workers[k]? = some w) (hN : s1.b.N = s.b.N) (hC : s1.b.C = s.b.C)
    (hm : s1.main = s.main) (hr : s1.reporter = s.reporter)
    (hw : s1.workers = s.workers.set k w') (l1 : Nat) (hres : s1.res.buf.length = l1)
    (hlt : l1 + 2 * workerRank (Int.tdiv s.b.N s.b.C).toNat w'
      < s.res.buf.length + 2 * workerRank (Int.tdiv s.b.N s.b.C).toNat w) :
    s1.measure < s.measure := by
  have e := sum_map_set (workerRank (Int.tdiv s.b.N s.b.C).toNat) s.workers k w w' hk
  unfold Sys.measure
  rw [hN, hC, hm, hr, hw, hres]
  omega


theorem toNat_sub_lt (n : Int) (i : Nat) (h : (i : Int) < n) : i < n.toNat := by omega

/-- A statement of a worker whose `grpc.Dial` does not fail keeps the process alive
and decreases the measure. -/
theorem good_stepWorker {N C : Int} {Q : ℚ} {s s' : Sys} (h : Inv N C Q s) (k : Nat)
    (env : CallEnv) (hC32 : C < 2 ^ 32) (henv : env.dialErr = none)
    (e : stepWorker s k env = some s') :
    s'.status = s.status ∧ s'.measure < s.measure := by
  unfold stepWorker at e
  cases hk : s.workers[k]? with
  | none => simp [hk] at e
  | some w =>
    have hw := h.winv w (mem_of_get _ _ _ hk)
    obtain ⟨hC1, hm1, hm2⟩ := nworkers_pos h k w hk
    have hC := h.cfgC
    have hN := h.cfgN
    have hQ := h.cfgQ
    simp only [hk] at e
    cases hpc : w.pc with
    | entry =>
      simp only [hpc, WInv] at e hw
      have hC0 : ¬ s.b.C = 0 := by omega
      simp only [hC0, if_false, Option.some.injEq] at e
      subst e
      refine ⟨rfl, measure_worker s _ k w _ hk rfl rfl rfl rfl rfl s.res.buf.length rfl ?_⟩
      simp only [workerRank, hpc]
      omega
    | loop i =>
      simp only [hpc, WInv] at e hw
      obtain ⟨w1, w2, w3, w4, w5, w6⟩ := hw
      have hpoll : (s.setWorker k (afterPoll s.b.QPS w i)).status = s.status ∧
          (s.setWorker k (afterPoll s.b.QPS w i)).measure < s.measure := by
        refine ⟨rfl, measure_worker s _ k w _ hk rfl rfl rfl rfl rfl s.res.buf.length rfl ?_⟩
        unfold afterPoll Worker.enterRequest
        split <;> simp only [workerRank, hpc] <;> omega
      by_cases hin : (i : Int) < w.n
      · rw [if_pos hin] at e
        cases hch : s.b.stopCh with
        | none =>
          simp only [hch, Option.some.injEq] at e
          subst e; exact hpoll
        | some ch =>
          simp only [hch] at e
          cases hbuf : ch.buf with
          | cons x rest =>
            simp only [hbuf, Option.some.injEq] at e
            subst e
            refine ⟨rfl, measure_worker s _ k w _ hk rfl rfl rfl rfl rfl s.res.buf.length rfl ?_⟩
            simp only [workerRank, hpc]
            omega
          | nil =>
            simp only [hbuf] at e
            have hopen := h.sopen
            simp only [Sys.stopc, hch, Option.getD_some] at hopen
            have hncl : ¬ (ch.closed = true) := by rw [hopen]; simp
            rw [if_neg hncl] at e
            simp only [Option.some.injEq] at e
            subst e; exact hpoll
      · rw [if_neg hin] at e
        simp only [Option.some.injEq] at e
        subst e
        refine ⟨rfl, measure_worker s _ k w _ hk rfl rfl rfl rfl rfl s.res.buf.length rfl ?_⟩
        simp only [workerRank, hpc]
        omega
    | tick i =>
      simp only [hpc, WInv] at e hw
      cases hth : w.throttle with
      | none => simp [hth] at e
      | some d =>
        simp only [hth, Option.some.injEq] at e
        subst e
        refine ⟨rfl, measure_worker s _ k w _ hk rfl rfl rfl rfl rfl s.res.buf.length rfl ?_⟩
        simp only [workerRank, hpc, Worker.enterRequest]
        omega
    | request i =>
      simp only [hpc, WInv] at e hw
      rcases makeRequest_cases env with ⟨m, hm, _⟩ | ⟨_, hm⟩
      · rw [henv] at hm; cases hm
      · simp only [hm, Option.some.injEq] at e
        subst e
        refine ⟨rfl, measure_worker s _ k w _ hk rfl rfl rfl rfl rfl s.res.buf.length rfl ?_⟩
        simp only [workerRank, hpc]
        omega
    | push i r =>
      simp only [hpc, WInv] at e hw
      obtain ⟨w1, w2, w3, w4, w5, w6⟩ := hw
      have hi : i < (Int.tdiv s.b.N s.b.C).toNat := by rw [hN, hC]; omega
      have hnj : s.main.joined = false := by
        by_contra hc
        have := joined_finished h hC32 (by simpa using hc) k w hk
        rw [hpc] at this
        cases this
      have hncl : s.main.closedStage = false := by
        by_contra hc
        have := closedStage_joined _ (by simpa using hc)
        rw [hnj] at this
        cases this
      cases hch : s.b.results with
      | none => simp [hch] at e
      | some ch =>
        simp only [hch] at e
        have hcl := h.rclosed
        simp only [Sys.res, hch, Option.getD_some, hncl] at hcl
        have hcl2 : ¬ (ch.closed = true) := by rw [hcl]; simp
        rw [if_neg hcl2] at e
        by_cases hroom : ch.buf.length < ch.cap
        · rw [if_pos hroom] at e
          simp only [Option.some.injEq] at e
          subst e
          have hres : s.res = ch := by simp [Sys.res, hch]
          refine ⟨rfl, measure_worker s _ k w _ hk rfl rfl rfl rfl rfl (ch.buf.length + 1)
            (by simp [Sys.res, Sys.setWorker]) ?_⟩
          rw [hres]
          simp only [workerRank, hpc]
          omega
        · rw [if_neg hroom] at e
          by_cases hh : ch.cap = 0 ∧ ch.buf = [] ∧ s.reporter = .running
          · rw [if_pos hh] at e
            simp only [Option.some.injEq] at e
            subst e
            refine ⟨rfl, measure_worker s _ k w _ hk rfl rfl rfl rfl rfl s.res.buf.length rfl ?_⟩
            simp only [workerRank, hpc]
            omega
          · rw [if_neg hh] at e
            cases e
    | exit =>
      simp only [hpc] at e
      have hpos := wg_pos h hC32 k w hk (by rw [hpc]; simp)
      rw [waitGroupAdd_done s.wg h.wgnn (wg_lt h), if_neg (by omega)] at e
      simp only [Option.some.injEq] at e
      subst e
      refine ⟨rfl, measure_worker s _ k w _ hk rfl rfl rfl rfl rfl s.res.buf.length rfl ?_⟩
      simp only [workerRank, hpc]
      omega
    | done => simp [hpc] at e


/-- A statement of the main goroutine keeps the process alive, if the channel sizes
of `Init` are non-negative, and decreases the measure. -/
theorem good_stepMain {N C : Int} {Q : ℚ} {s s' : Sys} (h : Inv N C Q s) (clock : Int)
    (hsz : 0 ≤ C ∧ 0 ≤ min (wrap64 (C * 1000)) maxResult) (hC31 : C < 2 ^ 31)
    (e : stepMain s clock = some s') : s'.status = s.status ∧ s'.measure < s.measure := by
  unfold stepMain at e
  have hC := h.cfgC
  cases hm : s.main with
  | init =>
    simp only [hm] at e
    obtain ⟨p1, p2, p3, p4, p5⟩ := h.pre hm
    rcases Init_fresh s.b p1 with ⟨_, hi⟩ | ⟨hi1, hi2, hi⟩
    · rw [hC] at hi; omega
    · simp only [hi, Option.some.injEq] at e
      subst e
      refine ⟨rfl, ?_⟩
      simp only [Sys.measure, hm, MainPc.rank, Sys.res, p2, p4, RPc.rank, Option.getD_none,
        Option.getD_some, List.length_nil]
      omega
  | wgAdd =>
    simp only [hm] at e
    have ha := h.alloc (by simp [hm])
    have hwg := h.wg
    simp only [hm, or_true, if_true] at hwg
    have hadd : wrap32 (s.wg + s.b.C) = C := by
      rw [hwg, h.cfgC, zero_add]
      exact wrap32_id C (by have := ha.1; norm_num; omega) hC31
    unfold waitGroupAdd at e
    rw [hadd, if_neg (by have := ha.1; omega)] at e
    simp only [Option.some.injEq] at e
    subst e
    refine ⟨rfl, ?_⟩
    simp only [Sys.measure, hm, MainPc.rank, Sys.res, Nat.sub_zero]
    omega
  | spawn i =>
    simp only [hm] at e
    by_cases hi : (i : Int) < s.b.C
    · rw [if_pos hi] at e
      simp only [Option.some.injEq] at e
      subst e
      refine ⟨rfl, ?_⟩
      obtain ⟨d, hd⟩ : ∃ d, s.b.C.toNat - i = d + 1 := ⟨s.b.C.toNat - i - 1, by omega⟩
      have hd2 : s.b.C.toNat - (i + 1) = d := by omega
      simp only [Sys.measure, hm, MainPc.rank, Sys.res, List.map_append, List.sum_append,
        List.map_cons, List.map_nil, List.sum_cons, List.sum_nil, workerRank, Worker.new, hd, hd2,
        Nat.succ_mul, Nat.add_mul, one_mul]
      omega
    · rw [if_neg hi] at e
      simp only [Option.some.injEq] at e
      subst e
      refine ⟨rfl, ?_⟩
      have hsb := h.spawnBound i hm
      have hz : s.b.C.toNat - i = 0 := by omega
      simp only [Sys.measure, hm, MainPc.rank, Sys.res, hz, zero_mul]
      omega
  | wait =>
    simp only [hm] at e
    by_cases hz : s.wg = 0
    · rw [if_pos hz] at e
      simp only [Option.some.injEq] at e
      subst e
      refine ⟨rfl, ?_⟩
      simp only [Sys.measure, hm, MainPc.rank, Sys.res]
      omega
    · simp [hz] at e
  | close =>
    simp only [hm] at e
    have ha := h.alloc (by simp [hm])
    have hrc := h.rclosed
    simp only [hm, MainPc.closedStage] at hrc
    cases hch : s.b.results with
    | none =>
      have := ha.2.2.1
      rw [hch] at this
      cases this
    | some ch =>
      simp only [hch] at e
      have hres : s.res = ch := by simp [Sys.res, hch]
      rw [hres] at hrc
      have hncl : ¬ (ch.closed = true) := by rw [hrc]; simp
      rw [if_neg hncl] at e
      simp only [Option.some.injEq] at e
      subst e
      refine ⟨rfl, ?_⟩
      simp only [Sys.measure, hm, MainPc.rank, Sys.res, hch, Option.getD_some]
      omega
  | awaitDone =>
    simp only [hm] at e
    by_cases hd : s.reporter = .done
    · rw [if_pos hd] at e
      simp only [Option.some.injEq] at e
      subst e
      refine ⟨rfl, ?_⟩
      simp only [Sys.measure, hm, MainPc.rank, Sys.res]
      omega
    · simp [hd] at e
  | finalize =>
    simp only [hm, Option.some.injEq] at e
    subst e
    refine ⟨rfl, ?_⟩
    simp only [Sys.measure, hm, MainPc.rank, Sys.res]
    omega
  | returned => simp [hm] at e

/-- A statement of the reporter keeps the process alive and decreases the measure. -/
theorem good_stepReporter {s s' : Sys}
    (e : stepReporter s = some s') : s'.status = s.status ∧ s'.measure < s.measure := by
  unfold stepReporter at e
  cases hr : s.reporter with
  | idle => simp [hr] at e
  | done => simp [hr] at e
  | running =>
    simp only [hr] at e
    cases hch : s.b.results with
    | none => simp [hch] at e
    | some ch =>
      simp only [hch] at e
      cases hbuf : ch.buf with
      | cons r rest =>
        simp only [hbuf, Option.some.injEq] at e
        subst e
        refine ⟨rfl, ?_⟩
        simp only [Sys.measure, Sys.res, hch, Option.getD_some, hbuf, List.length_cons, hr]
        omega
      | nil =>
        simp only [hbuf] at e
        by_cases hcl : ch.closed = true
        · rw [if_pos hcl] at e
          simp only [Option.some.injEq] at e
          subst e
          refine ⟨rfl, ?_⟩
          simp only [Sys.measure, Sys.res, hch, Option.getD_some, hbuf, hr, RPc.rank]
          omega
        · rw [if_neg hcl] at e
          cases e

/-- Every statement other than those of `Stop`, executed without a failure of
`grpc.Dial` on a driver whose channel sizes are non-negative, keeps the process alive
and decreases the measure. -/
theorem good_step {N C : Int} {Q : ℚ} {s s' : Sys} (h : Inv N C Q s) (a : Action)
    (hsz : 0 ≤ C ∧ 0 ≤ min (wrap64 (C * 1000)) maxResult) (hC31 : C < 2 ^ 31)
    (ha : a.isStop = false ∧ a.dialOk = true)
    (e : step s a = some s') : s'.status = none ∧ s'.measure < s.measure := by
  unfold step at e
  cases hs : s.status with
  | some f => simp [hs] at e
  | none =>
    simp only [hs] at e
    cases a with
    | main clock =>
      have := good_stepMain h clock hsz hC31 e
      exact ⟨this.1.trans hs, this.2⟩
    | worker k env =>
      have hd : env.dialErr = none := by
        have := ha.2
        simpa [Action.dialOk] using this
      have := good_stepWorker h k env (by norm_num at hC31 ⊢; omega) hd e
      exact ⟨this.1.trans hs, this.2⟩
    | reporter =>
      have := good_stepReporter e
      exact ⟨this.1.trans hs, this.2⟩
    | stop => simp [Action.isStop] at ha


/-! ### Progress -/

/-- A worker that has not finished can execute a statement, or, when the result
queue is full, the reporter can: provided the throttle, if any, exists. -/
theorem worker_enabled {N C : Int} {Q : ℚ} {s : Sys} (h : Inv N C Q s)
    (hs : s.status = none) (hth : 0 < Q → throttleOf Q ≠ none)
    (env0 : CallEnv) (henv : env0.dialErr = none)
    (k : Nat) (w : Worker) (hk : s.workers[k]? = some w) (hpc : w.pc ≠ .done) :
    (step s (.worker k env0)).isSome = true ∨ (step s .reporter).isSome = true := by
  have hw := h.winv w (mem_of_get _ _ _ hk)
  obtain ⟨hC1, hm1, hm2⟩ := nworkers_pos h k w hk
  have hC := h.cfgC
  have ha := h.alloc hm1
  simp only [step, hs, stepWorker, hk, stepReporter]
  cases hp : w.pc with
  | done => exact absurd hp hpc
  | entry =>
    left
    have hC0 : ¬ s.b.C = 0 := by omega
    simp [hC0]
  | loop i =>
    left
    simp only
    split
    · split
      · simp
      · split
        · simp
        · split <;> simp
    · simp
  | tick i =>
    left
    simp only [WInv, hp] at hw
    have := hth hw.2.2.2.2.2.2
    rw [← hw.2.1] at this
    cases hth2 : w.throttle with
    | none => exact absurd hth2 this
    | some d => simp
  | request i =>
    left
    rcases makeRequest_cases env0 with ⟨m, hm, _⟩ | ⟨_, hm⟩
    · rw [henv] at hm; cases hm
    · simp [hm]
  | exit =>
    left
    simp only
    split <;> simp
  | push i r =>
    cases hch : s.b.results with
    | none =>
      have := ha.2.2.1
      rw [hch] at this
      cases this
    | some ch =>
      have hres : s.res = ch := by simp [Sys.res, hch]
      have hcl := h.rclosed
      have hrl := h.rlen
      have hrd := h.repDone
      rw [hres] at hcl hrl hrd
      by_cases hcl2 : ch.closed = true
      · left; simp [hcl2]
      have hrun : s.reporter = .running := by
        cases hr : s.reporter with
        | running => rfl
        | idle => exact absurd hr ha.2.2.2.2.2.1
        | done => exact absurd (hrd hr).1 hcl2
      simp only [hrun]
      by_cases hroom : ch.buf.length < ch.cap
      · left; simp [hcl2, hroom]
      · by_cases hcap : ch.cap = 0
        · left
          have hnil : ch.buf = [] := List.length_eq_zero.1 (by omega)
          simp [hcl2, hcap, hnil]
        · right
          cases hbuf : ch.buf with
          | nil => rw [hbuf] at hroom; simp at hroom; omega
          | cons r rest => simp


theorem exists_unfinished : ∀ (l : List Worker), (l.map Worker.finished).sum < l.length →
    ∃ (k : Nat) (w : Worker), l[k]? = some w ∧ w.pc ≠ .done := by
  intro l
  induction l with
  | nil => intro h; simp at h
  | cons x xs ih =>
    intro h
    by_cases hx : x.pc = .done
    · have hf : x.finished = 1 := by simp [Worker.finished, hx]
      simp only [List.map_cons, List.sum_cons, List.length_cons, hf] at h
      obtain ⟨k, w, hk, hw⟩ := ih (by omega)
      exact ⟨k + 1, w, by simpa using hk, hw⟩
    · exact ⟨0, x, by simp, hx⟩

/-- While `Run` has not returned and the process is alive, some goroutine other
than the caller of `Stop` can execute a statement. -/
theorem progress {N C : Int} {Q : ℚ} {s : Sys} (h : Inv N C Q s)
    (hs : s.status = none) (hth : 0 < Q → throttleOf Q ≠ none)
    (env0 : CallEnv) (henv : env0.dialErr = none) (hm : s.main ≠ .returned) :
    ∃ a : Action, usesEnv env0 a ∧ (step s a).isSome = true := by
  cases hmain : s.main with
  | returned => exact absurd hmain hm
  | init =>
    refine ⟨.main 0, Or.inl rfl, ?_⟩
    simp only [step, hs, stepMain, hmain]
    split <;> simp
  | wgAdd =>
    refine ⟨.main 0, Or.inl rfl, ?_⟩
    simp only [step, hs, stepMain, hmain]
    split <;> simp
  | spawn i =>
    refine ⟨.main 0, Or.inl rfl, ?_⟩
    simp only [step, hs, stepMain, hmain]
    split <;> simp
  | finalize =>
    refine ⟨.main 0, Or.inl rfl, ?_⟩
    simp [step, hs, stepMain, hmain]
  | close =>
    refine ⟨.main 0, Or.inl rfl, ?_⟩
    simp only [step, hs, stepMain, hmain]
    split
    · simp
    · split <;> simp
  | wait =>
    by_cases hz : s.wg = 0
    · refine ⟨.main 0, Or.inl rfl, ?_⟩
      simp [step, hs, stepMain, hmain, hz]
    · have ha := h.alloc (by simp [hmain])
      have hwg := h.wg
      have hnw := h.nworkers
      simp only [hmain, MainPc.spawned, reduceCtorEq, or_self, if_false] at hwg hnw
      have hle := finished_sum_le s.workers
      simp only [Sys.finishedCount] at hwg
      have hnn := h.wgnn
      have hwl := wrap32_le C ha.1
      obtain ⟨k, w, hk, hw⟩ := exists_unfinished s.workers (by omega)
      rcases worker_enabled h hs hth env0 henv k w hk hw with h1 | h1
      · exact ⟨.worker k env0, Or.inr (Or.inr ⟨k, rfl⟩), h1⟩
      · exact ⟨.reporter, Or.inr (Or.inl rfl), h1⟩
  | awaitDone =>
    by_cases hd : s.reporter = .done
    · refine ⟨.main 0, Or.inl rfl, ?_⟩
      simp [step, hs, stepMain, hmain, hd]
    · refine ⟨.reporter, Or.inr (Or.inl rfl), ?_⟩
      have ha := h.alloc (by simp [hmain])
      have hrun : s.reporter = .running := by
        cases hr : s.reporter with
        | running => rfl
        | idle => exact absurd hr ha.2.2.2.2.2.1
        | done => exact absurd hr hd
      cases hch : s.b.results with
      | none =>
        have := ha.2.2.1
        rw [hch] at this
        cases this
      | some ch =>
        have hcl := h.rclosed
        simp only [Sys.res, hch, Option.getD_some, hmain, MainPc.closedStage] at hcl
        simp only [step, hs, stepReporter, hrun, hch]
        cases hbuf : ch.buf with
        | nil => simp [hcl]
        | cons r rest => simp

/-- `run` after one more action. -/
theorem run_cons (s : Sys) (a : Action) (sched : List Action) :
    run s (a :: sched) = run (next s a) sched := rfl

theorem run_append (s : Sys) (l1 l2 : List Action) :
    run s (l1 ++ l2) = run (run s l1) l2 := by
  simp [run, List.foldl_append]

theorem usesEnv_quiet (env0 : CallEnv) (henv : env0.dialErr = none) (a : Action)
    (h : usesEnv env0 a) : a.isStop = false ∧ a.dialOk = true := by
  rcases h with rfl | rfl | ⟨k, rfl⟩
  · exact ⟨rfl, rfl⟩
  · exact ⟨rfl, rfl⟩
  · exact ⟨rfl, by simp [Action.dialOk, henv]⟩

/-- From every state of a run on a driver with non-negative channel sizes and, if
`QPS > 0`, an existing throttle, in which the process is alive, some schedule without
`Stop`, in which every call meets the environment `env0` where `grpc.Dial` succeeds,
makes `Run` return. -/
theorem completes {N C : Int} {Q : ℚ} (hsz : 0 ≤ C ∧ 0 ≤ min (wrap64 (C * 1000)) maxResult)
    (hC31 : C < 2 ^ 31) (hth : 0 < Q → throttleOf Q ≠ none) (env0 : CallEnv) (henv : env0.dialErr = none) :
    ∀ (n : Nat) (s : Sys), s.measure ≤ n → Inv N C Q s → s.status = none →
      ∃ sched, (∀ a ∈ sched, usesEnv env0 a) ∧ (run s sched).main = .returned ∧
        (run s sched).status = none := by
  intro n
  induction n with
  | zero =>
    intro s hn h hs
    by_cases hm : s.main = .returned
    · exact ⟨[], (by intro a ha; cases ha), hm, hs⟩
    · obtain ⟨a, ha, hen⟩ := progress h hs hth env0 henv hm
      obtain ⟨s', hs'⟩ := Option.isSome_iff_exists.1 hen
      have := (good_step h a hsz hC31 (usesEnv_quiet env0 henv a ha) hs').2
      omega
  | succ n ih =>
    intro s hn h hs
    by_cases hm : s.main = .returned
    · exact ⟨[], (by intro a ha; cases ha), hm, hs⟩
    · obtain ⟨a, ha, hen⟩ := progress h hs hth env0 henv hm
      obtain ⟨s', hs'⟩ := Option.isSome_iff_exists.1 hen
      have hg := good_step h a hsz hC31 (usesEnv_quiet env0 henv a ha) hs'
      have hnext : next s a = s' := by simp [next, hs']
      obtain ⟨sched, hq, h1, h2⟩ := ih s' (by omega) (Inv_step h a hs') hg.1
      refine ⟨a :: sched, ?_, ?_, ?_⟩
      · intro b hb
        rcases List.mem_cons.1 hb with rfl | hb
        · exact ha
        · exact hq b hb
      · rw [run_cons, hnext]; exact h1
      · rw [run_cons, hnext]; exact h2

/-! ## Frames -/

/-- A statement of worker `j` replaces at most the record of worker `j`. -/
theorem stepWorker_frame {s s' : Sys} {j : Nat} {env : CallEnv}
    (e : stepWorker s j env = some s') :
    (s'.workers = s.workers ∨ ∃ w', s'.workers = s.workers.set j w') ∧ s'.main = s.main ∧
      s'.sent = s.sent ∧ s'.stopper = s.stopper ∧ s'.closes = s.closes := by
  unfold stepWorker at e
  repeat' split at e
  all_goals (cases e <;> refine ⟨?_, rfl, rfl, rfl, rfl⟩ <;>
    first | exact Or.inl rfl | exact Or.inr ⟨_, rfl⟩)

theorem stepMain_frame {s s' : Sys} {clock : Int}
    (e : stepMain s clock = some s') :
    (s'.workers = s.workers ∨ s'.workers = s.workers ++ [Worker.new]) ∧
      s'.sent = s.sent ∧ s'.stopper = s.stopper := by
  unfold stepMain at e
  repeat' split at e
  all_goals (cases e <;> refine ⟨?_, rfl, rfl⟩ <;>
    first | exact Or.inl rfl | exact Or.inr rfl)

theorem stepReporter_frame {s s' : Sys}
    (e : stepReporter s = some s') :
    s'.workers = s.workers ∧ s'.main = s.main ∧ s'.wg = s.wg ∧ s'.sent = s.sent ∧
      s'.stopper = s.stopper ∧ s'.closes = s.closes := by
  unfold stepReporter at e
  repeat' split at e
  all_goals (cases e <;> exact ⟨rfl, rfl, rfl, rfl, rfl, rfl⟩)

theorem stepStop_frame {s s' : Sys}
    (e : stepStop s = some s') :
    s'.workers = s.workers ∧ s'.main = s.main ∧ s'.wg = s.wg ∧ s'.closes = s.closes ∧
      s'.received = s.received ∧ s'.b.results = s.b.results := by
  unfold stepStop at e
  repeat' split at e
  all_goals (cases e <;> exact ⟨rfl, rfl, rfl, rfl, rfl, rfl⟩)

/-- Once the process has ended nothing changes any more. -/
theorem dead_run (sched : List Action) :
    ∀ (s : Sys) (f : Fault), s.status = some f → run s sched = s := by
  induction sched with
  | nil => intro s f _; rfl
  | cons a rest ih =>
    intro s f hs
    have : next s a = s := by simp [next, step, hs]
    rw [run_cons, this]
    exact ih s f hs

/-- Only the goroutine calling `Stop` sends stop tokens. -/
theorem noStop_next (s : Sys) (a : Action) (ha : a.isStop = false) :
    (next s a).sent = s.sent ∧ (next s a).stopper = s.stopper := by
  unfold next
  cases e : step s a with
  | none => exact ⟨rfl, rfl⟩
  | some s' =>
    simp only [Option.getD_some]
    unfold step at e
    cases hs : s.status with
    | some f => simp [hs] at e
    | none =>
      simp only [hs] at e
      cases a with
      | main clock => exact (stepMain_frame e).2
      | worker j env => exact ⟨(stepWorker_frame e).2.2.1, (stepWorker_frame e).2.2.2.1⟩
      | reporter => exact ⟨(stepReporter_frame e).2.2.2.1, (stepReporter_frame e).2.2.2.2.1⟩
      | stop => simp [Action.isStop] at ha

theorem noStop_run (sched : List Action) :
    ∀ (s : Sys), (∀ a ∈ sched, a.isStop = false) →
      (run s sched).sent = s.sent ∧ (run s sched).stopper = s.stopper := by
  induction sched with
  | nil => intro s _; exact ⟨rfl, rfl⟩
  | cons a rest ih =>
    intro s h
    have h1 := noStop_next s a (h a (List.mem_cons_self _ _))
    have h2 := ih (next s a) (fun b hb => h b (List.mem_cons_of_mem _ hb))
    rw [run_cons]
    exact ⟨h2.1.trans h1.1, h2.2.trans h1.2⟩

/-- A statement of another goroutine leaves the record of worker `k` as it is. -/
theorem step_other {s s' : Sys} {a : Action} (e : step s a = some s') (k : Nat) (w : Worker)
    (hk : s.workers[k]? = some w) :
    s'.workers[k]? = some w ∨ ∃ env, a = .worker k env ∧ stepWorker s k env = some s' := by
  have hlen : k < s.workers.length := by
    rw [List.getElem?_eq_some] at hk
    exact hk.1
  unfold step at e
  cases hs : s.status with
  | some f => simp [hs] at e
  | none =>
    simp only [hs] at e
    cases a with
    | main clock =>
      left
      rcases (stepMain_frame e).1 with h | h
      · rw [h]; exact hk
      · rw [h, List.getElem?_append_left hlen]; exact hk
    | worker j env =>
      by_cases hj : j = k
      · subst hj; exact Or.inr ⟨env, rfl, e⟩
      · left
        rcases (stepWorker_frame e).1 with h | ⟨w', h⟩
        · rw [h]; exact hk
        · rw [h, List.getElem?_set_ne hj]; exact hk
    | reporter => left; rw [(stepReporter_frame e).1]; exact hk
    | stop => left; rw [(stepStop_frame e).1]; exact hk

/-- A worker that has left `runWorker` issues no call, sends no sample and receives
no token any more. -/
theorem frozen_next (s : Sys) (a : Action) (k : Nat) (w : Worker)
    (hk : s.workers[k]? = some w) (hpc : w.pc = .exit ∨ w.pc = .done) :
    ∃ w', (next s a).workers[k]? = some w' ∧ w'.calls = w.calls ∧ w'.pushed = w.pushed ∧
      w'.taken = w.taken ∧ (w'.pc = .exit ∨ w'.pc = .done) := by
  unfold next
  cases e : step s a with
  | none => exact ⟨w, hk, rfl, rfl, rfl, hpc⟩
  | some s' =>
    simp only [Option.getD_some]
    rcases step_other e k w hk with h | ⟨env, _, h⟩
    · exact ⟨w, h, rfl, rfl, rfl, hpc⟩
    · have hlen : k < s.workers.length := by
        rw [List.getElem?_eq_some] at hk
        exact hk.1
      unfold stepWorker at h
      simp only [hk] at h
      rcases hpc with hpc | hpc
      · simp only [hpc] at h
        split at h
        · cases h
          exact ⟨w, hk, rfl, rfl, rfl, Or.inl hpc⟩
        · cases h
          refine ⟨{ w with pc := .done }, ?_, rfl, rfl, rfl, Or.inr rfl⟩
          simp [Sys.setWorker, List.getElem?_set_self, hlen]
      · simp [hpc] at h

theorem frozen_run (sched : List Action) :
    ∀ (s : Sys) (k : Nat) (w : Worker), s.workers[k]? = some w →
      (w.pc = .exit ∨ w.pc = .done) →
      ∃ w', (run s sched).workers[k]? = some w' ∧ w'.calls = w.calls ∧
        w'.pushed = w.pushed ∧ w'.taken = w.taken ∧ (w'.pc = .exit ∨ w'.pc = .done) := by
  induction sched with
  | nil => intro s k w hk hpc; exact ⟨w, hk, rfl, rfl, rfl, hpc⟩
  | cons a rest ih =>
    intro s k w hk hpc
    obtain ⟨w1, h1, c1, p1, t1, pc1⟩ := frozen_next s a k w hk hpc
    obtain ⟨w2, h2, c2, p2, t2, pc2⟩ := ih (next s a) k w1 h1 pc1
    rw [run_cons]
    exact ⟨w2, h2, c2.trans c1, p2.trans p1, t2.trans t1, pc2⟩

/-- A worker waiting on the nil throttle never moves. -/
theorem blocked_next (s : Sys) (a : Action) (k i : Nat) (w : Worker)
    (hk : s.workers[k]? = some w) (hpc : w.pc = .tick i) (hth : w.throttle = none) :
    (next s a).workers[k]? = some w := by
  unfold next
  cases e : step s a with
  | none => exact hk
  | some s' =>
    simp only [Option.getD_some]
    rcases step_other e k w hk with h | ⟨env, _, h⟩
    · exact h
    · unfold stepWorker at h
      simp [hk, hpc, hth] at h

theorem blocked_run (sched : List Action) :
    ∀ (s : Sys) (k i : Nat) (w : Worker), s.workers[k]? = some w → w.pc = .tick i →
      w.throttle = none → (run s sched).workers[k]? = some w := by
  induction sched with
  | nil => intro s k i w hk _ _; exact hk
  | cons a rest ih =>
    intro s k i w hk hpc hth
    rw [run_cons]
    exact ih (next s a) k i w (blocked_next s a k i w hk hpc hth) hpc hth

/-! ## Error fields of the samples -/

theorem ErrInv_stepWorker (P : Option String → Prop) {s s' : Sys} {k : Nat} {env : CallEnv}
    (h : ErrInv P s) (hP : P env.rpcErr) (e : stepWorker s k env = some s') :
    ErrInv P s' := by
  obtain ⟨h1, h2, h3⟩ := h
  unfold stepWorker at e
  cases hk : s.workers[k]? with
  | none => simp [hk] at e
  | some w =>
    have hmem := mem_of_get _ _ _ hk
    simp only [hk] at e
    cases hpc : w.pc with
    | request i =>
      simp only [hpc] at e
      rcases makeRequest_cases env with ⟨m, _, hm⟩ | ⟨_, hm⟩
      · simp only [hm, Option.some.injEq] at e
        subst e
        exact ⟨h1, h2, h3⟩
      · simp only [hm, Option.some.injEq] at e
        subst e
        refine ⟨h1, h2, forall_mem_set _ _ _ _ h3 ?_⟩
        intro j r hr
        cases hr
        exact hP
    | push i r =>
      simp only [hpc] at e
      have hr := h3 w hmem i r hpc
      cases hch : s.b.results with
      | none => simp [hch] at e
      | some ch =>
        simp only [hch] at e
        have hres : s.res = ch := by simp [Sys.res, hch]
        have h2' := h2
        rw [hres] at h2'
        repeat' split at e
        all_goals (cases e)
        · exact ⟨h1, h2, h3⟩
        · refine ⟨h1, ?_, forall_mem_set _ _ _ _ h3 (by intro j r' hj; cases hj)⟩
          intro r' hr'
          have : r' ∈ ch.buf ++ [r] := hr'
          rcases List.mem_append.1 this with h5 | h5
          · exact h2' r' h5
          · rw [List.mem_singleton.1 h5]; exact hr
        · refine ⟨?_, h2, forall_mem_set _ _ _ _ h3 (by intro j r' hj; cases hj)⟩
          intro r' hr'
          have : r' ∈ s.received ++ [r] := hr'
          rcases List.mem_append.1 this with h5 | h5
          · exact h1 r' h5
          · rw [List.mem_singleton.1 h5]; exact hr
    | _ =>
      simp only [hpc] at e
      repeat' split at e
      all_goals (cases e)
      all_goals first
        | exact ⟨h1, h2, h3⟩
        | (refine ⟨h1, h2, forall_mem_set _ _ _ _ h3 ?_⟩
           intro i r hpc
           first
             | cases hpc
             | (unfold afterPoll Worker.enterRequest at hpc; split at hpc <;> cases hpc))

theorem stepMain_samples {N C : Int} {Q : ℚ} {s s' : Sys} (h : Inv N C Q s) {clock : Int}
    (e : stepMain s clock = some s') :
    s'.received = s.received ∧ s'.res.buf = s.res.buf := by
  unfold stepMain at e
  cases hmain : s.main with
  | init =>
    simp only [hmain] at e
    obtain ⟨p1, p2, p3, p4, p5⟩ := h.pre hmain
    rcases Init_fresh s.b p1 with ⟨hi, _⟩ | ⟨hi1, hi2, hi⟩
    · simp only [hi, Option.some.injEq] at e
      subst e
      exact ⟨rfl, rfl⟩
    · simp only [hi, Option.some.injEq] at e
      subst e
      exact ⟨rfl, by simp [Sys.res, p2]⟩
  | close =>
    simp only [hmain] at e
    cases hch : s.b.results with
    | none => simp only [hch, Option.some.injEq] at e; subst e; exact ⟨rfl, rfl⟩
    | some ch =>
      simp only [hch] at e
      split at e <;> cases e
      · exact ⟨rfl, rfl⟩
      · exact ⟨rfl, by simp [Sys.res, hch]⟩
  | _ =>
    simp only [hmain] at e
    repeat' split at e
    all_goals (cases e)
    all_goals exact ⟨rfl, rfl⟩

theorem ErrInv_stepMain (P : Option String → Prop) {N C : Int} {Q : ℚ} {s s' : Sys}
    {clock : Int} (hi : Inv N C Q s)
    (h : ErrInv P s) (e : stepMain s clock = some s') : ErrInv P s' := by
  obtain ⟨h1, h2, h3⟩ := h
  obtain ⟨e1, e2⟩ := stepMain_samples hi e
  refine ⟨by rw [e1]; exact h1, by rw [e2]; exact h2, ?_⟩
  rcases (stepMain_frame e).1 with h4 | h4
  · rw [h4]; exact h3
  · rw [h4]
    intro w hw
    rcases List.mem_append.1 hw with h5 | h5
    · exact h3 w h5
    · rw [List.mem_singleton.1 h5]
      intro i r hpc
      cases hpc

theorem ErrInv_stepReporter (P : Option String → Prop) {s s' : Sys}
    (h : ErrInv P s) (e : stepReporter s = some s') : ErrInv P s' := by
  obtain ⟨h1, h2, h3⟩ := h
  unfold stepReporter at e
  cases hch : s.b.results with
  | none => simp [hch] at e; split at e <;> cases e
  | some ch =>
    have hres : s.res = ch := by simp [Sys.res, hch]
    have h2' := h2
    rw [hres] at h2'
    simp only [hch] at e
    repeat' split at e
    all_goals (cases e)
    · rename_i r rest hbuf
      rw [hbuf] at h2'
      refine ⟨?_, ?_, h3⟩
      · intro r' hr'
        have : r' ∈ s.received ++ [r] := hr'
        rcases List.mem_append.1 this with h5 | h5
        · exact h1 r' h5
        · rw [List.mem_singleton.1 h5]; exact h2' r (List.mem_cons_self _ _)
      · intro r' hr'
        have : r' ∈ rest := hr'
        exact h2' r' (List.mem_cons_of_mem _ this)
    · exact ⟨h1, h2, h3⟩

theorem ErrInv_stepStop (P : Option String → Prop) {s s' : Sys}
    (h : ErrInv P s) (e : stepStop s = some s') : ErrInv P s' := by
  obtain ⟨h1, h2, h3⟩ := h
  unfold stepStop at e
  repeat' split at e
  all_goals (cases e)
  all_goals exact ⟨h1, h2, h3⟩

/-! ## Runs -/

theorem ErrInv_next (P : Option String → Prop) {N C : Int} {Q : ℚ} {s : Sys} (a : Action)
    (hi : Inv N C Q s) (h : ErrInv P s) (ha : ∀ k env, a = .worker k env → P env.rpcErr) :
    ErrInv P (next s a) := by
  unfold next
  cases e : step s a with
  | none => exact h
  | some s' =>
    simp only [Option.getD_some]
    unfold step at e
    cases hs : s.status with
    | some f => simp [hs] at e
    | none =>
      simp only [hs] at e
      cases a with
      | main clock => exact ErrInv_stepMain P hi h e
      | worker k env => exact ErrInv_stepWorker P h (ha k env rfl) e
      | reporter => exact ErrInv_stepReporter P h e
      | stop => exact ErrInv_stepStop P h e

theorem ErrInv_run (P : Option String → Prop) {N C : Int} {Q : ℚ} (sched : List Action) :
    ∀ {s : Sys}, Inv N C Q s → ErrInv P s → callsErr P sched → ErrInv P (run s sched) := by
  induction sched with
  | nil => intro s _ h _; exact h
  | cons a rest ih =>
    intro s hi h hc
    rw [run_cons]
    exact ih (Inv_next hi a)
      (ErrInv_next P a hi h (fun k env hk => hc a (List.mem_cons_self _ _) k env hk))
      (fun b hb => hc b (List.mem_cons_of_mem _ hb))

theorem ErrInv_start (P : Option String → Prop) (b : RpcWork) (hb : b.results = none) :
    ErrInv P (Sys.start b) := by
  refine ⟨?_, ?_, ?_⟩
  · intro r hr; cases hr
  · intro r hr; simp [Sys.res, Sys.start, hb] at hr
  · intro w hw; cases hw

/-- A statement of `Stop` never ends the process: the stop channel is never
closed. -/
theorem alive_stepStop {N C : Int} {Q : ℚ} {s s' : Sys} (h : Inv N C Q s)
    (e : stepStop s = some s') : s'.status = s.status := by
  unfold stepStop at e
  cases hch : s.b.stopCh with
  | none =>
    simp only [hch] at e
    repeat' split at e
    all_goals (cases e)
    all_goals rfl
  | some ch =>
    have hopen := h.sopen
    simp only [Sys.stopc, hch, Option.getD_some] at hopen
    simp only [hch, hopen] at e
    repeat' split at e
    all_goals (cases e)
    all_goals first | rfl | (rename_i hc; cases hc)

/-- On a driver whose channel sizes are non-negative and whose `C` fits the counter
of the wait group, a statement executed without a failure of `grpc.Dial` never ends
the process. -/
theorem alive_next {N C : Int} {Q : ℚ} {s : Sys} (h : Inv N C Q s) (a : Action)
    (hsz : 0 ≤ C ∧ 0 ≤ min (wrap64 (C * 1000)) maxResult) (hC31 : C < 2 ^ 31)
    (ha : a.dialOk = true)
    (hs : s.status = none) : (next s a).status = none := by
  unfold next
  cases e : step s a with
  | none => exact hs
  | some s' =>
    simp only [Option.getD_some]
    cases hst : a.isStop with
    | false => exact (good_step h a hsz hC31 ⟨hst, ha⟩ e).1
    | true =>
      cases a with
      | stop =>
        simp only [step, hs] at e
        exact (alive_stepStop h e).trans hs
      | main clock => cases hst
      | worker k env => cases hst
      | reporter => cases hst

theorem alive_run {N C : Int} {Q : ℚ} (sched : List Action)
    (hsz : 0 ≤ C ∧ 0 ≤ min (wrap64 (C * 1000)) maxResult) (hC31 : C < 2 ^ 31) :
    ∀ {s : Sys}, Inv N C Q s → s.status = none → (∀ a ∈ sched, a.dialOk = true) →
      (run s sched).status = none := by
  induction sched with
  | nil => intro s _ hs _; exact hs
  | cons a rest ih =>
    intro s hi hs hd
    rw [run_cons]
    exact ih (Inv_next hi a) (alive_next hi a hsz hC31 (hd a (List.mem_cons_self _ _)) hs)
      (fun b hb => hd b (List.mem_cons_of_mem _ hb))

/-! ### Sums over the workers -/

theorem sum_map_le (f : Worker → Nat) (c : Nat) :
    ∀ (l : List Worker), (∀ w ∈ l, f w ≤ c) → (l.map f).sum ≤ l.length * c := by
  intro l
  induction l with
  | nil => intro _; simp
  | cons x xs ih =>
    intro h
    have h1 := h x (List.mem_cons_self _ _)
    have h2 := ih (fun w hw => h w (List.mem_cons_of_mem _ hw))
    simp only [List.map_cons, List.sum_cons, List.length_cons, Nat.succ_mul]
    omega

theorem sum_map_eq (f : Worker → Nat) (c : Nat) :
    ∀ (l : List Worker), (∀ w ∈ l, f w = c) → (l.map f).sum = l.length * c := by
  intro l
  induction l with
  | nil => intro _; simp
  | cons x xs ih =>
    intro h
    have h1 := h x (List.mem_cons_self _ _)
    have h2 := ih (fun w hw => h w (List.mem_cons_of_mem _ hw))
    simp only [List.map_cons, List.sum_cons, List.length_cons, Nat.succ_mul]
    omega

theorem sum_map_zero (f : Worker → Nat) :
    ∀ (l : List Worker), (l.map f).sum = 0 → ∀ w ∈ l, f w = 0 := by
  intro l
  induction l with
  | nil => intro _ w hw; cases hw
  | cons x xs ih =>
    intro h w hw
    simp only [List.map_cons, List.sum_cons] at h
    rcases List.mem_cons.1 hw with rfl | hw
    · omega
    · exact ih (by omega) w hw

/-- No worker calls `makeRequest` more often than its share. -/
theorem WInv_calls_le {n : Int} {Q : ℚ} {w : Worker} (h : WInv n Q w) :
    w.calls ≤ n.toNat ∧ w.taken ≤ 1 ∧ (w.pc ≠ .entry → w.n = n) := by
  cases hpc : w.pc <;> simp only [WInv, hpc] at h <;> refine ⟨by omega, by omega, ?_⟩ <;>
    first | (intro hc; exact absurd rfl hc) | (intro _; exact h.1)

/-- A worker that has left `runWorker` without receiving a stop token has made all
the calls of its share. -/
theorem WInv_done {n : Int} {Q : ℚ} {w : Worker} (h : WInv n Q w) (hpc : w.pc = .done)
    (ht : w.taken = 0) : w.calls = n.toNat ∧ w.pushed = n.toNat := by
  unfold WInv at h
  rw [hpc] at h
  simp only at h
  have := h.2.2.2.2 ht
  omega

theorem workers_joined {N C : Int} {Q : ℚ} {s : Sys} (h : Inv N C Q s)
    (hC32 : C < 2 ^ 32) (hj : s.main.joined = true) :
    s.workers.length = C.toNat ∧ ∀ w ∈ s.workers, w.pc = .done := by
  constructor
  · rw [h.nworkers]
    cases hm : s.main <;> simp_all [MainPc.spawned, MainPc.joined]
  · intro w hw
    obtain ⟨k, hk, hk2⟩ := List.getElem_of_mem hw
    exact joined_finished h hC32 hj k w (by rw [List.getElem?_eq_some]; exact ⟨hk, hk2⟩)

/-! ## Runs from the call of `Run` -/

/-- Non-negative channel sizes, from `C * 1000` fitting an `int`. -/
theorem sizes_ok (C : Int) (h0 : 0 ≤ C) (h1 : C * 1000 < 2 ^ 63) :
    0 ≤ C ∧ 0 ≤ min (wrap64 (C * 1000)) maxResult ∧
      min (wrap64 (C * 1000)) maxResult = min (C * 1000) maxResult := by
  have hw : wrap64 (C * 1000) = C * 1000 := wrap64_id _ (by norm_num; omega) h1
  rw [hw]
  refine ⟨h0, ?_, rfl⟩
  unfold min maxResult
  split <;> omega

/-- A `C` that fits the counter of the wait group gives non-negative channel
sizes. -/
theorem sizes_small (C : Int) (h0 : 0 ≤ C) (h1 : C < 2 ^ 31) :
    0 ≤ C ∧ 0 ≤ min (wrap64 (C * 1000)) maxResult :=
  have h := sizes_ok C h0 (by norm_num at h1 ⊢; omega)
  ⟨h.1, h.2.1⟩

/-- The state reached by a schedule from the call of `Run` on a fresh driver. -/
theorem Inv_reach (N C T : Int) (Q : ℚ) (sched : List Action) :
    Inv N C Q (reached N C T Q sched) :=
  Inv_run sched (Inv_start N C T Q)

/-- The state reached by a schedule continued by another one. -/
theorem Inv_reach_more (N C T : Int) (Q : ℚ) (sched more : List Action) :
    Inv N C Q (run (reached N C T Q sched) more) :=
  Inv_run more (Inv_reach N C T Q sched)

/-- In a run in which `Stop` is never called no worker receives a stop token. -/
theorem noStop_taken (N C T : Int) (Q : ℚ) (sched : List Action)
    (hq : ∀ a ∈ sched, a.isStop = false) :
    ∀ w ∈ (reached N C T Q sched).workers, w.taken = 0 := by
  have h := Inv_reach N C T Q sched
  have h1 : (reached N C T Q sched).sent = 0 :=
    (noStop_run sched (Sys.start (RpcWork.fresh N C T Q)) hq).1
  have h2 := h.tokens
  have h3 : (reached N C T Q sched).tokensTaken = 0 := by omega
  exact sum_map_zero Worker.taken _ h3

/-- A worker left waiting on the nil throttle keeps `Run` from returning (for `C`
below 2^32). -/
theorem blocked_worker_hangs (N C T : Int) (Q : ℚ) (hC32 : C < 2 ^ 32)
    (sched : List Action) (k i : Nat)
    (w : Worker) (hk : (reached N C T Q sched).workers[k]? = some w)
    (hpc : w.pc = .tick i) (hth : w.throttle = none) (more : List Action) :
    (run (reached N C T Q sched) more).workers[k]? = some w ∧
    (run (reached N C T Q sched) more).main ≠ .returned := by
  have h1 := blocked_run more _ k i w hk hpc hth
  refine ⟨h1, ?_⟩
  intro hret
  have hinv : Inv N C Q (run (reached N C T Q sched) more) :=
    Inv_reach_more N C T Q sched more
  have := joined_finished hinv hC32 (by rw [hret]; rfl) k w h1
  rw [hpc] at this
  cases this

theorem throttledRun_blocked (more : List Action) :
    (run throttledRun more).workers = [⟨.tick 0, 1, none, 0, 0, 0⟩] ∧
    (run throttledRun more).main ≠ .returned := by
  have hw : throttledRun.workers[0]? = some ⟨.tick 0, 1, none, 0, 0, 0⟩ := by decide
  obtain ⟨h1, h2⟩ := blocked_worker_hangs 1 1 0 2000000 (by norm_num) _ 0 0 _ hw rfl rfl more
  refine ⟨?_, h2⟩
  have hinv : Inv 1 1 2000000 (run throttledRun more) := Inv_reach_more 1 1 0 2000000 _ more
  have hlen := workers_le hinv
  have hlen1 : (1 : Int).toNat = 1 := rfl
  rw [hlen1] at hlen
  change (run throttledRun more).workers[0]? = _ at h1
  generalize (run throttledRun more).workers = l at h1 hlen
  match l, h1, hlen with
  | [x], h1, _ =>
    simp at h1
    subst h1
    rfl
  | [], h1, _ => simp at h1
  | _ :: _ :: _, _, hlen => simp at hlen

/-! ## A wait-group counter that has wrapped around -/

/-- The `go` statements of the loop of `runWorkers`, executed one after another. -/
theorem spawn_run : ∀ (n : Nat) (s : Sys) (i : Nat), s.status = none → s.main = .spawn i →
    ((i + n : Nat) : Int) ≤ s.b.C →
    run s (List.replicate n (.main 0))
      = { s with workers := s.workers ++ List.replicate n Worker.new, main := .spawn (i + n) } := by
  intro n
  induction n with
  | zero =>
    intro s i _ hm _
    cases s
    simp only at hm
    subst hm
    simp [run]
  | succ n ih =>
    intro s i hs hm hle
    have hi : (i : Int) < s.b.C := by push_cast at hle; omega
    have hstep : next s (.main 0)
        = { s with workers := s.workers ++ [Worker.new], main := .spawn (i + 1) } := by
      simp only [next, step, hs, stepMain, hm, hi, if_true, Option.getD_some]
    rw [List.replicate_succ, run_cons, hstep]
    have := ih { s with workers := s.workers ++ [Worker.new], main := .spawn (i + 1) } (i + 1)
      hs rfl (by push_cast at hle ⊢; omega)
    rw [this]
    simp only [List.append_assoc, List.singleton_append, Sys.mk.injEq, true_and, and_true,
      MainPc.spawn.injEq]
    exact ⟨by omega, by rw [List.replicate_succ]⟩

/-- The state after `Run` has executed up to `close(b.results)` with no worker
scheduled, for a `C` that the counter of the wait group takes for zero. -/
theorem early_close (N C : Int) (c : Nat) (hC : C = (c : Int)) (hw : wrap32 C = 0)
    (hsz : 0 ≤ min (wrap64 (C * 1000)) maxResult) :
    reached N C 0 0
        ([.main 0, .main 0] ++ List.replicate c (.main 0) ++ [.main 0, .main 0, .main 0])
      = { b := { RequestBody := ⟨""⟩, N := N, C := C, Timeout := 0, QPS := 0, initOnce := true,
                 results := some ⟨(min (wrap64 (C * 1000)) maxResult).toNat, [], true⟩,
                 stopCh := some ⟨C.toNat, [], false⟩, start := 0 },
          status := none, main := .awaitDone, wg := 0, workers := List.replicate c Worker.new,
          reporter := .running, received := [], stopper := .idle, sent := 0, closes := 1 } := by
  have h0 : 0 ≤ C := by omega
  have hInit : Init (RpcWork.fresh N C 0 0) = .ok { RpcWork.fresh N C 0 0 with
      initOnce := true,
      results := some ⟨(min (wrap64 (C * 1000)) maxResult).toNat, [], false⟩,
      stopCh := some ⟨C.toNat, [], false⟩ } := by
    rcases Init_fresh (RpcWork.fresh N C 0 0) rfl with ⟨_, h1 | h1⟩ | ⟨_, _, h1⟩
    · exact absurd h1 (by simp only [RpcWork.fresh]; omega)
    · exact absurd h1 (by simp only [RpcWork.fresh]; omega)
    · exact h1
  have hadd : waitGroupAdd 0 C = .ok 0 := by
    unfold waitGroupAdd
    rw [zero_add, hw]
    simp
  have hA : run (Sys.start (RpcWork.fresh N C 0 0)) [.main 0, .main 0]
      = { b := { RequestBody := ⟨""⟩, N := N, C := C, Timeout := 0, QPS := 0, initOnce := true,
                 results := some ⟨(min (wrap64 (C * 1000)) maxResult).toNat, [], false⟩,
                 stopCh := some ⟨C.toNat, [], false⟩, start := 0 },
          status := none, main := .spawn 0, wg := 0, workers := [],
          reporter := .running, received := [], stopper := .idle, sent := 0, closes := 0 } := by
    simp only [run, List.foldl, next, step, Sys.start, stepMain, hInit, Option.getD_some]
    simp only [RpcWork.fresh, hadd, Option.getD_some]
  unfold reached
  rw [run_append, run_append, hA, spawn_run c _ 0 rfl rfl (by simp [hC])]
  have hc : ¬ (c : Int) < C := by omega
  simp only [run, List.foldl, next, step, stepMain, hc, if_false, Option.getD_some, if_true,
    Bool.false_eq_true, List.nil_append, zero_add]

/-- A worker that starts once the result queue is closed, with a share of at least
one call and no throttle: it enters `runWorker`, polls the stop channel, builds its
sample, and its send ends the process. -/
theorem send_after_close (s : Sys) (w : Worker) (ch : Chan result) (sc : Chan Unit)
    (hs : s.status = none) (hk : s.workers[0]? = some w) (hpc : w.pc = .entry)
    (hC : s.b.C ≠ 0) (hn : 0 < Int.tdiv s.b.N s.b.C) (hQ : s.b.QPS = 0)
    (hres : s.b.results = some ch) (hcl : ch.closed = true)
    (hstop : s.b.stopCh = some sc) (hbuf : sc.buf = []) (hso : sc.closed = false) :
    (run s [.worker 0 okEnv, .worker 0 okEnv, .worker 0 okEnv, .worker 0 okEnv]).status
      = some .sendOnClosed := by
  have hlen : 0 < s.workers.length := by
    rw [List.getElem?_eq_some] at hk
    exact hk.1
  have hnQ : ¬ (0 : ℚ) < s.b.QPS := by rw [hQ]; simp
  have hreq : makeRequest okEnv = .ok ⟨none, 200, 0, 1, 1, 1, 1, 1, 1, 100⟩ := rfl
  have hset : ∀ (l : List Worker) (x : Worker), 0 < l.length → (l.set 0 x)[0]? = some x := by
    intro l x hl
    rw [List.getElem?_set_self hl]
  have hl1 : ∀ x : Worker, 0 < (s.workers.set 0 x).length := by
    intro x; rw [List.length_set]; exact hlen
  have hl2 : ∀ x y : Worker, 0 < ((s.workers.set 0 x).set 0 y).length := by
    intro x y; rw [List.length_set]; exact hl1 x
  simp only [run, List.foldl, next, step, hs, stepWorker, hk, hpc, hC, if_false,
    Option.getD_some, Sys.setWorker, hset _ _ hlen, hset _ _ (hl1 _), hset _ _ (hl2 _ _),
    hn, Nat.cast_zero, if_true, hstop, hbuf, hso,
    Bool.false_eq_true, afterPoll, hnQ, Worker.enterRequest, hreq, hres, hcl, Sys.crash]

/-- In `wrappedRun` the queue is closed while every worker is still to start, and
the first worker then sends on the closed queue. -/
theorem wrappedRun_spec :
    wrappedRun.status = none ∧ wrappedRun.main = .awaitDone ∧ wrappedRun.closes = 1 ∧
    wrappedRun.res.closed = true ∧
    wrappedRun.workers = List.replicate 4294967296 Worker.new ∧
    (run wrappedRun
      [.worker 0 okEnv, .worker 0 okEnv, .worker 0 okEnv, .worker 0 okEnv]).status
      = some .sendOnClosed := by
  have he := early_close 4294967296 4294967296 4294967296 (by norm_num) (by decide) (by decide)
  have hw : wrappedRun = _ := he
  refine ⟨by rw [hw], by rw [hw], by rw [hw], by rw [hw]; rfl, by rw [hw], ?_⟩
  refine send_after_close wrappedRun Worker.new
    ⟨(min (wrap64 (4294967296 * 1000)) maxResult).toNat, [], true⟩ ⟨(4294967296 : Int).toNat, [], false⟩
    (by rw [hw]) ?_ rfl ?_ ?_ (by rw [hw]) (by rw [hw]) rfl (by rw [hw]) rfl rfl
  · rw [hw]
    show (List.replicate 4294967296 Worker.new)[0]? = some Worker.new
    rw [List.getElem?_replicate, if_pos (by decide)]
  · rw [hw]
    decide
  · rw [hw]
    decide

/-! ## The claims -/

/-- C8: for every N ≥ 0 and C ≥ 1, in every state of a run the calls issued by all
workers together are at most C * (N / C) ≤ N, every worker that has entered
`runWorker` holds the share N / C (Go's truncating division, here equal to the
floor), and the calls never assigned, N - C * (N / C), are N mod C, at most C - 1,
and none exactly when C divides N. -/
theorem total_calls_le_N (N C T : Int) (Q : ℚ) (hN : 0 ≤ N) (hC : 1 ≤ C)
    (sched : List Action) :
    ((reached N C T Q sched).totalCalls : Int) ≤ C * (N / C) ∧
    ((reached N C T Q sched).totalCalls : Int) ≤ N ∧
    (∀ w ∈ (reached N C T Q sched).workers,
      (w.pc ≠ .entry → w.n = N / C) ∧ (w.calls : Int) ≤ N / C) ∧
    Int.tdiv N C = N / C ∧
    N - C * (N / C) = N % C ∧ N % C ≤ C - 1 ∧ 0 ≤ N % C ∧ (N % C = 0 ↔ C ∣ N) := by
  have h := Inv_reach N C T Q sched
  have htd : Int.tdiv N C = N / C := Int.tdiv_eq_ediv hN (by omega)
  have hq0 : 0 ≤ N / C := Int.ediv_nonneg hN (by omega)
  have hmul : C * (N / C) ≤ N := Int.mul_ediv_self_le (by omega)
  have hw : ∀ w ∈ (reached N C T Q sched).workers,
      w.calls ≤ (N / C).toNat := by
    intro w hw
    have := (WInv_calls_le (h.winv w hw)).1
    rw [htd] at this
    exact this
  have hsum := sum_map_le Worker.calls (N / C).toNat _ hw
  have hlen := workers_le h
  have hprod : (reached N C T Q sched).workers.length * (N / C).toNat
      ≤ C.toNat * (N / C).toNat := Nat.mul_le_mul_right _ hlen
  have hcast : ((C.toNat * (N / C).toNat : Nat) : Int) = C * (N / C) := by
    push_cast
    rw [Int.toNat_of_nonneg (by omega : 0 ≤ C), Int.toNat_of_nonneg hq0]
  have htot : ((reached N C T Q sched).totalCalls : Int)
      ≤ C * (N / C) := by
    rw [← hcast]
    unfold Sys.totalCalls
    exact_mod_cast le_trans hsum hprod
  refine ⟨htot, le_trans htot hmul, ?_, htd, ?_, ?_, ?_, ?_⟩
  · intro w hw1
    have h1 := WInv_calls_le (h.winv w hw1)
    rw [htd] at h1
    refine ⟨h1.2.2, ?_⟩
    have := h1.1
    omega
  · rw [Int.emod_def]
  · have := Int.emod_lt_of_pos N (by omega : 0 < C)
    omega
  · exact Int.emod_nonneg N (by omega)
  · exact ⟨Int.dvd_of_emod_eq_zero, Int.emod_eq_zero_of_dvd⟩

/-- The hypotheses of C8 hold of N = 7, C = 2, for which one call of seven is never
issued. -/
theorem total_calls_le_N_witness :
    (0 : Int) ≤ 7 ∧ (1 : Int) ≤ 2 ∧
    ((reached 7 2 0 0 [.main 0, .main 0, .main 0, .worker 0 okEnv,
        .worker 0 okEnv]).totalCalls : Int) ≤ 2 * (7 / 2) ∧
    ((reached 7 2 0 0 [.main 0, .main 0, .main 0, .worker 0 okEnv,
        .worker 0 okEnv]).totalCalls : Int) ≤ 7 ∧
    (∀ w ∈ (reached 7 2 0 0 [.main 0, .main 0, .main 0,
        .worker 0 okEnv, .worker 0 okEnv]).workers,
      (w.pc ≠ .entry → w.n = 7 / 2) ∧ (w.calls : Int) ≤ 7 / 2) ∧
    Int.tdiv 7 2 = 7 / 2 ∧
    (7 : Int) - 2 * (7 / 2) = 7 % 2 ∧ (7 : Int) % 2 ≤ 2 - 1 ∧ (0 : Int) ≤ 7 % 2 ∧
    ((7 : Int) % 2 = 0 ↔ (2 : Int) ∣ 7) :=
  ⟨by decide, by decide, total_calls_le_N 7 2 0 0 (by decide) (by decide) _⟩

/-- C1 (amended): for every N and C with 1 ≤ C ≤ N and C < 2^31 (the counter of the
wait group is an `int32`), and a QPS that is not positive or has an existing
throttle, in a run on a fresh driver in which `Stop` is never called and `grpc.Dial`
never fails the process stays alive, at most C workers exist and none has made more
than N / C calls; once `Run` has returned exactly C workers were launched, each made
exactly N / C calls, C * (N / C) in total.  Such a run does end with `Run` returned:
while `Run` has not returned some goroutine can execute a statement, every statement
executed decreases `Sys.measure`, and some continuation makes `Run` return. -/
theorem calls_issued_without_stop (N C T : Int) (Q : ℚ) (hC : 1 ≤ C) (hCN : C ≤ N)
    (hwg : C < 2 ^ 31) (hth : 0 < Q → throttleOf Q ≠ none)
    (sched : List Action) (hq : quiet sched) :
    (reached N C T Q sched).status = none ∧
    ((reached N C T Q sched).workers.length : Int) ≤ C ∧
    (∀ w ∈ (reached N C T Q sched).workers,
      (w.calls : Int) ≤ Int.tdiv N C) ∧
    ((reached N C T Q sched).main = .returned →
      ((reached N C T Q sched).workers.length : Int) = C ∧
      (∀ w ∈ (reached N C T Q sched).workers,
        (w.calls : Int) = Int.tdiv N C) ∧
      ((reached N C T Q sched).totalCalls : Int)
        = C * Int.tdiv N C) ∧
    ((reached N C T Q sched).main ≠ .returned →
      ∃ a, (a.isStop = false ∧ a.dialOk = true) ∧
        (step (reached N C T Q sched) a).isSome = true) ∧
    (∀ a s', a.isStop = false ∧ a.dialOk = true → step (reached N C T Q sched) a = some s' →
      s'.status = none ∧ s'.measure < (reached N C T Q sched).measure) ∧
    (∃ more, quiet more ∧
      (run (reached N C T Q sched) more).main = .returned) := by
  have h := Inv_reach N C T Q sched
  obtain ⟨s1, s2⟩ := sizes_small C (by omega) hwg
  have hC32 : C < 2 ^ 32 := by norm_num at hwg ⊢; omega
  have halive : (reached N C T Q sched).status = none :=
    alive_run sched ⟨s1, s2⟩ hwg (Inv_start N C T Q) rfl (fun a ha => (hq a ha).2)
  have hq0 : 0 ≤ Int.tdiv N C := Int.tdiv_nonneg (by omega) (by omega)
  have hlen := workers_le h
  have htaken := noStop_taken N C T Q sched (fun a ha => (hq a ha).1)
  refine ⟨halive, by omega, ?_, ?_, ?_, ?_, ?_⟩
  · intro w hw
    have := (WInv_calls_le (h.winv w hw)).1
    omega
  · intro hret
    obtain ⟨j1, j2⟩ := workers_joined h hC32 (by rw [hret]; rfl)
    have hall : ∀ w ∈ (reached N C T Q sched).workers,
        w.calls = (Int.tdiv N C).toNat := by
      intro w hw
      exact (WInv_done (h.winv w hw) (j2 w hw) (htaken w hw)).1
    refine ⟨by omega, ?_, ?_⟩
    · intro w hw
      have := hall w hw
      omega
    · have hsum := sum_map_eq Worker.calls _ _ hall
      unfold Sys.totalCalls
      rw [hsum, j1]
      push_cast
      rw [Int.toNat_of_nonneg (by omega : 0 ≤ C), Int.toNat_of_nonneg hq0]
  · intro hm
    obtain ⟨a, ha, hen⟩ := progress h halive hth okEnv rfl hm
    exact ⟨a, usesEnv_quiet okEnv rfl a ha, hen⟩
  · intro a s' ha hstep
    exact good_step h a ⟨s1, s2⟩ hwg ha hstep
  · obtain ⟨more, m1, m2, _⟩ := completes ⟨s1, s2⟩ hwg hth okEnv rfl _ _ (Nat.le_refl _) h halive
    exact ⟨more, fun a ha => usesEnv_quiet okEnv rfl a (m1 a ha), m2⟩

/-- The hypotheses of C1 (amended) hold of N = 5, C = 2, QPS = 0 and the run that
has initialised the driver and registered the workers with the wait group. -/
theorem calls_issued_without_stop_witness :
    (1 : Int) ≤ 2 ∧ (2 : Int) ≤ 5 ∧ (2 : Int) < 2 ^ 31 ∧
    ((0 : ℚ) < 0 → throttleOf 0 ≠ none) ∧ quiet [.main 0, .main 0] ∧
    (reached 5 2 0 0 [.main 0, .main 0]).status = none ∧
    ∃ more, quiet more ∧
      (run (reached 5 2 0 0 [.main 0, .main 0]) more).main
        = .returned :=
  ⟨by decide, by decide, by decide, fun h => absurd h (by decide),
    (by unfold quiet; decide),
    (calls_issued_without_stop 5 2 0 0 (by decide) (by decide) (by decide)
      (fun h => absurd h (by decide)) [.main 0, .main 0] (by unfold quiet; decide)).1,
    (calls_issued_without_stop 5 2 0 0 (by decide) (by decide) (by decide)
      (fun h => absurd h (by decide)) [.main 0, .main 0]
      (by unfold quiet; decide)).2.2.2.2.2.2⟩

/-- C1 (as stated) fails: four runs in which `Stop` is never called and fewer than
C * (N / C) calls are issued, for ever.  With N = 2, C = 1 the first `grpc.Dial`
fails and the process exits after one call; with N = C = 1 and QPS = 2000000 the
worker waits on a throttle that does not exist and no call is ever made; with
N = C = 9223372036854776 `Init` panics on a negative channel size; with
N = C = 2147483648 `wg.Add(b.C)` panics on a negative counter. -/
theorem run_without_stop_falls_short :
    (abortedRun.status = some (.fatalDial "connection refused") ∧
      abortedRun.totalCalls = 1 ∧ (1 : Int) * Int.tdiv 2 1 = 2 ∧
      ∀ more, run abortedRun more = abortedRun) ∧
    ((1 : Int) * Int.tdiv 1 1 = 1 ∧
      ∀ more, (run throttledRun more).totalCalls = 0 ∧
        (run throttledRun more).main ≠ .returned) ∧
    (overflowRun.status = some .makechanSize ∧ overflowRun.totalCalls = 0 ∧
      (9223372036854776 : Int) * Int.tdiv 9223372036854776 9223372036854776
        = 9223372036854776 ∧
      ∀ more, run overflowRun more = overflowRun) ∧
    (waitGroupRun.status = some .negativeWaitGroup ∧ waitGroupRun.totalCalls = 0 ∧
      (2147483648 : Int) * Int.tdiv 2147483648 2147483648 = 2147483648 ∧
      ∀ more, run waitGroupRun more = waitGroupRun) := by
  refine ⟨⟨by decide, by decide, by decide,
      fun more => dead_run more _ (.fatalDial "connection refused") (by decide)⟩,
    ⟨by decide, fun more => ?_⟩,
    ⟨by decide, by decide, by decide, fun more => dead_run more _ .makechanSize (by decide)⟩,
    ⟨by decide, by decide, by decide,
      fun more => dead_run more _ .negativeWaitGroup (by decide)⟩⟩
  obtain ⟨h1, h2⟩ := throttledRun_blocked more
  refine ⟨?_, h2⟩
  unfold Sys.totalCalls
  rw [h1]
  rfl

/-- C3: in every state of a run in which worker `k` is at the poll that precedes its
(j+1)-th attempt (j < n) and the stop channel holds a token, the worker has issued
exactly j calls and received no token; its next statement takes exactly one token
and leaves `runWorker` with j calls issued and j samples sent; and whatever is
scheduled afterwards it issues no further call, sends no further sample and
receives no further token. -/
theorem stop_observed_ends_worker (N C T : Int) (Q : ℚ) (sched : List Action) (k j : Nat)
    (w : Worker) (env : CallEnv)
    (hs : (reached N C T Q sched).status = none)
    (hk : (reached N C T Q sched).workers[k]? = some w)
    (hpc : w.pc = .loop j) (hj : (j : Int) < w.n)
    (htok : (reached N C T Q sched).stopc.buf ≠ []) :
    w.n = Int.tdiv N C ∧ w.calls = j ∧ w.pushed = j ∧ w.taken = 0 ∧
    ∃ s' w', step (reached N C T Q sched) (.worker k env) = some s' ∧
      s'.status = none ∧ s'.workers[k]? = some w' ∧ w'.pc = .exit ∧ w'.calls = j ∧
      w'.pushed = j ∧ w'.taken = 1 ∧
      s'.stopc.buf.length + 1
        = (reached N C T Q sched).stopc.buf.length ∧
      s'.received = (reached N C T Q sched).received ∧
      s'.res = (reached N C T Q sched).res ∧
      ∀ more, ∃ w2, (run s' more).workers[k]? = some w2 ∧ w2.calls = j ∧
        w2.pushed = j ∧ w2.taken = 1 ∧ (w2.pc = .exit ∨ w2.pc = .done) := by
  have h := Inv_reach N C T Q sched
  generalize reached N C T Q sched = s at *
  have hw := h.winv w (mem_of_get _ _ _ hk)
  simp only [WInv, hpc] at hw
  obtain ⟨w1, w2, w3, w4, w5, w6⟩ := hw
  have hlen : k < s.workers.length := by
    rw [List.getElem?_eq_some] at hk
    exact hk.1
  refine ⟨w1, w3, w4, w5, ?_⟩
  cases hch : s.b.stopCh with
  | none => simp [Sys.stopc, hch] at htok
  | some ch =>
    have hstop : s.stopc = ch := by simp [Sys.stopc, hch]
    rw [hstop] at htok
    cases hbuf : ch.buf with
    | nil => exact absurd hbuf htok
    | cons x rest =>
      refine ⟨({ s with b := { s.b with stopCh := some { ch with buf := rest } } } : Sys).setWorker k
          { w with taken := w.taken + 1, pc := .exit },
        { w with taken := w.taken + 1, pc := .exit }, ?_, ?_, ?_, rfl, w3, w4,
        by simp [w5], ?_, rfl, rfl, ?_⟩
      · simp only [step, hs, stepWorker, hk, hpc, hj, if_true, hch, hbuf]
      · exact hs
      · simp [Sys.setWorker, List.getElem?_set_self, hlen]
      · simp [Sys.stopc, Sys.setWorker, hch, hbuf]
      · intro more
        have hk' : (({ s with b := { s.b with stopCh := some { ch with buf := rest } } } : Sys).setWorker k
            { w with taken := w.taken + 1, pc := .exit }).workers[k]?
            = some { w with taken := w.taken + 1, pc := .exit } := by
          simp [Sys.setWorker, List.getElem?_set_self, hlen]
        obtain ⟨w3', g1, g2, g3, g4, g5⟩ := frozen_run more _ k _ hk' (Or.inl rfl)
        exact ⟨w3', g1, g2.trans w3, g3.trans w4, by rw [g4]; simp [w5], g5⟩

/-- The hypotheses of C3 hold in a run with N = 2, C = 1 in which `Stop` has sent its
token before the worker's first poll. -/
theorem stop_observed_ends_worker_witness :
    (reached 2 1 0 0
      [.main 0, .stop, .stop, .main 0, .main 0, .worker 0 okEnv]).status = none ∧
    (reached 2 1 0 0
      [.main 0, .stop, .stop, .main 0, .main 0, .worker 0 okEnv]).workers[0]?
      = some ⟨.loop 0, 2, none, 0, 0, 0⟩ ∧
    ((0 : Nat) : Int) < (⟨.loop 0, 2, none, 0, 0, 0⟩ : Worker).n ∧
    (reached 2 1 0 0
      [.main 0, .stop, .stop, .main 0, .main 0, .worker 0 okEnv]).stopc.buf ≠ [] ∧
    ∃ s' w', step (reached 2 1 0 0
        [.main 0, .stop, .stop, .main 0, .main 0, .worker 0 okEnv]) (.worker 0 okEnv) = some s' ∧
      s'.status = none ∧ s'.workers[0]? = some w' ∧ w'.pc = .exit ∧ w'.calls = 0 ∧
      w'.pushed = 0 ∧ w'.taken = 1 :=
  ⟨by decide, by decide, by decide, by decide,
    (stop_observed_ends_worker 2 1 0 0
      [.main 0, .stop, .stop, .main 0, .main 0, .worker 0 okEnv] 0 0
      ⟨.loop 0, 2, none, 0, 0, 0⟩ okEnv (by decide) (by decide) rfl (by decide)
      (by decide)).2.2.2.2.imp fun s' hs' => hs'.imp fun w' hw' =>
        ⟨hw'.1, hw'.2.1, hw'.2.2.1, hw'.2.2.2.1, hw'.2.2.2.2.1, hw'.2.2.2.2.2.1,
          hw'.2.2.2.2.2.2.1⟩⟩

/-- On an initialised driver the next send of `Stop` does not block. -/
theorem stop_send_enabled {N C : Int} {Q : ℚ} {s : Sys} (h : Inv N C Q s)
    (hs : s.status = none) (hinit : s.b.initOnce = true) (i : Nat)
    (hp : s.stopper = .loop i) (hi : (i : Int) < C) :
    s.sent = i ∧ s.stopc.buf.length < s.stopc.cap ∧
    ∃ s', step s .stop = some s' ∧ s'.status = none ∧ s'.stopper = .loop (i + 1) ∧
      s'.sent = i + 1 ∧ s'.stopc.buf.length = s.stopc.buf.length + 1 ∧
      s'.b.initOnce = true := by
  have hmi : s.main ≠ .init := by
    intro hc
    have := (h.pre hc).1
    rw [hinit] at this
    cases this
  have ha := h.alloc hmi
  have hst := h.stopper
  simp only [SInv, hp] at hst
  have htok := h.tokens
  have hopen := h.sopen
  have hC := h.cfgC
  cases hch : s.b.stopCh with
  | none =>
    have := ha.2.2.2.1
    rw [hch] at this
    cases this
  | some ch =>
    have hstop : s.stopc = ch := by simp [Sys.stopc, hch]
    rw [hstop] at htok hopen ha ⊢
    have hcap : ch.cap = C.toNat := ha.2.2.2.2.2.2.2
    have hroom : ch.buf.length < ch.cap := by omega
    have hncl : ¬ (ch.closed = true) := by rw [hopen]; simp
    have hi' : (i : Int) < s.b.C := by rw [hC]; exact hi
    refine ⟨hst.1, hroom,
      { s with b := { s.b with stopCh := some { ch with buf := ch.buf ++ [()] } },
               sent := s.sent + 1, stopper := .loop (i + 1) }, ?_, ?_, rfl, ?_, ?_, ?_⟩
    · simp only [step, hs, stepStop, hp, hi', if_true, hch]
      rw [if_neg hncl, if_pos hroom]
    · exact hs
    · show s.sent + 1 = i + 1
      omega
    · simp [Sys.stopc]
    · exact hinit

/-- With `m` sends left, `m + 1` further statements of `Stop` complete it. -/
theorem stop_completes {N C : Int} {Q : ℚ} :
    ∀ (m : Nat) (s : Sys) (i : Nat), Inv N C Q s → s.status = none → s.b.initOnce = true →
      s.stopper = .loop i → i + m = C.toNat →
      (run s (List.replicate (m + 1) .stop)).stopper = .done ∧
      (run s (List.replicate (m + 1) .stop)).sent = C.toNat ∧
      (run s (List.replicate (m + 1) .stop)).status = none := by
  intro m
  induction m with
  | zero =>
    intro s i h hs _ hp hi
    have hst := h.stopper
    simp only [SInv, hp] at hst
    have hC := h.cfgC
    have hno : ¬ (i : Int) < s.b.C := by omega
    have hstep : step s .stop = some { s with stopper := .done } := by
      simp only [step, hs, stepStop, hp, hno, if_false]
    simp only [List.replicate, run, List.foldl, next, hstep, Option.getD_some]
    exact ⟨trivial, by omega, hs⟩
  | succ m ih =>
    intro s i h hs hinit hp hi
    obtain ⟨_, _, s', e1, e2, e3, _, _, e6⟩ := stop_send_enabled h hs hinit i hp (by omega)
    have hnext : next s .stop = s' := by simp [next, e1]
    rw [List.replicate_succ, run_cons, hnext]
    exact ih s' (i + 1) (Inv_step h _ e1) e2 e6 e3 (by omega)

/-- C6: for every C ≥ 1, in every state of a run on a driver that `Init` has
initialised the stop channel has capacity C and holds at most C tokens; whenever the
call of `Stop` is in its loop with i < C tokens sent, its next send does not block
(it is executed, and adds one token); when `Stop` has returned it has sent exactly C
tokens; and from the call of `Stop` its C sends and the return can be executed one
after another, whatever the workers have done before. -/
theorem stop_sends_never_block (N C T : Int) (Q : ℚ) (hC : 1 ≤ C) (sched : List Action) :
    ((reached N C T Q sched).b.initOnce = true →
      (reached N C T Q sched).stopc.cap = C.toNat ∧
      (reached N C T Q sched).stopc.buf.length ≤ C.toNat) ∧
    (∀ i : Nat, (reached N C T Q sched).status = none →
      (reached N C T Q sched).b.initOnce = true →
      (reached N C T Q sched).stopper = .loop i → (i : Int) < C →
      (reached N C T Q sched).sent = i ∧
      ∃ s', step (reached N C T Q sched) .stop = some s' ∧
        s'.status = none ∧ s'.stopper = .loop (i + 1) ∧ s'.sent = i + 1 ∧
        s'.stopc.buf.length
          = (reached N C T Q sched).stopc.buf.length + 1) ∧
    ((reached N C T Q sched).stopper = .done →
      ((reached N C T Q sched).sent : Int) = C) ∧
    ((reached N C T Q sched).status = none →
      (reached N C T Q sched).b.initOnce = true →
      (reached N C T Q sched).stopper = .idle →
      (run (reached N C T Q sched)
        (List.replicate (C.toNat + 2) .stop)).stopper = .done ∧
      ((run (reached N C T Q sched)
        (List.replicate (C.toNat + 2) .stop)).sent : Int) = C) := by
  have h := Inv_reach N C T Q sched
  generalize reached N C T Q sched = s at *
  have hst := h.stopper
  have htok := h.tokens
  have hsent : s.sent ≤ C.toNat := by
    unfold SInv at hst
    split at hst <;> omega
  refine ⟨?_, ?_, ?_, ?_⟩
  · intro hinit
    have hmi : s.main ≠ .init := by
      intro hc
      have := (h.pre hc).1
      rw [hinit] at this
      cases this
    exact ⟨(h.alloc hmi).2.2.2.2.2.2.2, by omega⟩
  · intro i hs hinit hp hi
    obtain ⟨e0, _, s', e1, e2, e3, e4, e5, _⟩ := stop_send_enabled h hs hinit i hp hi
    exact ⟨e0, s', e1, e2, e3, e4, e5⟩
  · intro hd
    simp only [SInv, hd] at hst
    omega
  · intro hs hinit hp
    have hstep : step s .stop = some { s with stopper := .loop 0 } := by
      simp only [step, hs, stepStop, hp]
    have hnext : next s .stop = { s with stopper := .loop 0 } := by simp [next, hstep]
    rw [List.replicate_succ, run_cons, hnext]
    have := stop_completes C.toNat { s with stopper := .loop 0 } 0 (Inv_step h _ hstep) hs
      hinit rfl (by omega)
    exact ⟨this.1, by rw [this.2.1]; omega⟩

/-- The hypotheses of C6 hold of C = 2, in the run in which `Init` has run and
`Stop` has just been called. -/
theorem stop_sends_never_block_witness :
    (1 : Int) ≤ 2 ∧
    (reached 4 2 0 0 [.main 0, .stop]).status = none ∧
    (reached 4 2 0 0 [.main 0, .stop]).b.initOnce = true ∧
    (reached 4 2 0 0 [.main 0, .stop]).stopper = .loop 0 ∧
    (reached 4 2 0 0 [.main 0, .stop]).sent = 0 ∧
    ∃ s', step (reached 4 2 0 0 [.main 0, .stop]) .stop = some s' ∧
      s'.status = none ∧ s'.stopper = .loop (0 + 1) ∧ s'.sent = 0 + 1 ∧
      s'.stopc.buf.length
        = (reached 4 2 0 0 [.main 0, .stop]).stopc.buf.length + 1 :=
  ⟨by decide, by decide, by decide, by decide,
    (stop_sends_never_block 4 2 0 0 (by decide) [.main 0, .stop]).2.1 0 (by decide)
      (by decide) (by decide) (by decide)⟩

/-- C2 (as stated) fails.  In four runs `close(b.results)` is never executed: the
first `grpc.Dial` of `abortedRun` fails and the process exits; the worker of
`throttledRun` waits for ever, and so does `wg.Wait()`; `Init` panics in
`overflowRun`; `wg.Add(b.C)` panics in `waitGroupRun` (C = 2^31).  In `wrappedRun`
(C = 2^32) the queue is closed while all 4294967296 workers exist and none of them
has started; the first worker, scheduled next, enters `runWorker`, polls, builds its
sample and sends it on the closed queue, which ends the process. -/
theorem queue_not_closed_once_after_join :
    (abortedRun.status = some (.fatalDial "connection refused") ∧
      ∀ more, (run abortedRun more).closes = 0 ∧ (run abortedRun more).res.closed = false) ∧
    (∀ more, (run throttledRun more).closes = 0 ∧
      (run throttledRun more).res.closed = false ∧
      (run throttledRun more).main ≠ .returned) ∧
    (overflowRun.status = some .makechanSize ∧
      ∀ more, (run overflowRun more).closes = 0 ∧
        (run overflowRun more).res.closed = false) ∧
    (waitGroupRun.status = some .negativeWaitGroup ∧
      ∀ more, (run waitGroupRun more).closes = 0 ∧
        (run waitGroupRun more).res.closed = false) ∧
    (wrappedRun.status = none ∧ wrappedRun.closes = 1 ∧ wrappedRun.res.closed = true ∧
      wrappedRun.workers.length = 4294967296 ∧
      (∀ w ∈ wrappedRun.workers, w.pc = .entry) ∧
      (run wrappedRun
        [.worker 0 okEnv, .worker 0 okEnv, .worker 0 okEnv, .worker 0 okEnv]).status
        = some .sendOnClosed) := by
  refine ⟨⟨by decide, fun more => ?_⟩, fun more => ?_, ⟨by decide, fun more => ?_⟩,
    ⟨by decide, fun more => ?_⟩, ?_⟩
  rotate_left 4
  · obtain ⟨w1, _, w3, w4, w5, w6⟩ := wrappedRun_spec
    refine ⟨w1, w3, w4, ?_, ?_, w6⟩
    · rw [w5, List.length_replicate]
    · intro w hw
      rw [w5] at hw
      rw [List.eq_of_mem_replicate hw]
      rfl
  · rw [dead_run more _ (.fatalDial "connection refused") (by decide)]
    exact ⟨by decide, by decide⟩
  · obtain ⟨h1, h2⟩ := throttledRun_blocked more
    have hinv : Inv 1 1 2000000 (run throttledRun more) := Inv_reach_more 1 1 0 2000000 _ more
    have hnj : (run throttledRun more).main.joined = false := by
      by_contra hc
      have := joined_finished hinv (by norm_num) (by simpa using hc) 0
        ⟨.tick 0, 1, none, 0, 0, 0⟩ (by rw [h1]; rfl)
      cases this
    have hncl : (run throttledRun more).main.closedStage = false := by
      by_contra hc
      have := closedStage_joined _ (by simpa using hc)
      rw [hnj] at this
      cases this
    have hc := hinv.closes
    have hr := hinv.rclosed
    rw [hncl] at hc hr
    exact ⟨by simpa using hc, hr, h2⟩
  · rw [dead_run more _ .makechanSize (by decide)]
    exact ⟨by decide, by decide⟩
  · rw [dead_run more _ .negativeWaitGroup (by decide)]
    exact ⟨by decide, by decide⟩

/-- C2 (amended): in every state of a run on a fresh driver the result queue has
been closed at most once, and it is closed exactly when `close(b.results)` has been
executed; the process never ends by closing a closed or nil channel; once `Run` has
returned the queue has been closed exactly once.  For C < 2^32: when `Run` is about
to execute the `close`, and ever after, exactly C workers exist and all of them have
executed `wg.Done()`; no worker is about to send on a closed queue, and the process
never ends by a send on a closed channel.  For 0 ≤ C < 2^31 (the counter of the wait
group is an `int32`): when the throttle (if QPS > 0) exists and the process is
alive, `Run` can go on to return, with the queue closed once. -/
theorem queue_closed_once_after_join (N C T : Int) (Q : ℚ) (sched : List Action) :
    (reached N C T Q sched).closes ≤ 1 ∧
    ((reached N C T Q sched).res.closed = true ↔
      (reached N C T Q sched).closes = 1) ∧
    ((reached N C T Q sched).status ≠ some .closeOfClosed ∧
      (reached N C T Q sched).status ≠ some .closeOfNil) ∧
    ((reached N C T Q sched).main = .returned →
      (reached N C T Q sched).closes = 1) ∧
    (C < 2 ^ 32 →
      ((reached N C T Q sched).main = .close ∨
          (reached N C T Q sched).closes = 1 →
        ((reached N C T Q sched).workers.length : Int) = C ∧
        ∀ w ∈ (reached N C T Q sched).workers, w.pc = .done) ∧
      (∀ w ∈ (reached N C T Q sched).workers,
        ∀ i r, w.pc = .push i r →
          (reached N C T Q sched).res.closed = false ∧
          (reached N C T Q sched).closes = 0) ∧
      (reached N C T Q sched).status ≠ some .sendOnClosed) ∧
    (0 ≤ C → C < 2 ^ 31 → (0 < Q → throttleOf Q ≠ none) →
      (reached N C T Q sched).status = none →
      ∃ more, quiet more ∧
        (run (reached N C T Q sched) more).main = .returned ∧
        (run (reached N C T Q sched) more).closes = 1) := by
  have h := Inv_reach N C T Q sched
  generalize hgen : reached N C T Q sched = s at *
  have hc := h.closes
  have hr := h.rclosed
  refine ⟨?_, ?_, ?_, ?_, ?_, ?_⟩
  · rw [hc]; split <;> omega
  · rw [hr, hc]
    cases s.main.closedStage <;> simp
  · rcases h.status with h1 | h1 | ⟨m, h1⟩ | ⟨h1, _⟩ | ⟨h1, _⟩ <;> rw [h1] <;> simp
  · intro hm
    rw [hc, hm]
    rfl
  · intro hC32
    have hjoin : s.main.joined = true → (s.workers.length : Int) = C ∧
        ∀ w ∈ s.workers, w.pc = .done := by
      intro hj
      obtain ⟨j1, j2⟩ := workers_joined h hC32 hj
      have hmi : s.main ≠ .init := by
        intro hc; rw [hc] at hj; cases hj
      have := (h.alloc hmi).1
      exact ⟨by omega, j2⟩
    refine ⟨?_, ?_, ?_⟩
    · intro hm
      apply hjoin
      rcases hm with hm | hm
      · rw [hm]; rfl
      · rw [hc] at hm
        apply closedStage_joined
        by_contra hcs
        simp [hcs] at hm
    · intro w hw i r hpc
      have hncl : s.main.closedStage = false := by
        by_contra hcs
        have hj := closedStage_joined _ (by simpa using hcs)
        have := (hjoin hj).2 w hw
        rw [hpc] at this
        cases this
      rw [hr, hc, hncl]
      exact ⟨rfl, rfl⟩
    · rcases h.status with h1 | h1 | ⟨m, h1⟩ | ⟨h1, _⟩ | ⟨h1, h2⟩
      · rw [h1]; simp
      · rw [h1]; simp
      · rw [h1]; simp
      · rw [h1]; simp
      · exact absurd hC32 (by omega)
  · intro h0 hC31 hth hs
    obtain ⟨s1, s2⟩ := sizes_small C h0 hC31
    obtain ⟨more, m1, m2, _⟩ :=
      completes ⟨s1, s2⟩ hC31 hth okEnv rfl _ _ (Nat.le_refl _) h hs
    refine ⟨more, fun a ha => usesEnv_quiet okEnv rfl a (m1 a ha), m2, ?_⟩
    have h2 : Inv N C Q (run s more) := Inv_run more h
    rw [h2.closes, m2]
    rfl

/-- The hypotheses of the parts of C2 (amended) hold: those of the last part of
N = 2, C = 1, QPS = 0 after two statements of `Run`, and those of the ordering of
`closedRun` (C = 1), in which the queue has been closed and the one worker has
executed `wg.Done()`. -/
theorem queue_closed_once_after_join_witness :
    (0 : Int) ≤ 1 ∧ (1 : Int) < 2 ^ 31 ∧ ((0 : ℚ) < 0 → throttleOf 0 ≠ none) ∧
    (reached 2 1 0 0 [.main 0, .main 0]).status = none ∧
    (∃ more, quiet more ∧
      (run (reached 2 1 0 0 [.main 0, .main 0]) more).main
        = .returned ∧
      (run (reached 2 1 0 0 [.main 0, .main 0]) more).closes = 1) ∧
    (1 : Int) < 2 ^ 32 ∧ closedRun.closes = 1 ∧
    (closedRun.workers.length : Int) = 1 ∧ ∀ w ∈ closedRun.workers, w.pc = .done :=
  ⟨by decide, by decide, fun h => absurd h (by decide), by decide,
    (queue_closed_once_after_join 2 1 0 0 [.main 0, .main 0]).2.2.2.2.2 (by decide)
      (by decide) (fun h => absurd h (by decide)) (by decide),
    by decide, by decide,
    ((queue_closed_once_after_join 1 1 0 0 _).2.2.2.2.1 (by decide)).1
      (Or.inr (by decide : closedRun.closes = 1))⟩

theorem sum_map_congr (f g : Worker → Nat) :
    ∀ (l : List Worker), (∀ w ∈ l, f w = g w) → (l.map f).sum = (l.map g).sum := by
  intro l
  induction l with
  | nil => intro _; rfl
  | cons x xs ih =>
    intro h
    simp only [List.map_cons, List.sum_cons]
    rw [h x (List.mem_cons_self _ _), ih (fun w hw => h w (List.mem_cons_of_mem _ hw))]

/-- Once `Run` has returned the reporter has taken one sample per call (for `C`
below 2^32). -/
theorem returned_samples {N C : Int} {Q : ℚ} {s : Sys} (h : Inv N C Q s)
    (hC32 : C < 2 ^ 32) (hm : s.main = .returned) : s.res.buf = [] ∧ s.received.length = s.totalCalls := by
  have hrep := h.repFin (Or.inr hm)
  have hbuf := (h.repDone hrep).2
  have hsam := h.samples
  obtain ⟨_, j2⟩ := workers_joined h hC32 (by rw [hm]; rfl)
  have : s.samplesPushed = s.totalCalls := by
    unfold Sys.samplesPushed Sys.totalCalls
    apply sum_map_congr
    intro w hw
    have hw1 := h.winv w hw
    simp only [WInv, j2 w hw] at hw1
    exact hw1.2.1.symm
  rw [hbuf] at hsam
  simp only [List.length_nil, add_zero] at hsam
  exact ⟨hbuf, by omega⟩

theorem failingSched_fails : callsErr (fun e => e ≠ none) failingSched := by
  intro a ha k env hk
  subst hk
  simp only [failingSched, List.mem_cons, List.mem_singleton, reduceCtorEq, false_or,
    Action.worker.injEq, or_self, List.not_mem_nil, or_false] at ha
  rw [ha.2]
  decide

/-- C4 (as stated) fails: when `grpc.Dial` returns an error `makeRequest` ends the
process (`log.Fatalf`); in `abortedRun` one call was made and no sample exists. -/
theorem makeRequest_aborts_on_dial_failure :
    makeRequest refusedEnv = .error (.fatalDial "connection refused") ∧
    abortedRun.status = some (.fatalDial "connection refused") ∧
    abortedRun.totalCalls = 1 ∧ abortedRun.samplesPushed = 0 ∧
    abortedRun.received = [] ∧ abortedRun.res.buf = [] ∧
    ∀ more, run abortedRun more = abortedRun :=
  ⟨rfl, by decide, by decide, by decide, by decide, by decide,
    fun more => dead_run more _ (.fatalDial "connection refused") (by decide)⟩

/-- C4 (amended): whenever `grpc.Dial` succeeds, `makeRequest` builds one sample
whose error field is the error of `SayHello` (nil on success), whatever that error
is, and the worker's next statement is the send of that sample; a failing `grpc.Dial`
ends the process.  In every state each worker has sent as many samples as it made
calls, less the one in flight, and the samples in the queue and at the reporter are
those sent.  Consequently, on a fresh driver with 0 ≤ C < 2^31 (the counter of the
wait group is an `int32`) and an existing throttle, a run in which every `grpc.Dial`
succeeds and every `SayHello` fails keeps the process alive, every sample carries a
non-nil error, and `Run` can go on to return, with one sample with a non-nil error
per call made. -/
theorem makeRequest_records_rpc_outcome (N C T : Int) (Q : ℚ) (hC : 0 ≤ C)
    (hwg : C < 2 ^ 31) (hth : 0 < Q → throttleOf Q ≠ none) (sched : List Action)
    (hdial : ∀ a ∈ sched, a.dialOk = true) (hfail : callsErr (fun e => e ≠ none) sched) :
    (∀ env : CallEnv, env.dialErr = none →
      ∃ r, makeRequest env = .ok r ∧ r.err = env.rpcErr ∧ r.offset = env.s ∧
        r.duration = wrap64 (env.t - env.s)) ∧
    (∀ (env : CallEnv) (m : String), env.dialErr = some m →
      makeRequest env = .error (.fatalDial m)) ∧
    (∀ (k i : Nat) (w : Worker) (env : CallEnv),
      (reached N C T Q sched).workers[k]? = some w →
      w.pc = .request i → env.dialErr = none →
      ∃ s' r, step (reached N C T Q sched) (.worker k env) = some s' ∧
        s'.status = none ∧ r.err = env.rpcErr ∧
        s'.workers[k]? = some { w with pc := .push i r }) ∧
    (∀ w ∈ (reached N C T Q sched).workers,
      w.pushed ≤ w.calls ∧ w.calls ≤ w.pushed + 1 ∧
      ((w.pc = .exit ∨ w.pc = .done ∨ ∃ i, w.pc = .loop i) → w.pushed = w.calls)) ∧
    (reached N C T Q sched).received.length
      + (reached N C T Q sched).res.buf.length
      = (reached N C T Q sched).samplesPushed ∧
    (reached N C T Q sched).status = none ∧
    (∀ r ∈ (reached N C T Q sched).received, r.err ≠ none) ∧
    (∀ r ∈ (reached N C T Q sched).res.buf, r.err ≠ none) ∧
    (∃ more, (∀ a ∈ more, usesEnv failingEnv a) ∧
      (run (reached N C T Q sched) more).main = .returned ∧
      (run (reached N C T Q sched) more).status = none ∧
      (run (reached N C T Q sched) more).received.length
        = (run (reached N C T Q sched) more).totalCalls ∧
      (run (reached N C T Q sched) more).res.buf = [] ∧
      ∀ r ∈ (run (reached N C T Q sched) more).received,
        r.err ≠ none) := by
  have h := Inv_reach N C T Q sched
  obtain ⟨s1, s2⟩ := sizes_small C hC hwg
  have hC32 : C < 2 ^ 32 := by norm_num at hwg ⊢; omega
  have halive : (reached N C T Q sched).status = none :=
    alive_run sched ⟨s1, s2⟩ hwg (Inv_start N C T Q) rfl hdial
  have herr : ErrInv (fun e => e ≠ none) (reached N C T Q sched) :=
    ErrInv_run _ sched (Inv_start N C T Q) (ErrInv_start _ _ rfl) hfail
  generalize reached N C T Q sched = s at *
  refine ⟨?_, ?_, ?_, ?_, h.samples, halive, herr.1, herr.2.1, ?_⟩
  · intro env henv
    rcases makeRequest_cases env with ⟨m, hm, _⟩ | ⟨_, hm⟩
    · rw [henv] at hm; cases hm
    · exact ⟨_, hm, rfl, rfl, rfl⟩
  · intro env m henv
    rcases makeRequest_cases env with ⟨m', hm, hm2⟩ | ⟨hm, _⟩
    · rw [henv] at hm
      cases hm
      exact hm2
    · rw [henv] at hm; cases hm
  · intro k i w env hk hpc henv
    have hlen : k < s.workers.length := by
      rw [List.getElem?_eq_some] at hk
      exact hk.1
    rcases makeRequest_cases env with ⟨m, hm, _⟩ | ⟨_, hm⟩
    · rw [henv] at hm; cases hm
    · obtain ⟨r, hr1, hr2⟩ : ∃ r, makeRequest env = .ok r ∧ r.err = env.rpcErr :=
        ⟨_, hm, rfl⟩
      refine ⟨s.setWorker k { w with pc := .push i r }, r, ?_, halive, hr2, ?_⟩
      · simp only [step, halive, stepWorker, hk, hpc, hr1]
      · simp [Sys.setWorker, List.getElem?_set_self, hlen]
  · intro w hw
    have hw1 := h.winv w hw
    unfold WInv at hw1
    split at hw1 <;> rename_i hpc <;> refine ⟨by omega, by omega, ?_⟩ <;> intro hcase <;>
      first
        | omega
        | (rcases hcase with hc | hc | ⟨i, hc⟩ <;> rw [hpc] at hc <;> cases hc)
  · obtain ⟨more, m1, m2, m3⟩ :=
      completes ⟨s1, s2⟩ hwg hth failingEnv rfl _ _ (Nat.le_refl _) h halive
    have h2 : Inv N C Q (run s more) := Inv_run more h
    have herr2 : ErrInv (fun e => e ≠ none) (run s more) := by
      apply ErrInv_run _ more h herr
      intro a ha k env hk
      rcases m1 a ha with rfl | rfl | ⟨k', rfl⟩
      · cases hk
      · cases hk
      · cases hk
        simp [failingEnv]
    obtain ⟨r1, r2⟩ := returned_samples h2 hC32 m2
    exact ⟨more, m1, m2, m3, r2, r1, herr2.1⟩

/-- The hypotheses of C4 (amended) hold of N = 10, C = 5, QPS = 0 and the run
`failingSched`, after which the queue holds one sample, with a non-nil error. -/
theorem makeRequest_records_rpc_outcome_witness :
    (0 : Int) ≤ 5 ∧ (5 : Int) < 2 ^ 31 ∧ ((0 : ℚ) < 0 → throttleOf 0 ≠ none) ∧
    (∀ a ∈ failingSched, a.dialOk = true) ∧ callsErr (fun e => e ≠ none) failingSched ∧
    (reached 10 5 0 0 failingSched).status = none ∧
    (reached 10 5 0 0 failingSched).res.buf.length = 1 ∧
    (∀ r ∈ (reached 10 5 0 0 failingSched).res.buf, r.err ≠ none) :=
  ⟨by decide, by decide, fun h => absurd h (by decide), by decide, failingSched_fails,
    (makeRequest_records_rpc_outcome 10 5 0 0 (by decide) (by decide)
      (fun h => absurd h (by decide)) failingSched (by decide)
      failingSched_fails).2.2.2.2.2.1,
    by decide,
    (makeRequest_records_rpc_outcome 10 5 0 0 (by decide) (by decide)
      (fun h => absurd h (by decide)) failingSched (by decide)
      failingSched_fails).2.2.2.2.2.2.2.1⟩

/-- C9: the catalog is ["zhu", "bin", "hua"]; for every draw of the random source
`makeRequestBody` indexes it in bounds and returns a request whose name is "zhu" or
"bin", never the last entry "hua"; and each of the two is returned for some draw. -/
theorem makeRequestBody_excludes_last :
    names = ["zhu", "bin", "hua"] ∧ names.getLast? = some "hua" ∧
    (∀ rnd : Nat, ∃ index name, Intn ((names.length : Int) - 1) rnd = .ok index ∧
      index < names.length ∧ names[index]? = some name ∧
      makeRequestBody rnd = .ok ⟨name⟩ ∧ (name = "zhu" ∨ name = "bin") ∧ name ≠ "hua") ∧
    (∃ rnd, makeRequestBody rnd = .ok ⟨"zhu"⟩) ∧
    (∃ rnd, makeRequestBody rnd = .ok ⟨"bin"⟩) := by
  refine ⟨rfl, rfl, ?_, ⟨0, rfl⟩, ⟨1, rfl⟩⟩
  intro rnd
  have h : rnd % 2 = 0 ∨ rnd % 2 = 1 := by omega
  rcases h with h | h
  · refine ⟨0, "zhu", ?_, by decide, rfl, ?_, Or.inl rfl, by decide⟩
    · simp [Intn, names, h]
    · simp [makeRequestBody, Intn, names, h]
  · refine ⟨1, "bin", ?_, by decide, rfl, ?_, Or.inr rfl, by decide⟩
    · simp [Intn, names, h]
    · simp [makeRequestBody, Intn, names, h]

/-- C5 (as stated) fails: `Init` panics in `make` on a driver with C = -1, and on
one with C = 9223372036854776, for which `C * 1000` overflows to a negative size. -/
theorem Init_panics_on_negative_size :
    Init (RpcWork.fresh 1 (-1) 0 0) = .error .makechanSize ∧
    Init (RpcWork.fresh 9223372036854776 9223372036854776 0 0) = .error .makechanSize ∧
    wrap64 (9223372036854776 * 1000) < 0 :=
  ⟨rfl, rfl, by decide⟩

/-- C5 (amended): on every driver on which `Init` has already run, or whose C is
non-negative with C * 1000 within `int`, `Init` does not fail; the first `Init`
allocates an empty open result queue of capacity min(C * 1000, 1000000) and an empty
open stop channel of capacity C and changes nothing else; every later `Init` returns
the driver unchanged, also after N, C, the timeout or QPS were changed; so
`Init (Init s) = Init s`. -/
theorem Init_idempotent (b : RpcWork)
    (hC : b.initOnce = false → 0 ≤ b.C ∧ b.C * 1000 < 2 ^ 63) :
    ∃ b1, Init b = .ok b1 ∧ b1.initOnce = true ∧
      (b.initOnce = false → b1 = { b with
        initOnce := true,
        results := some ⟨(min (b.C * 1000) maxResult).toNat, [], false⟩,
        stopCh := some ⟨b.C.toNat, [], false⟩ }) ∧
      (b.initOnce = true → b1 = b) ∧
      Init b1 = .ok b1 ∧
      ∀ (N C T : Int) (Q : ℚ),
        Init { b1 with N := N, C := C, Timeout := T, QPS := Q }
          = .ok { b1 with N := N, C := C, Timeout := T, QPS := Q } := by
  rcases Bool.eq_false_or_eq_true b.initOnce with hi | hi
  · have e1 : Init b = .ok b := by simp [Init, hi]
    refine ⟨b, e1, hi, ?_, fun _ => rfl, e1, ?_⟩
    · intro h
      rw [hi] at h
      cases h
    · intro N C T Q
      simp [Init, hi]
  · obtain ⟨h0, h1⟩ := hC hi
    obtain ⟨s1, s2, s3⟩ := sizes_ok b.C h0 h1
    rcases Init_fresh b hi with ⟨_, h2⟩ | ⟨_, _, h2⟩
    · omega
    · rw [s3] at h2
      refine ⟨_, h2, rfl, fun _ => rfl, ?_, ?_, ?_⟩
      · intro h
        rw [hi] at h
        cases h
      · simp [Init]
      · intro N C T Q
        simp [Init]

/-- The hypothesis of C5 (amended) holds of a fresh driver with C = 10. -/
theorem Init_idempotent_witness :
    ((RpcWork.fresh 100 10 0 0).initOnce = false →
      (0 : Int) ≤ (RpcWork.fresh 100 10 0 0).C ∧
      (RpcWork.fresh 100 10 0 0).C * 1000 < 2 ^ 63) ∧
    ∃ b1, Init (RpcWork.fresh 100 10 0 0) = .ok b1 ∧ b1.initOnce = true ∧
      b1.results = some ⟨10000, [], false⟩ ∧ b1.stopCh = some ⟨10, [], false⟩ ∧
      Init b1 = .ok b1 :=
  ⟨fun _ => by decide,
    (Init_idempotent (RpcWork.fresh 100 10 0 0) (fun _ => by decide)).imp fun b1 hb =>
      ⟨hb.1, hb.2.1, by rw [hb.2.2.1 rfl]; rfl, by rw [hb.2.2.1 rfl]; rfl, hb.2.2.2.2.1⟩⟩

/-- C7 (as stated) fails: for QPS = 3, a binary64 value, the tick period is 333333
microseconds, which is not 1000000 / 3 microseconds and is shorter than 1/3 second,
so the worker may issue more than 3 attempts per second. -/
theorem tickPeriod_three_too_short :
    isFloat64 3 ∧ tickPeriod 3 = 333333 * Microsecond ∧
    (tickPeriod 3 : ℚ) / 1000 ≠ 1000000 / 3 ∧
    ¬ ((1 : ℚ) / 3 ≤ (tickPeriod 3 : ℚ) / 10 ^ 9) := by
  have h : tickPeriod 3 = 333333000 := by decide
  refine ⟨⟨by norm_num, ⟨3 * 2 ^ 51, 51⟩, by decide, ?_⟩, by decide, ?_, ?_⟩
  · simp only [F64.toRat]
    norm_num
  · rw [h]; norm_num
  · rw [h]; norm_num

/-- C7 (amended): for every QPS = Q with 1000000 / 2^53 < Q ≤ 1000000, the tick
period `runWorker` hands to `time.Tick` is p microseconds, where p is the binary64
quotient 1000000 / Q truncated to an integer; p is at least 1, so the throttle
exists; p is at most (1000000 / Q) * (1 + 2^-53) and more than
(1000000 / Q) * (1 - 2^-53) - 1: the period is the exact 1000000 / Q microseconds
up to the rounding of the quotient and the truncation, which shorten it by less than
a microsecond (and the rounding error). -/
theorem tickPeriod_truncated (Q : ℚ) (hlo : 1000000 / 2 ^ 53 < Q) (hhi : Q ≤ 1000000) :
    ∃ (fl : F64) (p : Nat), f64divPos 1000000 Q = some fl ∧ p = fl.trunc ∧
      tickPeriod Q = (p : Int) * Microsecond ∧ throttleOf Q = some ((p : Int) * Microsecond) ∧
      1 ≤ p ∧
      (p : ℚ) ≤ 1000000 / Q * (1 + 1 / 2 ^ 53) ∧
      1000000 / Q * (1 - 1 / 2 ^ 53) - 1 < (p : ℚ) := by
  obtain ⟨fl, p, h1, h2, h3, h4, h5, h6, h7⟩ := tickPeriod_mid Q hlo hhi
  refine ⟨fl, p, h1, h2, ?_, ?_, h5, h6, h7⟩
  · rw [h3, Microsecond, mul_comm]
  · rw [h4, Microsecond, mul_comm]

/-- The hypotheses of C7 (amended) hold of QPS = 3. -/
theorem tickPeriod_truncated_witness :
    ((1000000 : ℚ) / 2 ^ 53 < 3) ∧ ((3 : ℚ) ≤ 1000000) ∧
    ∃ (fl : F64) (p : Nat), f64divPos 1000000 3 = some fl ∧ p = fl.trunc ∧
      tickPeriod 3 = (p : Int) * Microsecond ∧ throttleOf 3 = some ((p : Int) * Microsecond) ∧
      1 ≤ p ∧
      (p : ℚ) ≤ 1000000 / 3 * (1 + 1 / 2 ^ 53) ∧
      1000000 / 3 * (1 - 1 / 2 ^ 53) - 1 < (p : ℚ) :=
  ⟨by norm_num, by norm_num, tickPeriod_truncated 3 (by norm_num) (by norm_num)⟩

/-- C10, at the failing input QPS = 2000000 (a binary64 value): `1e6/QPS` is 0.5,
truncated to 0, so the tick period is 0, `time.Tick` returns nil and `throttleOf`
is the nil channel although QPS > 0; in `throttledRun` the worker has reached line
106 with that nil throttle, and whatever is scheduled afterwards it stays there, no
call is made and `Run` does not return. -/
theorem throttle_missing_at_high_QPS :
    isFloat64 2000000 ∧ (0 : ℚ) < 2000000 ∧
    f64divPos 1000000 2000000 = some ⟨2 ^ 52, 53⟩ ∧
    (⟨2 ^ 52, 53⟩ : F64).toRat = 1 / 2 ∧ (⟨2 ^ 52, 53⟩ : F64).trunc = 0 ∧
    tickPeriod 2000000 = 0 ∧ timeTick 0 = none ∧ throttleOf 2000000 = none ∧
    throttledRun.status = none ∧
    throttledRun.workers = [⟨.tick 0, 1, none, 0, 0, 0⟩] ∧
    (∀ env, step throttledRun (.worker 0 env) = none) ∧
    ∀ more, (run throttledRun more).workers = [⟨.tick 0, 1, none, 0, 0, 0⟩] ∧
      (run throttledRun more).totalCalls = 0 ∧
      (run throttledRun more).main ≠ .returned := by
  refine ⟨⟨by norm_num, ⟨15625 * 2 ^ 39, 32⟩, by decide, ?_⟩, by norm_num, by decide, ?_,
    by decide, by decide, by decide, by decide, by decide, by decide, ?_, ?_⟩
  · simp only [F64.toRat]
    norm_num
  · simp only [F64.toRat]
    norm_num
  · intro env
    have hw : throttledRun.workers[0]? = some ⟨.tick 0, 1, none, 0, 0, 0⟩ := by decide
    have hs : throttledRun.status = none := by decide
    simp only [step, hs, stepWorker, hw]
  · intro more
    have hw : throttledRun.workers[0]? = some ⟨.tick 0, 1, none, 0, 0, 0⟩ := by decide
    obtain ⟨h1, h2⟩ := blocked_worker_hangs 1 1 0 2000000 (by norm_num) _ 0 0 _ hw rfl rfl more
    have hinv : Inv 1 1 2000000 (run throttledRun more) := Inv_reach_more 1 1 0 2000000 _ more
    have hlen := workers_le hinv
    have hlen1 : (1 : Int).toNat = 1 := rfl
    rw [hlen1] at hlen
    change (run throttledRun more).workers[0]? = _ at h1
    have hl : (run throttledRun more).workers = [⟨.tick 0, 1, none, 0, 0, 0⟩] := by
      generalize (run throttledRun more).workers = l at h1 hlen
      match l, h1, hlen with
      | [x], h1, _ =>
        simp at h1
        subst h1
        rfl
      | [], h1, _ => simp at h1
      | _ :: _ :: _, _, hlen => simp at hlen
    refine ⟨hl, ?_, h2⟩
    unfold Sys.totalCalls
    rw [hl]
    rfl

end requester
